import Mathlib

/-! ROS-Turtlebot-Navigation: D* Lite planner and particle filter.

A shallow embedding of `planner/dstar_light.cpp` and of the SLAM step, weight
handling and resampling of `bmapping/particle_filter.cpp`.

Conventions of the embedding.

* `double` values are elements of a linearly ordered ring (planner) or field
  (particle filter) `K`, with exact arithmetic.  `std::sqrt` (always applied to
  an `int` in the planner) is the parameter `Env.sqrt`; the tolerance of
  `rigid2d::almost_equal` is the parameter `Env.eps`.
* `normalizeWeights` and `effectiveParticles`, whose Boolean result can hinge
  on one rounding, take their arithmetic from the classes `DoubleArith` and
  `DoubleCast`: the instance of an ordered field is exact arithmetic, the
  instance of `Binary64` rounds every result as IEEE 754 binary64 does.
* `std::vector::at` is `at?`; an out-of-range index (an exception in C++) and a
  `front()` or `begin()` dereference of an empty vector (undefined behaviour)
  both make the enclosing operation return `none`.
* `std::sort` is the stable insertion sort `List.insertionSort`.
* Loops that C++ does not bound (`planPath`, `getPath`) take a fuel argument;
  running out of fuel also yields `none`.
-/

namespace Cpp

/-- Access `v.at(id)` of a `std::vector` with an `int` index: `none` when the
index is negative or past the end. -/
def at? {α : Type} (v : List α) (id : ℤ) : Option α :=
  if 0 ≤ id then v[id.toNat]? else none

/-- Assignment `v.at(id) = c` (only used after a successful `at?`). -/
def setAt {α : Type} (v : List α) (id : ℤ) (c : α) : List α :=
  v.set id.toNat c

/-- Conversion of a `double` to `int` (`static_cast<int>`, or the implicit
conversion in `int i = x`): truncation toward zero. -/
def truncInt {K : Type} [LinearOrderedRing K] [FloorRing K] (x : K) : ℤ :=
  if 0 ≤ x then ⌊x⌋ else ⌈x⌉

/-- The integers `a, a + 1, …, b` visited by `for (int i = a; i <= b; i++)`. -/
def intRange (a b : ℤ) : List ℤ :=
  (List.range (b + 1 - a).toNat).map fun n => a + (n : ℤ)

end Cpp

namespace Planner

/-- Planner grid cell (`Cell` of `dstar_light.hpp`): grid indices, row-major id,
world point, occupancy state, the costs `g`, `rhs`, `h`, the key `(k1, k2)`,
the parent link and the `updated` flag. -/
structure Cell (K P : Type) where
  i : ℤ
  j : ℤ
  id : ℤ
  p : P
  state : ℤ
  g : K
  rhs : K
  h : K
  k1 : K
  k2 : K
  parent_id : ℤ
  updated : Bool
deriving DecidableEq

/-- Numeric environment: `std::sqrt` on integers and the tolerance of
`rigid2d::almost_equal`. -/
structure Env (K : Type) where
  sqrt : ℤ → K
  eps : K

/-- Modelled from the spec: the external `GridMap` interface used by the planner
(`getGridSize`, `grid2RowMajor`, `worldBounds`, `world2Grid`); only its size and
the world-to-grid conversion are data. -/
structure GridMap (P : Type) where
  xsize : ℤ
  ysize : ℤ
  world2Grid : P → ℤ × ℤ

/-- Modelled from the spec: `GridMap::grid2RowMajor`, the row-major id
`i * ysize + j` of cell `(i, j)` (the inverse of `row = id / ysize`,
`col = id % ysize` used by `getGridViz`). -/
def GridMap.grid2RowMajor {P : Type} (gm : GridMap P) (i j : ℤ) : ℤ :=
  i * gm.ysize + j

/-- Modelled from the spec: `GridMap::worldBounds`, true exactly when
`0 ≤ i < xsize` and `0 ≤ j < ysize`. -/
def GridMap.worldBounds {P : Type} (gm : GridMap P) (i j : ℤ) : Bool :=
  decide (0 ≤ i) && decide (i < gm.xsize) && decide (0 ≤ j) && decide (j < gm.ysize)

/-- State of a `DStarLight` object. -/
structure DStarLight (K P : Type) where
  gridmap : GridMap P
  vizd : K
  ref_grid : List (Cell K P)
  grid : List (Cell K P)
  open_list : List (Cell K P)
  visited : List ℤ
  path : List P
  occu_cost : K
  start_id : ℤ
  goal_id : ℤ
  curr_id : ℤ
  goal_reached : Bool

open Cpp

section Core

variable {K P : Type} [LinearOrderedRing K]

/-- Modelled from the spec: `Cell::calculateKeys`, `k1 = min(g, rhs) + h` and
`k2 = min(g, rhs)`. -/
def Cell.calculateKeys (c : Cell K P) : Cell K P :=
  { c with k1 := min c.g c.rhs + c.h, k2 := min c.g c.rhs }

/-- The statement pair `c.h = h; c.calculateKeys();`. -/
def Cell.setHKeys (c : Cell K P) (h : K) : Cell K P :=
  Cell.calculateKeys { c with h := h }

/-- Modelled from the spec: the comparator `SortKey`, ascending lexicographic
order on `(k1, k2)`. -/
def SortKey (a b : Cell K P) : Prop :=
  a.k1 < b.k1 ∨ (a.k1 = b.k1 ∧ a.k2 < b.k2)

instance SortKey.decidable (a b : Cell K P) : Decidable (SortKey a b) := by
  unfold SortKey; infer_instance

/-- The order handed to the insertion sort: `a` may stand before `b` when `b`
does not sort strictly before `a`. -/
def keyLE (a b : Cell K P) : Prop := ¬ SortKey b a

instance keyLE.decidable (a b : Cell K P) : Decidable (keyLE a b) := by
  unfold keyLE; infer_instance

/-- Modelled from the spec: the comparator `SortCost` on `(id, cost)` pairs,
ascending cost. -/
def SortCost (a b : ℤ × K) : Prop := a.2 < b.2

/-- The order handed to the insertion sort of `(id, cost)` pairs. -/
def costLE (a b : ℤ × K) : Prop := ¬ SortCost b a

instance costLE.decidable (a b : ℤ × K) : Decidable (costLE a b) := by
  unfold costLE SortCost; infer_instance

/-- Modelled from the spec: `rigid2d::almost_equal`, an absolute tolerance
comparison `|a - b| < eps`. -/
def almost_equal (E : Env K) (a b : K) : Bool := decide (|a - b| < E.eps)

/-- `DStarLight::heuristic`: Euclidean distance in grid indices from cell `id`
to the start cell. -/
def heuristic (E : Env K) (s : DStarLight K P) (id : ℤ) : Option K := do
  let start ← at? s.grid s.start_id
  let cell ← at? s.grid id
  let dx := |cell.i - start.i|
  let dy := |cell.j - start.j|
  pure (E.sqrt (dx * dx + dy * dy))

/-- `DStarLight::edgeCost`: the occupancy cost when `b` is occupied or inflated,
else the Euclidean distance in grid indices. -/
def edgeCost (E : Env K) (s : DStarLight K P) (id1 id2 : ℤ) : Option K := do
  let a ← at? s.grid id1
  let b ← at? s.grid id2
  if b.state = 1 ∨ b.state = 2 then
    pure s.occu_cost
  else
    let dx := |a.i - b.i|
    let dy := |a.j - b.j|
    pure (E.sqrt (dx * dx + dy * dy))

/-- The eight actions of `DStarLight::neighbors`, in source order. -/
def actions : List (ℤ × ℤ) :=
  [(0, -1), (0, 1), (-1, 0), (1, 0), (-1, -1), (-1, 1), (1, -1), (1, 1)]

/-- `DStarLight::neighbors`: ids of the in-bounds cells among the eight
neighbours of `cell`. -/
def neighbors (gm : GridMap P) (cell : Cell K P) : List ℤ :=
  actions.filterMap fun a =>
    let i_n := cell.i + a.1
    let j_n := cell.j + a.2
    let idn := gm.grid2RowMajor i_n j_n
    if gm.worldBounds i_n j_n then some idn else none

/-- The loop of `DStarLight::minNeighbor` building `id_cost`. -/
def idCosts (E : Env K) (s : DStarLight K P) (id : ℤ) (exc_obs : Bool) :
    List ℤ → Option (List (ℤ × K))
  | [] => some []
  | nid :: rest => do
    let n ← at? s.grid nid
    if !exc_obs then
      let e ← edgeCost E s id nid
      let tl ← idCosts E s id exc_obs rest
      pure ((nid, n.g + e) :: tl)
    else if n.state ≠ 1 ∧ n.state ≠ 2 then
      let e ← edgeCost E s id nid
      let tl ← idCosts E s id exc_obs rest
      pure ((nid, n.g + e) :: tl)
    else
      idCosts E s id exc_obs rest

/-- `DStarLight::minNeighbor`: the neighbour of `id` with the least
`g + edgeCost`, optionally excluding occupied and inflated cells. -/
def minNeighbor (E : Env K) (s : DStarLight K P) (id : ℤ) (exc_obs : Bool) : Option ℤ := do
  let cell ← at? s.grid id
  let id_cost ← idCosts E s id exc_obs (neighbors s.gridmap cell)
  let sorted := id_cost.insertionSort costLE
  let front ← sorted.head?
  pure front.1

/-- First part of `DStarLight::updateCell`: for a cell other than the goal,
recompute `rhs` and the parent from the cheapest neighbour. -/
def updateRhs (E : Env K) (s : DStarLight K P) (id : ℤ) : Option (DStarLight K P) :=
  if id ≠ s.goal_id then do
    let min_id ← minNeighbor E s id false
    let m ← at? s.grid min_id
    let e ← edgeCost E s id min_id
    let c ← at? s.grid id
    pure { s with grid := setAt s.grid id { c with rhs := m.g + e, parent_id := min_id } }
  else
    pure s

/-- Second part of `DStarLight::updateCell`: remove the cell from the open list
and, when it is locally inconsistent, insert it again with a fresh key. -/
def refreshOpen (E : Env K) (s : DStarLight K P) (id : ℤ) : Option (DStarLight K P) := do
  let ol := s.open_list.eraseP fun c => decide (c.id = id)
  let c ← at? s.grid id
  if c.rhs ≠ c.g then
    let h ← heuristic E s id
    let c1 := c.setHKeys h
    pure { s with grid := setAt s.grid id c1, open_list := ol ++ [c1] }
  else
    pure { s with open_list := ol }

/-- `DStarLight::updateCell`. -/
def updateCell (E : Env K) (s : DStarLight K P) (id : ℤ) : Option (DStarLight K P) := do
  let s1 ← updateRhs E s id
  refreshOpen E s1 id

/-- `DStarLight::ifPlanning`: refreshes the start key, sorts the open list and
decides whether planning continues. -/
def ifPlanning (E : Env K) (s : DStarLight K P) : Option (Bool × DStarLight K P) := do
  let h ← heuristic E s s.start_id
  let c ← at? s.grid s.start_id
  let start := c.setHKeys h
  let ol := s.open_list.insertionSort keyLE
  let top ← ol.head?
  let s1 := { s with grid := setAt s.grid s.start_id start, open_list := ol }
  if almost_equal E top.k1 start.k1 then
    pure (decide (top.k2 < start.k2 ∨ start.rhs ≠ start.g), s1)
  else
    pure (decide (top.k1 < start.k1 ∨ start.rhs ≠ start.g), s1)

/-- The loop `for (id : pred) { updateCell(id); visited.push_back(id); }`. -/
def visitAll (E : Env K) : DStarLight K P → List ℤ → Option (DStarLight K P)
  | s, [] => some s
  | s, id :: rest => do
    let s1 ← updateCell E s id
    visitAll E { s1 with visited := s1.visited ++ [id] } rest

/-- Body of the `while` loop of `DStarLight::planPath`: pop the first cell of the
(sorted) open list and expand it. -/
def expand (E : Env K) (s : DStarLight K P) : Option (DStarLight K P) :=
  match s.open_list with
  | [] => none
  | min_cell :: rest => do
    let s1 := { s with open_list := rest, curr_id := min_cell.id }
    let c ← at? s1.grid min_cell.id
    if min_cell.g > min_cell.rhs then
      let s2 := { s1 with grid := setAt s1.grid min_cell.id { c with g := c.rhs } }
      visitAll E s2 (neighbors s2.gridmap min_cell)
    else
      let s2 := { s1 with grid := setAt s1.grid min_cell.id { c with g := 1000000000000 } }
      let s3 ← visitAll E s2 (neighbors s2.gridmap min_cell)
      let s4 ← updateCell E s3 min_cell.id
      pure { s4 with visited := s4.visited ++ [min_cell.id] }

/-- One evaluation of the loop condition of `planPath` together with the body it
guards: `(true, s1)` after an iteration, `(false, s1)` when the loop exits. -/
def planStep (E : Env K) (s : DStarLight K P) : Option (Bool × DStarLight K P) := do
  let (b, s1) ← ifPlanning E s
  if b then
    let s2 ← expand E s1
    pure (true, s2)
  else
    pure (false, s1)

/-- The `while (ifPlanning())` loop of `planPath`, with fuel. -/
def planLoop (E : Env K) : ℕ → DStarLight K P → Option (DStarLight K P)
  | 0, _ => none
  | fuel + 1, s => do
    let (b, s1) ← planStep E s
    if b then planLoop E fuel s1 else pure s1

/-- `DStarLight::planPath`. -/
def planPath (E : Env K) (fuel : ℕ) (s : DStarLight K P) : Option (DStarLight K P) :=
  planLoop E fuel { s with visited := [] }

/-- `DStarLight::initPath`. -/
def initPath (E : Env K) (s : DStarLight K P) (start goal : P) : Option (DStarLight K P) := do
  let gc := s.gridmap.world2Grid start
  let s1 := { s with start_id := s.gridmap.grid2RowMajor gc.1 gc.2 }
  let gc := s1.gridmap.world2Grid goal
  let s2 := { s1 with goal_id := s1.gridmap.grid2RowMajor gc.1 gc.2 }
  let c ← at? s2.grid s2.goal_id
  let s3 := { s2 with grid := setAt s2.grid s2.goal_id { c with rhs := 0 } }
  let h ← heuristic E s3 s3.start_id
  let c ← at? s3.grid s3.goal_id
  let c1 := c.setHKeys h
  pure { s3 with grid := setAt s3.grid s3.goal_id c1, open_list := s3.open_list ++ [c1] }

/-- The parent-chain loop of `DStarLight::getPath`, with fuel. -/
def followParents (grid : List (Cell K P)) : ℕ → ℤ → Option (List P)
  | 0, _ => none
  | fuel + 1, id =>
    if id = -1 then some []
    else do
      let c ← at? grid id
      let tl ← followParents grid fuel c.parent_id
      pure (c.p :: tl)

/-- `DStarLight::getPath`: the traversed path followed by the parent chain from
the start cell. -/
def getPath (fuel : ℕ) (s : DStarLight K P) : Option (List P) := do
  let tl ← followParents s.grid fuel s.start_id
  pure (s.path ++ tl)

end Core

section Traversal

variable {K P : Type} [LinearOrderedRing K] [FloorRing K]

/-- The body of the double loop of `simulateGridUpdate` for one cell id: reveal
the true state of a cell that was not observed before. -/
def revealCell (s : DStarLight K P) (cell_id : List ℤ) (id : ℤ) :
    Option (DStarLight K P × List ℤ) := do
  let c ← at? s.grid id
  if !c.updated then
    let r ← at? s.ref_grid id
    pure ({ s with grid := setAt s.grid id { c with updated := true, state := r.state } },
          cell_id ++ [id])
  else
    pure (s, cell_id)

/-- Sequential `revealCell` over a list of ids. -/
def revealAll : DStarLight K P → List ℤ → List ℤ → Option (DStarLight K P × List ℤ)
  | s, cell_id, [] => some (s, cell_id)
  | s, cell_id, id :: rest => do
    let (s1, cell_id1) ← revealCell s cell_id id
    revealAll s1 cell_id1 rest

/-- `DStarLight::simulateGridUpdate`: reveals the cells in the bounding box of
half-width `vizd` around the start cell; returns the ids that changed. -/
def simulateGridUpdate (s : DStarLight K P) : Option (DStarLight K P × List ℤ) := do
  let u ← at? s.grid s.start_id
  let i_min : K := (u.i : K) - s.vizd
  let i_max : K := (u.i : K) + s.vizd
  let j_min : K := (u.j : K) - s.vizd
  let j_max : K := (u.j : K) + s.vizd
  let xsize := s.gridmap.xsize
  let ysize := s.gridmap.ysize
  let i_min := if i_min < 0 then 0 else i_min
  let j_min := if j_min < 0 then 0 else j_min
  let i_max := if i_max ≥ (xsize : K) then ((xsize - 1 : ℤ) : K) else i_max
  let j_max := if j_max ≥ (ysize : K) then ((ysize - 1 : ℤ) : K) else j_max
  let ids := (intRange (truncInt i_min) ⌊i_max⌋).flatMap fun i =>
    (intRange (truncInt j_min) ⌊j_max⌋).map fun j => s.gridmap.grid2RowMajor i j
  revealAll s [] ids

/-- The loop `for (n : nid) updateCell(n)`. -/
def updateAll (E : Env K) : DStarLight K P → List ℤ → Option (DStarLight K P)
  | s, [] => some s
  | s, n :: rest => do
    let s1 ← updateCell E s n
    updateAll E s1 rest

/-- The loop of `pathTraversal` over the changed cells: update every neighbour
of every changed cell. -/
def updateChanged (E : Env K) : DStarLight K P → List ℤ → Option (DStarLight K P)
  | s, [] => some s
  | s, cid :: rest => do
    let c ← at? s.grid cid
    let s1 ← updateAll E s (neighbors s.gridmap c)
    updateChanged E s1 rest

/-- The loop of `pathTraversal` recomputing `h` and the key of every cell stored
in the open list. -/
def rekey (E : Env K) (s : DStarLight K P) : List (Cell K P) → Option (List (Cell K P))
  | [] => some []
  | cell :: rest => do
    let h ← heuristic E s cell.id
    let tl ← rekey E s rest
    pure (cell.setHKeys h :: tl)

/-- `DStarLight::pathTraversal`. -/
def pathTraversal (E : Env K) (fuel : ℕ) (s : DStarLight K P) : Option (DStarLight K P) :=
  if s.start_id = s.goal_id ∧ s.goal_reached = false then
    some { s with goal_reached := true }
  else do
    let sid ← minNeighbor E s s.start_id true
    let s1 := { s with start_id := sid }
    let c ← at? s1.grid s1.start_id
    let s2 := { s1 with path := s1.path ++ [c.p] }
    let (s3, cell_id) ← simulateGridUpdate s2
    if cell_id ≠ [] then
      let s4 ← updateChanged E s3 cell_id
      let ol ← rekey E s4 s4.open_list
      planPath E fuel { s4 with open_list := ol }
    else
      pure s3

end Traversal

/-- Modelled from the spec: the cells delivered by `GridMap::getGrid` for an
`xs × ys` grid, as the constructor of `DStarLight` leaves them: cell `n` has
indices `(n / ys, n % ys)`, id `n`, world point `pt n`, the given occupancy
state, `g = rhs = 1e12` (the sentinel for +∞), no parent and `updated = false`. -/
def freshGrid {K P : Type} [LinearOrderedRing K] (xs ys : ℕ) (pt : ℕ → P) (st : ℕ → ℤ) :
    List (Cell K P) :=
  (List.range (xs * ys)).map fun n =>
    { i := ((n / ys : ℕ) : ℤ), j := ((n % ys : ℕ) : ℤ), id := (n : ℤ), p := pt n, state := st n,
      g := 1000000000000, rhs := 1000000000000, h := 0, k1 := 0, k2 := 0,
      parent_id := -1, updated := false }

/-- The constructor `DStarLight::DStarLight` on an `xs × ys` grid whose true
occupancy states are `st`: the working grid starts all free, the occupancy cost
is `1000`, ids are `0` and the goal flag is off. -/
def freshPlanner {K P : Type} [LinearOrderedRing K] (xs ys : ℕ) (pt : ℕ → P) (st : ℕ → ℤ)
    (world2Grid : P → ℤ × ℤ) (vizd : K) : DStarLight K P :=
  { gridmap := { xsize := xs, ysize := ys, world2Grid := world2Grid },
    vizd := vizd,
    ref_grid := freshGrid xs ys pt st,
    grid := freshGrid xs ys pt fun _ => 0,
    open_list := [], visited := [], path := [], occu_cost := 1000,
    start_id := 0, goal_id := 0, curr_id := 0, goal_reached := false }

/-- Key `(k1, k2)` stored in the start cell. -/
def startKey {K P : Type} (s : DStarLight K P) : Option (K × K) :=
  (at? s.grid s.start_id).map fun c => (c.k1, c.k2)

/-- Keys `(k1, k2)` of the cells stored in the open list, in list order. -/
def openKeys {K P : Type} (s : DStarLight K P) : List (K × K) :=
  s.open_list.map fun c => (c.k1, c.k2)

/-- The part of a cell the open-set invariant speaks about: `(id, g, rhs)`. -/
def core {K P : Type} (c : Cell K P) : ℤ × K × K := (c.id, c.g, c.rhs)

/-- Invariant on the `(id, g, rhs)` triples of the grid `G` and of the open
list `O`: every grid cell carries its own index as id, every open cell is a
faithful copy of the grid cell with its id and is locally inconsistent, and no
id occurs twice in the open list. -/
def InvCore {K : Type} (G O : List (ℤ × K × K)) : Prop :=
  (∀ id x, at? G id = some x → x.1 = id) ∧
  (∀ x ∈ O, at? G x.1 = some x ∧ x.2.1 ≠ x.2.2) ∧
  (O.map Prod.fst).Nodup

/-- The planner invariant: `InvCore` of the grid and the open list. -/
def Inv {K P : Type} (s : DStarLight K P) : Prop :=
  InvCore (s.grid.map core) (s.open_list.map core)

/-- A freshly constructed planner: the open list is empty, every cell carries its
own index as id, and every cell has `g = rhs`, a non-zero sentinel. -/
def Fresh {K P : Type} [LinearOrderedRing K] (s : DStarLight K P) : Prop :=
  s.open_list = [] ∧
  ∀ id c, at? s.grid id = some c → c.id = id ∧ c.rhs = c.g ∧ c.g ≠ 0

/-- Planner states reachable from a fresh planner by one `initPath` followed by
any sequence of `planPath` loop iterations, whole `planPath` calls,
`updateCell` calls and `pathTraversal` calls. -/
inductive Reachable {K P : Type} [LinearOrderedRing K] [FloorRing K] (E : Env K) :
    DStarLight K P → Prop
  | init (s0 : DStarLight K P) (start goal : P) (s : DStarLight K P) :
      Fresh s0 → initPath E s0 start goal = some s → Reachable E s
  | step (s : DStarLight K P) (b : Bool) (s1 : DStarLight K P) :
      Reachable E s → planStep E s = some (b, s1) → Reachable E s1
  | plan (s : DStarLight K P) (fuel : ℕ) (s1 : DStarLight K P) :
      Reachable E s → planPath E fuel s = some s1 → Reachable E s1
  | update (s : DStarLight K P) (id : ℤ) (s1 : DStarLight K P) :
      Reachable E s → updateCell E s id = some s1 → Reachable E s1
  | traverse (s : DStarLight K P) (fuel : ℕ) (s1 : DStarLight K P) :
      Reachable E s → pathTraversal E fuel s = some s1 → Reachable E s1

/-- Every cell stored in the open list is locally inconsistent, both in its
stored copy and in the backing grid. -/
def OpenInconsistent {K P : Type} (s : DStarLight K P) : Prop :=
  ∀ c ∈ s.open_list, c.g ≠ c.rhs ∧ ∃ gc, at? s.grid c.id = some gc ∧ gc.g ≠ gc.rhs

/-- Example environment over `ℚ`: the square root is exact on perfect squares
(the only arguments on a grid with a single row), the tolerance is `1e-12`. -/
def exampleEnv : Env ℚ :=
  { sqrt := fun z => ((Nat.sqrt z.toNat : ℕ) : ℚ), eps := 1 / 1000000000000 }

/-- Example planner over `ℚ`: a fresh `1 × 4` corridor whose world points are the
grid indices themselves. -/
def corridor : DStarLight ℚ (ℤ × ℤ) :=
  freshPlanner 1 4 (fun n => (0, (n : ℤ))) (fun _ => 0) id 1

/-- The corridor after `initPath` with start cell `(0, 1)` and goal cell `(0, 0)`. -/
def corridorStart : DStarLight ℚ (ℤ × ℤ) :=
  (initPath exampleEnv corridor (0, 1) (0, 0)).getD corridor

/-- The corridor after `initPath` and one `planPath`. -/
def corridorDone : DStarLight ℚ (ℤ × ℤ) :=
  (planPath exampleEnv 10 corridorStart).getD corridor

end Planner
namespace PF

/-- Eigen `Vector3d`; a pose is `(θ, x, y)` at indices `0, 1, 2`. -/
abbrev Vector3d (K : Type) := Fin 3 → K

/-- Eigen `MatrixXd` of size 3×3. -/
abbrev Matrix3d (K : Type) := Matrix (Fin 3) (Fin 3) K

/-- Planar twist `Twist2D` of `rigid2d`. -/
structure Twist2D (K : Type) where
  w : K
  vx : K
  vy : K

/-- A particle: weight, own grid, current and previous pose. -/
structure Particle (K G : Type) where
  weight : K
  grid : G
  pose : Vector3d K
  prev_pose : Vector3d K

/-- Exceptions raised inside the particle filter. -/
inductive Err where
  | out_of_range
  | invalid_argument
  | length_error
deriving DecidableEq

/-- Modelled from the spec: the external collaborators of the particle filter.
`K` are the doubles, `G` the occupancy grid, `S` a scan, `T` a `Transform2D`,
`M` the exported map. -/
structure Ext (K G S T M : Type) where
  normalize_angle_PI : K → K
  eps : K
  cos : K → K
  sin : K → K
  sqrt : K → K
  atan2 : K → K → K
  pdfNormal : K → K → K
  llt : Matrix3d K → Matrix3d K
  mkT : K → K → K → T
  mulT : T → T → T
  displacement : T → Vector3d K
  likelihoodFieldModel : G → S → T → K
  integrateScan : G → S → T → G
  gridMap : G → M
  pclICPWrapper : T → S → Bool × T

/-- State of a `ParticleFilter` object. -/
structure ParticleFilter (K G : Type) where
  num_particles_ : ℤ
  k_ : ℤ
  srr_ : K
  srt_ : K
  str_ : K
  stt_ : K
  scan_likelihood_min_ : K
  scan_likelihood_max_ : K
  pose_likelihood_min_ : K
  pose_likelihood_max_ : K
  normal_sqrd_sum_ : K
  motion_noise_ : Matrix3d K
  sample_range_ : Matrix3d K
  particle_set_ : List (Particle K G)

/-- Access `v.at(i)`, raising `out_of_range` like `std::vector::at`. -/
def atE {α : Type} (v : List α) (i : ℤ) : Except Err α :=
  match Cpp.at? v i with
  | some a => .ok a
  | none => .error .out_of_range

/-- The arithmetic of `double` that `normalizeWeights` and `effectiveParticles`
compute with: the literals `0.0` and `1.0`, the sum of `+=`, the quotient of
`/` and `/=`, and `std::pow(x, 2)`.  Each operation returns the value the
machine stores, so an instance decides how results are rounded. -/
class DoubleArith (F : Type) where
  zero : F
  one : F
  add : F → F → F
  div : F → F → F
  sq : F → F

/-- The conversion `static_cast<int>` of a `double`.  Converting a value whose
truncation does not fit an `int`, or a NaN, is undefined behaviour in C++ and
has no counterpart here. -/
class DoubleCast (F : Type) where
  toInt : F → ℤ

/-- Exact arithmetic: no operation rounds. -/
instance exactArith {K : Type} [LinearOrderedField K] : DoubleArith K :=
  { zero := 0, one := 1, add := fun a b => a + b, div := fun a b => a / b,
    sq := fun a => a ^ 2 }

/-- Exact arithmetic: `static_cast<int>` truncates toward zero. -/
instance exactCast {K : Type} [LinearOrderedRing K] [FloorRing K] : DoubleCast K :=
  { toInt := Cpp.truncInt }

section Weights

variable {F G : Type} [DoubleArith F]

/-- The first loop of `normalizeWeights`: the running sum of the weights. -/
def weightSum (ps : List (Particle F G)) : F :=
  ps.foldl (fun acc p => DoubleArith.add acc p.weight) DoubleArith.zero

/-- The accumulation `normal_sqrd_sum_ += pow(weight, 2)`. -/
def sqrdSum (ps : List (Particle F G)) : F :=
  ps.foldl (fun acc p => DoubleArith.add acc (DoubleArith.sq p.weight)) DoubleArith.zero

/-- `ParticleFilter::normalizeWeights`. -/
def normalizeWeights (pf : ParticleFilter F G) : ParticleFilter F G :=
  let sum := weightSum pf.particle_set_
  let ps := pf.particle_set_.map fun p => { p with weight := DoubleArith.div p.weight sum }
  { pf with particle_set_ := ps, normal_sqrd_sum_ := sqrdSum ps }

/-- `ParticleFilter::effectiveParticles`. -/
def effectiveParticles [DoubleCast F] (pf : ParticleFilter F G) : Bool :=
  decide (DoubleCast.toInt (DoubleArith.div DoubleArith.one pf.normal_sqrd_sum_)
    < Int.tdiv pf.num_particles_ 2)

end Weights

section Core

variable {K G S T M : Type} [LinearOrderedField K] [FloorRing K]

/-- Modelled from the spec: `rigid2d::almost_equal`, `|a - b| < eps`. -/
def almost_equal (X : Ext K G S T M) (a b : K) : Bool := decide (|a - b| < X.eps)

/-- The inner `while (U > c)` loop of `lowVarianceResampling`; returns the new
`(c, i)`.  The fuel bounds the number of iterations. -/
def resampleWhile (pf : ParticleFilter K G) (U : K) :
    ℕ → K → ℤ → Except Err (Option (K × ℤ))
  | 0, _, _ => .ok none
  | fuel + 1, c, i =>
    if U > c then
      let i1 := i + 1
      if i1 > pf.num_particles_ - 1 then
        .ok (some (c, pf.num_particles_ - 1))
      else do
        let p ← atE pf.particle_set_ i1
        resampleWhile pf U fuel (c + p.weight) i1
    else
      .ok (some (c, i))

/-- The `for (m = 0; m < num_particles_; m++)` loop of `lowVarianceResampling`:
`n` iterations remain, starting at `m`. -/
def resampleFor (pf : ParticleFilter K G) (fuel : ℕ) (r : K) :
    ℕ → ℤ → K → ℤ → List (Particle K G) → Except Err (Option (List (Particle K G)))
  | 0, _, _, _, temp => .ok (some temp)
  | n + 1, m, c, i, temp => do
    let U := r + (m : K) * (1 / ((pf.num_particles_ - 1 : ℤ) : K))
    match ← resampleWhile pf U fuel c i with
    | none => .ok none
    | some (c1, i1) =>
      let p ← atE pf.particle_set_ i1
      resampleFor pf fuel r n (m + 1) c1 i1 (temp ++ [p])

/-- `ParticleFilter::lowVarianceResampling`; `v` is the standard normal draw
`sampleStandardNormal(1)(0)`.  The result is `.ok none` when the fuel given to
an inner loop runs out. -/
def lowVarianceResampling (fuel : ℕ) (v : K) (pf : ParticleFilter K G) :
    Except Err (Option (ParticleFilter K G)) := do
  let r := v / (pf.num_particles_ : K)
  let p0 ← atE pf.particle_set_ 0
  match ← resampleFor pf fuel r pf.num_particles_.toNat 0 p0.weight 0 [] with
  | none => .ok none
  | some temp => .ok (some { pf with particle_set_ := temp })

/-- The loop shared by `getRobotState` and `newMap`: index of the first particle
whose weight exceeds every earlier weight and `0.0`; `n` iterations remain. -/
def bestLoop (pf : ParticleFilter K G) : ℕ → ℤ → K → ℤ → Except Err ℤ
  | 0, _, _, idx => .ok idx
  | n + 1, i, weight, idx => do
    let p ← atE pf.particle_set_ i
    if p.weight > weight then
      bestLoop pf n (i + 1) p.weight i
    else
      bestLoop pf n (i + 1) weight idx

/-- Loop invariant of `bestLoop` before iteration `i`: either nothing has been
seen yet (`i = 0`), or `idx < i` holds the weight `weight`, no weight at an
index below `i` exceeds it, and every weight at an index below `idx` is
strictly smaller. -/
def BestInv (ps : List (Particle K G)) (i : ℤ) (weight : K) (idx : ℤ) : Prop :=
  (i = 0 ∧ idx = 0 ∧ weight = 0) ∨
  (0 ≤ idx ∧ idx < i ∧ (∃ p, Cpp.at? ps idx = some p ∧ p.weight = weight) ∧
    (∀ (j : ℤ) q, 0 ≤ j → j < i → Cpp.at? ps j = some q → q.weight ≤ weight) ∧
    (∀ (j : ℤ) q, 0 ≤ j → j < idx → Cpp.at? ps j = some q → q.weight < weight))

/-- `ParticleFilter::getRobotState`. -/
def getRobotState (X : Ext K G S T M) (pf : ParticleFilter K G) : Except Err T := do
  let idx ← bestLoop pf pf.num_particles_.toNat 0 0 0
  let p ← atE pf.particle_set_ idx
  let pose := p.pose
  pure (X.mkT (pose 1) (pose 2) (pose 0))

/-- `ParticleFilter::newMap`: the exported map of the best particle. -/
def newMap (X : Ext K G S T M) (pf : ParticleFilter K G) : Except Err M := do
  let idx ← bestLoop pf pf.num_particles_.toNat 0 0 0
  let p ← atE pf.particle_set_ idx
  pure (X.gridMap p.grid)

/-- Random draws consumed by one particle during a `SLAM` step: the standard
normal vectors handed to the motion model, to the `k_` mode samples and to the
final pose sample. -/
structure Draws (K : Type) where
  motion : Vector3d K
  mode : ℕ → Vector3d K
  proposal : Vector3d K

/-- The one-argument `sampleMultivariateDistribution(cov)`: `L * z` with `L` the
Cholesky factor of `cov` and `z` the standard normal draw. -/
def sampleNoise (X : Ext K G S T M) (cov : Matrix3d K) (z : Vector3d K) : Vector3d K :=
  (X.llt cov).mulVec z

/-- The two-argument `sampleMultivariateDistribution(mu, cov)`: `mu + L * z`. -/
def sampleMultivariateDistribution (X : Ext K G S T M) (mu : Vector3d K) (cov : Matrix3d K)
    (z : Vector3d K) : Vector3d K :=
  mu + (X.llt cov).mulVec z

/-- `ParticleFilter::sampleMotionModel`; `z` is the standard normal draw. -/
def sampleMotionModel (X : Ext K G S T M) (pf : ParticleFilter K G) (u : Twist2D K)
    (pose : Vector3d K) (z : Vector3d K) : Vector3d K :=
  let w := sampleNoise X pf.motion_noise_ z
  if almost_equal X u.w 0 then
    let p0 := X.normalize_angle_PI (pose 0 + w 0)
    let p1 := pose 1 + (u.vx * X.cos p0 + w 1)
    let p2 := pose 2 + (u.vx * X.sin p0 + w 2)
    ![p0, p1, p2]
  else
    let p0 := X.normalize_angle_PI (pose 0 + u.w + w 0)
    let p1 := pose 1 + ((-u.vx / u.w) * X.sin p0 + (u.vx / u.w) * X.sin (p0 + u.w) + w 1)
    let p2 := pose 2 + ((u.vx / u.w) * X.cos p0 - (u.vx / u.w) * X.cos (p0 + u.w) + w 2)
    ![p0, p1, p2]

/-- `ParticleFilter::poseLikelihoodOdom` (Table 5.5 of Probabilistic Robotics). -/
def poseLikelihoodOdom (X : Ext K G S T M) (pf : ParticleFilter K G)
    (cur_pose prev_pose cur_odom prev_odom : Vector3d K) : K :=
  let nrm := X.normalize_angle_PI
  let rot1 := X.atan2 (cur_odom 2 - prev_odom 2) (cur_odom 1 - prev_odom 1) - prev_odom 0
  let trans := X.sqrt ((cur_odom 1 - prev_odom 1) ^ 2 + (cur_odom 2 - prev_odom 2) ^ 2)
  let rot2 := nrm (nrm (cur_odom 0) - nrm (prev_odom 0) - rot1)
  let rot1_hat := X.atan2 (cur_pose 2 - prev_pose 2) (cur_pose 1 - prev_pose 1) - prev_pose 0
  let trans_hat := X.sqrt ((cur_pose 1 - prev_pose 1) ^ 2 + (cur_pose 2 - prev_pose 2) ^ 2)
  let rot2_hat := nrm (nrm (cur_pose 0) - nrm (prev_pose 0) - rot1_hat)
  let temp1 := pf.srr_ * rot1_hat * rot1_hat + pf.srt_ * trans_hat * trans_hat
  let temp2 := pf.str_ * trans_hat * trans_hat + pf.stt_ * rot1_hat * rot1_hat
    + pf.stt_ * rot2_hat * rot2_hat
  let temp3 := pf.srr_ * rot2_hat * rot2_hat + pf.srt_ * trans_hat * trans_hat
  let p1 := X.pdfNormal (nrm (nrm rot1 - nrm rot1_hat)) temp1
  let p2 := X.pdfNormal (trans - trans_hat) temp2
  let p3 := X.pdfNormal (nrm (nrm rot2 - nrm rot2_hat)) temp3
  p1 * p2 * p3

/-- `ParticleFilter::sampleMode`: `k_` samples around the mode `T`, each with its
angle wrapped. -/
def sampleMode (X : Ext K G S T M) (pf : ParticleFilter K G) (Tx : T)
    (zs : ℕ → Vector3d K) : List (Vector3d K) :=
  let mu := X.displacement Tx
  (List.range pf.k_.toNat).map fun i =>
    let sample := sampleMultivariateDistribution X mu pf.sample_range_ (zs i)
    ![X.normalize_angle_PI (sample 0), sample 1, sample 2]

/-- `std::clamp(v, lo, hi)`. -/
def clamp (v lo hi : K) : K := if v < lo then lo else if hi < v then hi else v

/-- The first loop of `gaussianProposal`: accumulates the likelihoods, `mu` and
`eta` over the samples `i, i + 1, …` (`n` iterations remain). -/
def proposalLoop1 (X : Ext K G S T M) (pf : ParticleFilter K G)
    (sampled_poses : List (Vector3d K)) (particle : Particle K G) (scan : S)
    (cur_odom prev_odom : Vector3d K) :
    ℕ → ℤ → List K → Vector3d K → K → Except Err (List K × Vector3d K × K)
  | 0, _, likelihoods, mu, eta => .ok (likelihoods, mu, eta)
  | n + 1, i, likelihoods, mu, eta => do
    let xj ← atE sampled_poses i
    let Txj := X.mkT (xj 1) (xj 2) (xj 0)
    let p_scan := clamp (X.likelihoodFieldModel particle.grid scan Txj)
      pf.scan_likelihood_min_ pf.scan_likelihood_max_
    let p_pose := clamp (poseLikelihoodOdom X pf xj particle.prev_pose cur_odom prev_odom)
      pf.pose_likelihood_min_ pf.pose_likelihood_max_
    let p := p_scan * p_pose
    proposalLoop1 X pf sampled_poses particle scan cur_odom prev_odom n (i + 1)
      (likelihoods ++ [p]) (mu + p • xj) (eta + p)

/-- The second loop of `gaussianProposal`: accumulates the weighted outer
products into `sigma`. -/
def proposalLoop2 (sampled_poses : List (Vector3d K)) (likelihoods : List K)
    (mu : Vector3d K) : ℕ → ℤ → Matrix3d K → Except Err (Matrix3d K)
  | 0, _, sigma => .ok sigma
  | n + 1, i, sigma => do
    let xj ← atE sampled_poses i
    let p ← atE likelihoods i
    proposalLoop2 sampled_poses likelihoods mu n (i + 1)
      (sigma + p • Matrix.vecMulVec (xj - mu) (xj - mu))

/-- `ParticleFilter::gaussianProposal`; returns the updated `(mu, sigma, eta)`.
The function starts with `std::vector<double> likelihoods(k_)`: a negative
`k_` converts to a size above `max_size()` and the constructor throws
`std::length_error`. -/
def gaussianProposal (X : Ext K G S T M) (pf : ParticleFilter K G)
    (sampled_poses : List (Vector3d K)) (particle : Particle K G) (scan : S)
    (cur_odom prev_odom : Vector3d K) (mu : Vector3d K) (sigma : Matrix3d K) (eta : K) :
    Except Err (Vector3d K × Matrix3d K × K) :=
  if pf.k_ < 0 then
    .error .length_error
  else do
    let (likelihoods, mu1, eta1) ←
      proposalLoop1 X pf sampled_poses particle scan cur_odom prev_odom pf.k_.toNat 0 [] mu eta
    if almost_equal X eta1 0 then
      .error .invalid_argument
    else
      let mu2 : Vector3d K := fun i => mu1 i / eta1
      let mu3 : Vector3d K := ![X.normalize_angle_PI (mu2 0), mu2 1, mu2 2]
      let sigma1 ← proposalLoop2 sampled_poses likelihoods mu3 pf.k_.toNat 0 sigma
      pure (mu3, fun a b => sigma1 a b / eta1, eta1)

/-- `ParticleFilter::icpInitGuess`. -/
def icpInitGuess (X : Ext K G S T M) (cur_odom prev_odom : Vector3d K) : T :=
  let dx := cur_odom 1 - prev_odom 1
  let dy := cur_odom 2 - prev_odom 2
  let dth := X.normalize_angle_PI
    (X.normalize_angle_PI (cur_odom 0) - X.normalize_angle_PI (prev_odom 0))
  X.mkT dx dy dth

/-- Body of the particle loop of `ParticleFilter::SLAM`. -/
def slamParticle (X : Ext K G S T M) (pf : ParticleFilter K G) (scan : S) (u : Twist2D K)
    (cur_od prev_od : Vector3d K) (matcher_success : Bool) (Ticp : T) (d : Draws K)
    (particle : Particle K G) : Except Err (Particle K G) := do
  let p1 ←
    if !matcher_success then
      let pose := sampleMotionModel X pf u particle.pose d.motion
      let T_pose := X.mkT (pose 1) (pose 2) (pose 0)
      let scan_likelihood := X.likelihoodFieldModel particle.grid scan T_pose
      pure { particle with prev_pose := particle.pose, pose := pose,
                           weight := particle.weight * scan_likelihood }
    else do
      let T_x := X.mulT (X.mkT (particle.pose 1) (particle.pose 2) (particle.pose 0)) Ticp
      let sampled_poses := sampleMode X pf T_x d.mode
      let (mu, sigma, eta) ←
        gaussianProposal X pf sampled_poses particle scan cur_od prev_od 0 0 0
      let new_pose := sampleMultivariateDistribution X mu sigma d.proposal
      pure { particle with prev_pose := particle.pose, pose := new_pose,
                           weight := particle.weight * eta }
  let Particle_pose := X.mkT (p1.pose 1) (p1.pose 2) (p1.pose 0)
  pure { p1 with grid := X.integrateScan p1.grid scan Particle_pose }

/-- The particle loop of `SLAM`: particle number `n` uses the draws `draws n`. -/
def slamLoop (X : Ext K G S T M) (pf : ParticleFilter K G) (scan : S) (u : Twist2D K)
    (cur_od prev_od : Vector3d K) (matcher_success : Bool) (Ticp : T) (draws : ℕ → Draws K) :
    ℕ → List (Particle K G) → Except Err (List (Particle K G))
  | _, [] => .ok []
  | n, p :: rest => do
    let p1 ← slamParticle X pf scan u cur_od prev_od matcher_success Ticp (draws n) p
    let tl ← slamLoop X pf scan u cur_od prev_od matcher_success Ticp draws (n + 1) rest
    pure (p1 :: tl)

/-- `ParticleFilter::SLAM`; `v` is the draw used by the resampling step and
`fuel` bounds its inner loop. -/
def SLAM (X : Ext K G S T M) (fuel : ℕ) (pf : ParticleFilter K G) (scan : S) (u : Twist2D K)
    (cur_odom prev_odom : Vector3d K) (draws : ℕ → Draws K) (v : K) :
    Except Err (Option (ParticleFilter K G)) := do
  let Tinit : T := icpInitGuess X cur_odom prev_odom
  let (matcher_success, Ticp) := X.pclICPWrapper Tinit scan
  let ps ← slamLoop X pf scan u cur_odom prev_odom matcher_success Ticp draws 0 pf.particle_set_
  let pf1 := normalizeWeights { pf with particle_set_ := ps }
  if effectiveParticles pf1 then
    lowVarianceResampling fuel v pf1
  else
    pure (some pf1)

end Core

end PF

namespace PF

/-- Example particle set over `ℚ`: particle number `n` carries the weight `ws[n]`,
the grid label `n` and the pose `(0, n, 0)`. -/
def exampleParticles (ws : List ℚ) : List (Particle ℚ ℕ) :=
  ws.enum.map fun nw =>
    { weight := nw.2, grid := nw.1, pose := ![0, (nw.1 : ℚ), 0], prev_pose := ![0, 0, 0] }

/-- Example filter over `ℚ` holding `exampleParticles ws`, with `k_ = 8` and
both likelihood clamps fixed to `[1, 1]`. -/
def exampleFilter (ws : List ℚ) : ParticleFilter ℚ ℕ :=
  { num_particles_ := ws.length, k_ := 8, srr_ := 1, srt_ := 1, str_ := 1, stt_ := 1,
    scan_likelihood_min_ := 1, scan_likelihood_max_ := 1,
    pose_likelihood_min_ := 1, pose_likelihood_max_ := 1,
    normal_sqrd_sum_ := 0, motion_noise_ := 1, sample_range_ := 1,
    particle_set_ := exampleParticles ws }

/-- The weights `w₀ = 1, w₁ = … = w₉₉ = 0` of the resample-trigger scenario. -/
def spikeWeights : List ℚ := 1 :: List.replicate 99 0

/-- Example collaborators over `ℚ` with `T = (x, y, θ)`.  Each stand-in is exact
on the arguments it receives in the examples below: the angle wrap is the
identity on `(-3, 3]`, a subset of `(-π, π]`; `llt` is only applied to the
identity matrix, whose Cholesky factor is the identity; the scan matcher
succeeds with the identity transform, and composing with it changes nothing
for a pose with angle `0`; every likelihood is `1`. -/
def exampleExt : Ext ℚ ℕ Unit (ℚ × ℚ × ℚ) ℕ :=
  { normalize_angle_PI := fun x => if -3 < x ∧ x ≤ 3 then x else 0
    eps := 1 / 1000000000000
    cos := fun _ => 1
    sin := fun _ => 0
    sqrt := fun x => x
    atan2 := fun _ _ => 0
    pdfNormal := fun _ _ => 1
    llt := fun m => m
    mkT := fun x y th => (x, y, th)
    mulT := fun a b => (a.1 + b.1, a.2.1 + b.2.1, a.2.2 + b.2.2)
    displacement := fun t => ![t.2.2, t.1, t.2.1]
    likelihoodFieldModel := fun _ _ _ => 1
    integrateScan := fun g _ _ => g
    gridMap := fun g => g
    pclICPWrapper := fun _ _ => (true, (0, 0, 0)) }

/-- Example draws: the eight mode samples are `±2` along each axis and twice the
origin; the final pose sample is four standard deviations along `θ`. -/
def exampleDraws : ℕ → Draws ℚ := fun _ =>
  { motion := ![0, 0, 0]
    mode := fun i =>
      [![2, 0, 0], ![-2, 0, 0], ![0, 2, 0], ![0, -2, 0], ![0, 0, 2], ![0, 0, -2]].getD i
        ![0, 0, 0]
    proposal := ![4, 0, 0] }

/-- Pose angles `θ` of the particles a `SLAM` step returned. -/
def poseAngles {K G : Type} (r : Except Err (Option (ParticleFilter K G))) :
    Option (List K) :=
  match r with
  | .ok (some pf) => some (pf.particle_set_.map fun p => p.pose 0)
  | _ => none

/-- Grid labels of the particles a resampling step returned. -/
def resampledGrids {K G : Type} (r : Except Err (Option (ParticleFilter K G))) :
    Option (List G) :=
  match r with
  | .ok (some pf) => some (pf.particle_set_.map fun p => p.grid)
  | _ => none

end PF

namespace Planner

open Cpp

/-- The occupancy code `getGridViz` writes for a cell state: `30` for an
inflated cell (state `2`), `100` for an occupied one (state `1`), `0` for a free
one (state `0`) and `-1` for any other state. -/
def vizCode (state : ℤ) : ℤ :=
  if state = 2 then 30 else if state = 1 then 100 else if state = 0 then 0 else -1

/-- The index `idx = col * xsize + row` that `getGridViz` computes for the
internal index `i`, with `row = i / ysize` and `col = i % ysize`. -/
def vizIndex (xsize ysize : ℤ) (i : ℕ) : ℤ :=
  let row := (i : ℤ) / ysize
  let col := (i : ℤ) % ysize
  col * xsize + row

/-- Effect of `map.resize(n)` on a `std::vector<int8_t>`: the first `n` entries
are kept and the vector is padded with zeros up to length `n`. -/
def resize (map : List ℤ) (n : ℕ) : List ℤ :=
  map.take n ++ List.replicate (n - map.length) 0

/-- The loop of `getGridViz` over the internal indices still to visit.  A zero
`ysize` (division by zero) and an out-of-range `at` make the result `none`. -/
def vizLoop {K P : Type} (s : DStarLight K P) : List ℕ → List ℤ → Option (List ℤ)
  | [], map => some map
  | i :: rest, map =>
    if s.gridmap.ysize = 0 then none
    else do
      let idx := vizIndex s.gridmap.xsize s.gridmap.ysize i
      let c ← at? s.grid i
      let _ ← at? map idx
      vizLoop s rest (setAt map idx (vizCode c.state))

/-- `DStarLight::getGridViz`; `map` is the vector handed in by the caller. -/
def getGridViz {K P : Type} (s : DStarLight K P) (map : List ℤ) : Option (List ℤ) :=
  vizLoop s (List.range s.grid.length) (resize map s.grid.length)

/-- Example planner state over `ℚ` on a `1 × 2` grid: the goal cell `0` sits in
the open list with `rhs = 0`, `h = 1` and key `(1, 0)`; the start cell `1` is
consistent with `g = rhs = 1 - 1e-13`, a value within the tolerance `1e-12` of
the top key. -/
def toleranceState : DStarLight ℚ (ℤ × ℤ) :=
  let goal : Cell ℚ (ℤ × ℤ) :=
    { i := 0, j := 0, id := 0, p := (0, 0), state := 0, g := 1000000000000, rhs := 0, h := 1,
      k1 := 1, k2 := 0, parent_id := -1, updated := false }
  let start : Cell ℚ (ℤ × ℤ) :=
    { i := 0, j := 1, id := 1, p := (0, 1), state := 0, g := 1 - 1 / 10000000000000,
      rhs := 1 - 1 / 10000000000000, h := 0, k1 := 1 - 1 / 10000000000000,
      k2 := 1 - 1 / 10000000000000, parent_id := 0, updated := false }
  { gridmap := { xsize := 1, ysize := 2, world2Grid := id },
    vizd := 1, ref_grid := [goal, start], grid := [goal, start], open_list := [goal],
    visited := [], path := [], occu_cost := 1000, start_id := 1, goal_id := 0, curr_id := 0,
    goal_reached := false }

/-- The start cell of `toleranceState`. -/
def toleranceStart : Cell ℚ (ℤ × ℤ) :=
  { i := 0, j := 1, id := 1, p := (0, 1), state := 0, g := 1 - 1 / 10000000000000,
    rhs := 1 - 1 / 10000000000000, h := 0, k1 := 1 - 1 / 10000000000000,
    k2 := 1 - 1 / 10000000000000, parent_id := 0, updated := false }

/-- Cell `n` of the fresh corridor grid, as `freshGrid` builds it. -/
def corridorCell (n : ℕ) : Cell ℚ (ℤ × ℤ) :=
  { i := 0, j := (n : ℤ), id := (n : ℤ), p := (0, (n : ℤ)), state := 0, g := 1000000000000,
    rhs := 1000000000000, h := 0, k1 := 0, k2 := 0, parent_id := -1, updated := false }

end Planner

namespace PF

section Proposal

variable {K G S T M : Type} [LinearOrderedField K] [FloorRing K]

/-- The value `p = p_scan * p_pose` that the first loop of `gaussianProposal`
computes for the sampled pose `xj`: the product of the clamped scan likelihood
and the clamped pose likelihood. -/
def proposalWeight (X : Ext K G S T M) (pf : ParticleFilter K G) (particle : Particle K G)
    (scan : S) (cur_odom prev_odom : Vector3d K) (xj : Vector3d K) : K :=
  clamp (X.likelihoodFieldModel particle.grid scan (X.mkT (xj 1) (xj 2) (xj 0)))
      pf.scan_likelihood_min_ pf.scan_likelihood_max_
    * clamp (poseLikelihoodOdom X pf xj particle.prev_pose cur_odom prev_odom)
      pf.pose_likelihood_min_ pf.pose_likelihood_max_

/-- Spec side of the proposal (§4.4 d): the normaliser `η = Σ pⱼ`. -/
def etaSpec (X : Ext K G S T M) (pf : ParticleFilter K G) (poses : List (Vector3d K))
    (particle : Particle K G) (scan : S) (cur_odom prev_odom : Vector3d K) : K :=
  (poses.map (proposalWeight X pf particle scan cur_odom prev_odom)).sum

/-- Spec side of the proposal (§4.4 e): the mean `μ = (Σ xⱼ · pⱼ) / η` with its
`θ` component wrapped. -/
def muSpec (X : Ext K G S T M) (pf : ParticleFilter K G) (poses : List (Vector3d K))
    (particle : Particle K G) (scan : S) (cur_odom prev_odom : Vector3d K) : Vector3d K :=
  let total : Vector3d K :=
    (poses.map fun xj => proposalWeight X pf particle scan cur_odom prev_odom xj • xj).sum
  let eta := etaSpec X pf poses particle scan cur_odom prev_odom
  ![X.normalize_angle_PI (total 0 / eta), total 1 / eta, total 2 / eta]

/-- Spec side of the proposal (§4.4 f): the covariance
`Σ_prop = (Σ (xⱼ − μ)(xⱼ − μ)ᵀ · pⱼ) / η`. -/
def sigmaSpec (X : Ext K G S T M) (pf : ParticleFilter K G) (poses : List (Vector3d K))
    (particle : Particle K G) (scan : S) (cur_odom prev_odom : Vector3d K) : Matrix3d K :=
  let mu := muSpec X pf poses particle scan cur_odom prev_odom
  let total : Matrix3d K :=
    (poses.map fun xj =>
      proposalWeight X pf particle scan cur_odom prev_odom xj
        • Matrix.vecMulVec (xj - mu) (xj - mu)).sum
  fun a b => total a b / etaSpec X pf poses particle scan cur_odom prev_odom

end Proposal

/-- Example collaborators over `ℚ` whose scan likelihood is always `0`; the
rest is `exampleExt`, so every pose likelihood is `1`. -/
def zeroScanExt : Ext ℚ ℕ Unit (ℚ × ℚ × ℚ) ℕ :=
  { exampleExt with likelihoodFieldModel := fun _ _ _ => 0 }

/-- Example filter over `ℚ` with `k_ = 8` and both likelihood clamps set to
`[1/100, 1]`. -/
def clampFilter (ws : List ℚ) : ParticleFilter ℚ ℕ :=
  { exampleFilter ws with
    scan_likelihood_min_ := 1 / 100, scan_likelihood_max_ := 1,
    pose_likelihood_min_ := 1 / 100, pose_likelihood_max_ := 1 }

/-- The eight poses `sampleMode` draws around the origin in the examples. -/
def examplePoses : List (Vector3d ℚ) :=
  sampleMode exampleExt (exampleFilter [1]) (0, 0, 0) (exampleDraws 0).mode

end PF

namespace PF

/-- The power `2 ^ e` of an integer exponent, as a rational. -/
def pow2 (e : ℤ) : ℚ :=
  if 0 ≤ e then ((2 ^ e.toNat : ℕ) : ℚ) else 1 / ((2 ^ (-e).toNat : ℕ) : ℚ)

/-- The exponent `e` with `2 ^ 52 ≤ x / 2 ^ e < 2 ^ 53` for a positive `x`, found
by doubling or halving; `fuel` bounds the number of steps. -/
def binade : ℕ → ℚ → ℤ → ℤ
  | 0, _, e => e
  | fuel + 1, x, e =>
    if x < 4503599627370496 then binade fuel (2 * x) (e - 1)
    else if 9007199254740992 ≤ x then binade fuel (x / 2) (e + 1)
    else e

/-- The integer nearest to `x`, a tie going to the even one. -/
def roundHalfEven (x : ℚ) : ℤ :=
  if x - ⌊x⌋ < 1 / 2 then ⌊x⌋
  else if 1 / 2 < x - ⌊x⌋ then ⌊x⌋ + 1
  else if ⌊x⌋ % 2 = 0 then ⌊x⌋ else ⌊x⌋ + 1

/-- Rounding of a rational to IEEE 754 binary64 in the default mode (to nearest,
ties to even): 53 significant bits, with the spacing `2 ^ (-1074)` below the
normal range.  Overflow to infinity is outside this model. -/
def round64 (x : ℚ) : ℚ :=
  if x = 0 then 0
  else
    let e := max (binade 2200 |x| 0) (-1074)
    (roundHalfEven (x / pow2 e) : ℚ) * pow2 e

/-- Finite values of a `double` (IEEE 754 binary64), carried as rationals. -/
structure Binary64 where
  val : ℚ
deriving DecidableEq

/-- The arithmetic of `double` on finite values: every operation is the exact
result rounded by `round64`; `pow(x, 2)` is the rounded square.  Infinities and
NaN (overflow, division by zero) are outside this model. -/
instance binary64Arith : DoubleArith Binary64 :=
  { zero := ⟨0⟩, one := ⟨1⟩,
    add := fun a b => ⟨round64 (a.val + b.val)⟩,
    div := fun a b => ⟨round64 (a.val / b.val)⟩,
    sq := fun a => ⟨round64 (a.val * a.val)⟩ }

/-- The conversion `static_cast<int>` of a finite `double`: truncation toward
zero. -/
instance binary64Cast : DoubleCast Binary64 :=
  { toInt := fun a => Cpp.truncInt a.val }

/-- Example filter in `double` arithmetic holding one particle per weight of
`ws`; every other field is `1` and every pose is the origin. -/
def doubleFilter (ws : List ℚ) : ParticleFilter Binary64 ℕ :=
  { num_particles_ := ws.length, k_ := 8, srr_ := ⟨1⟩, srt_ := ⟨1⟩, str_ := ⟨1⟩, stt_ := ⟨1⟩,
    scan_likelihood_min_ := ⟨1⟩, scan_likelihood_max_ := ⟨1⟩,
    pose_likelihood_min_ := ⟨1⟩, pose_likelihood_max_ := ⟨1⟩,
    normal_sqrd_sum_ := ⟨0⟩, motion_noise_ := fun _ _ => ⟨1⟩, sample_range_ := fun _ _ => ⟨1⟩,
    particle_set_ := ws.enum.map fun nw =>
      { weight := ⟨nw.2⟩, grid := nw.1, pose := fun _ => ⟨0⟩, prev_pose := fun _ => ⟨0⟩ } }

/-- The weights `1, 1, 1, 1, 1, 0, 0, 0, 0, 0`: five equal particles out of ten. -/
def halfWeights : List ℚ := [1, 1, 1, 1, 1, 0, 0, 0, 0, 0]

end PF

/-! ## Exact arithmetic on sums of square roots -/

namespace Surd

/-- A formal sum `Σ c · √n` of square roots of natural numbers with rational
coefficients, as the list of its terms `(n, c)`. -/
abbrev Sym := List (ℕ × ℚ)

/-- The real number a formal sum stands for. -/
noncomputable def interp (l : Sym) : ℝ :=
  (l.map fun t => (t.2 : ℝ) * Real.sqrt (t.1 : ℝ)).sum

/-- Add the term `c · √n` to a formal sum, merging it with an existing term of
the same radicand. -/
def addTerm (n : ℕ) (c : ℚ) : Sym → Sym
  | [] => [(n, c)]
  | (m, d) :: rest => if m = n then (m, d + c) :: rest else (m, d) :: addTerm n c rest

/-- Merge the terms of equal radicand. -/
def combine : Sym → Sym
  | [] => []
  | (n, c) :: rest => addTerm n c (combine rest)

/-- Newton iteration for the integer square root, `fuel` steps from `guess`. -/
def newton (n : ℕ) : ℕ → ℕ → ℕ
  | 0, guess => guess
  | fuel + 1, guess =>
    let next := (guess + n / guess) / 2
    if next < guess then newton n fuel next else guess

/-- Scale of the rational enclosures: `√n` is enclosed to within `1 / scale`. -/
def scale : ℕ := 1000000000000000

/-- Some `k` with `n ≤ k * k`, by linear search. -/
def rootUp (n : ℕ) : ℕ := ((List.range (n + 2)).find? fun k => decide (n ≤ k * k)).getD n

/-- Candidate for `⌊scale · √n⌋`; its use is always guarded by a check. -/
def isqrtScaled (n : ℕ) : ℕ := newton (n * scale * scale) 64 (rootUp n * scale)

/-- A checked rational enclosure `lo ≤ √n ≤ hi`, exact when `n` is a perfect
square. -/
def bounds (n : ℕ) : Option (ℚ × ℚ) :=
  let a := isqrtScaled n
  if a * a = n * scale * scale then
    some ((a : ℚ) / scale, (a : ℚ) / scale)
  else if a * a < n * scale * scale ∧ n * scale * scale < (a + 1) * (a + 1) then
    some ((a : ℚ) / scale, ((a + 1 : ℕ) : ℚ) / scale)
  else
    none

/-- A checked rational enclosure of the value of a formal sum. -/
def enclose : Sym → Option (ℚ × ℚ)
  | [] => some (0, 0)
  | (n, c) :: rest =>
    match bounds n, enclose rest with
    | some (lo, hi), some (L, H) =>
      if 0 ≤ c then some (c * lo + L, c * hi + H) else some (c * hi + L, c * lo + H)
    | _, _ => none

/-- Certified sign of a formal sum: `some 0` when all merged coefficients
vanish, `some 1` or `some (-1)` when the enclosure excludes zero, `none` when
the enclosure is too coarse to tell. -/
def sign (l : Sym) : Option ℤ :=
  let m := (combine l).filter fun t => decide (t.2 ≠ 0)
  match m with
  | [] => some 0
  | _ :: _ =>
    match enclose m with
    | some (L, H) => if 0 < L then some 1 else if H < 0 then some (-1) else none
    | none => none

theorem interp_nil : interp [] = 0 := by simp [interp]

theorem interp_cons (t : ℕ × ℚ) (l : Sym) :
    interp (t :: l) = (t.2 : ℝ) * Real.sqrt (t.1 : ℝ) + interp l := by
  simp [interp]

theorem interp_append (a b : Sym) : interp (a ++ b) = interp a + interp b := by
  simp [interp]

theorem interp_addTerm (n : ℕ) (c : ℚ) (l : Sym) :
    interp (addTerm n c l) = (c : ℝ) * Real.sqrt (n : ℝ) + interp l := by
  induction l with
  | nil => simp [addTerm, interp]
  | cons t rest ih =>
    obtain ⟨m, d⟩ := t
    unfold addTerm
    split
    · rename_i h
      subst h
      simp only [interp_cons]
      push_cast
      ring
    · simp only [interp_cons, ih]
      ring

theorem interp_combine (l : Sym) : interp (combine l) = interp l := by
  induction l with
  | nil => rfl
  | cons t rest ih =>
    obtain ⟨n, c⟩ := t
    simp only [combine, interp_addTerm, ih, interp_cons]

theorem interp_filter (l : Sym) :
    interp (l.filter fun t => decide (t.2 ≠ 0)) = interp l := by
  induction l with
  | nil => rfl
  | cons t rest ih =>
    by_cases h : t.2 = 0
    · rw [List.filter_cons_of_neg (by simpa using h), ih, interp_cons, h]
      simp
    · rw [List.filter_cons_of_pos (by simpa using h), interp_cons, interp_cons, ih]

theorem le_sqrt_of_sq_le (n a : ℕ) (ha : a * a ≤ n * scale * scale) :
    (((a : ℚ) / scale : ℚ) : ℝ) ≤ Real.sqrt (n : ℝ) := by
  have hs : (0 : ℝ) < (scale : ℝ) := by unfold scale; norm_num
  push_cast
  rw [Real.le_sqrt (by positivity) (by positivity), div_pow, div_le_iff₀ (by positivity)]
  have : ((a * a : ℕ) : ℝ) ≤ ((n * scale * scale : ℕ) : ℝ) := by exact_mod_cast ha
  push_cast at this
  nlinarith

theorem sqrt_le_of_le_sq (n a : ℕ) (ha : n * scale * scale ≤ a * a) :
    Real.sqrt (n : ℝ) ≤ (((a : ℚ) / scale : ℚ) : ℝ) := by
  have hs : (0 : ℝ) < (scale : ℝ) := by unfold scale; norm_num
  push_cast
  rw [Real.sqrt_le_left (by positivity), div_pow, le_div_iff₀ (by positivity)]
  have : ((n * scale * scale : ℕ) : ℝ) ≤ ((a * a : ℕ) : ℝ) := by exact_mod_cast ha
  push_cast at this
  nlinarith

theorem bounds_sound {n : ℕ} {lo hi : ℚ} (h : bounds n = some (lo, hi)) :
    (lo : ℝ) ≤ Real.sqrt (n : ℝ) ∧ Real.sqrt (n : ℝ) ≤ (hi : ℝ) := by
  unfold bounds at h
  simp only at h
  split at h
  · rename_i he
    simp only [Option.some.injEq, Prod.mk.injEq] at h
    obtain ⟨h1, h2⟩ := h
    subst h1 h2
    exact ⟨le_sqrt_of_sq_le n _ (le_of_eq he), sqrt_le_of_le_sq n _ (le_of_eq he.symm)⟩
  · split at h
    · rename_i hb
      simp only [Option.some.injEq, Prod.mk.injEq] at h
      obtain ⟨h1, h2⟩ := h
      subst h1 h2
      exact ⟨le_sqrt_of_sq_le n _ (le_of_lt hb.1), sqrt_le_of_le_sq n _ (le_of_lt hb.2)⟩
    · cases h

theorem enclose_sound : ∀ (l : Sym) (L H : ℚ), enclose l = some (L, H) →
    (L : ℝ) ≤ interp l ∧ interp l ≤ (H : ℝ) := by
  intro l
  induction l with
  | nil =>
    intro L H h
    simp only [enclose, Option.some.injEq, Prod.mk.injEq] at h
    obtain ⟨h1, h2⟩ := h
    subst h1 h2
    simp [interp_nil]
  | cons t rest ih =>
    intro L H h
    obtain ⟨n, c⟩ := t
    unfold enclose at h
    cases hb : bounds n with
    | none => simp [hb] at h
    | some b =>
      obtain ⟨lo, hi⟩ := b
      cases he : enclose rest with
      | none => simp [hb, he] at h
      | some e =>
        obtain ⟨L1, H1⟩ := e
        simp only [hb, he] at h
        obtain ⟨hlo, hhi⟩ := bounds_sound hb
        obtain ⟨hL, hH⟩ := ih L1 H1 he
        rw [interp_cons]
        split at h
        · rename_i hc
          simp only [Option.some.injEq, Prod.mk.injEq] at h
          obtain ⟨h1, h2⟩ := h
          subst h1 h2
          have hc1 : (0 : ℝ) ≤ (c : ℝ) := by exact_mod_cast hc
          push_cast
          constructor
          · nlinarith [mul_le_mul_of_nonneg_left hlo hc1]
          · nlinarith [mul_le_mul_of_nonneg_left hhi hc1]
        · rename_i hc
          simp only [Option.some.injEq, Prod.mk.injEq] at h
          obtain ⟨h1, h2⟩ := h
          subst h1 h2
          have hc1 : (c : ℝ) ≤ 0 := by exact_mod_cast le_of_lt (not_le.1 hc)
          push_cast
          constructor
          · nlinarith [mul_le_mul_of_nonpos_left hhi hc1]
          · nlinarith [mul_le_mul_of_nonpos_left hlo hc1]

theorem sign_sound (l : Sym) :
    (sign l = some 0 → interp l = 0) ∧ (sign l = some 1 → 0 < interp l) ∧
    (sign l = some (-1) → interp l < 0) ∧
    (∀ z, sign l = some z → z = 0 ∨ z = 1 ∨ z = -1) := by
  have hm : interp ((combine l).filter fun t => decide (t.2 ≠ 0)) = interp l := by
    rw [interp_filter, interp_combine]
  unfold sign
  simp only
  generalize ((combine l).filter fun t => decide (t.2 ≠ 0)) = m at hm
  cases m with
  | nil =>
    refine ⟨fun _ => by rw [← hm, interp_nil], fun h => ?_, fun h => ?_, fun z hz => ?_⟩
    · simp at h
    · simp at h
    · simp only [Option.some.injEq] at hz
      exact Or.inl hz.symm
  | cons t rest =>
    simp only
    cases he : enclose (t :: rest) with
    | none => simp
    | some e =>
      obtain ⟨L, H⟩ := e
      obtain ⟨hL, hH⟩ := enclose_sound _ L H he
      rw [hm] at hL hH
      simp only
      by_cases h1 : 0 < L
      · simp only [h1, if_true]
        have : (0 : ℝ) < L := by exact_mod_cast h1
        refine ⟨fun h => ?_, fun _ => lt_of_lt_of_le this hL, fun h => ?_, fun z hz => ?_⟩
        · simp at h
        · simp at h
        · simp only [Option.some.injEq] at hz
          exact Or.inr (Or.inl hz.symm)
      · by_cases h2 : H < 0
        · simp only [h1, h2, if_true, if_false]
          have : (H : ℝ) < 0 := by exact_mod_cast h2
          refine ⟨fun h => ?_, fun h => ?_, fun _ => lt_of_le_of_lt hH this, fun z hz => ?_⟩
          · simp at h
          · simp at h
          · simp only [Option.some.injEq] at hz
            exact Or.inr (Or.inr hz.symm)
        · simp [h1, h2]

/-- Negation of a formal sum. -/
def negSym (l : Sym) : Sym := l.map fun t => (t.1, -t.2)

/-- Product of two formal sums: `√n · √m = √(n m)`. -/
def mulSym (a b : Sym) : Sym :=
  a.flatMap fun s => b.map fun t => (s.1 * t.1, s.2 * t.2)

/-- Some `m ≥ 1` with `m * m ∣ n`, the largest up to `rootUp n`. -/
def sqFactor (n : ℕ) : ℕ :=
  ((List.range (rootUp n + 1)).reverse.find? fun m =>
    decide (m ≠ 0) && decide (n % (m * m) = 0)).getD 1

/-- The formal sum for `√z` of an integer `z`: `m · √s` with `z = m² s`, and
`0` when `z ≤ 0`. -/
def sqrtSym (z : ℤ) : Sym :=
  if z ≤ 0 then []
  else
    let n := z.toNat
    let m := sqFactor n
    if m * m * (n / (m * m)) = n then [(n / (m * m), (m : ℚ))] else [(n, 1)]

theorem interp_negSym (l : Sym) : interp (negSym l) = -interp l := by
  induction l with
  | nil => simp [negSym, interp]
  | cons t rest ih =>
    have : negSym (t :: rest) = (t.1, -t.2) :: negSym rest := rfl
    rw [this, interp_cons, interp_cons, ih]
    push_cast
    ring

theorem interp_map_mul (s : ℕ × ℚ) (b : Sym) :
    interp (b.map fun t => (s.1 * t.1, s.2 * t.2))
      = (s.2 : ℝ) * Real.sqrt (s.1 : ℝ) * interp b := by
  induction b with
  | nil => simp [interp]
  | cons t rest ih =>
    rw [List.map_cons, interp_cons, interp_cons, ih]
    push_cast
    rw [Real.sqrt_mul (Nat.cast_nonneg _)]
    ring

theorem interp_mulSym (a b : Sym) : interp (mulSym a b) = interp a * interp b := by
  induction a with
  | nil => simp [mulSym, interp]
  | cons s rest ih =>
    have : mulSym (s :: rest) b = (b.map fun t => (s.1 * t.1, s.2 * t.2)) ++ mulSym rest b := by
      simp [mulSym]
    rw [this, interp_append, interp_map_mul, ih, interp_cons]
    ring

theorem interp_sqrtSym (z : ℤ) : interp (sqrtSym z) = Real.sqrt (z : ℝ) := by
  unfold sqrtSym
  split
  · rename_i hz
    rw [interp_nil, Real.sqrt_eq_zero_of_nonpos (by exact_mod_cast hz)]
  · rename_i hz
    have hcast : ((z.toNat : ℕ) : ℝ) = (z : ℝ) := by
      have : ((z.toNat : ℕ) : ℤ) = z := Int.toNat_of_nonneg (by omega)
      exact_mod_cast this
    simp only
    split
    · rename_i hm
      rw [interp_cons, interp_nil, add_zero, ← hcast]
      simp only
      have h2 : ((z.toNat : ℕ) : ℝ)
          = ((sqFactor z.toNat : ℕ) : ℝ) * ((sqFactor z.toNat : ℕ) : ℝ)
            * ((z.toNat / (sqFactor z.toNat * sqFactor z.toNat) : ℕ) : ℝ) := by
        exact_mod_cast hm.symm
      conv_rhs => rw [h2]
      rw [Real.sqrt_mul (by positivity), Real.sqrt_mul_self (by positivity)]
      push_cast
      ring
    · rw [interp_cons, interp_nil, add_zero, ← hcast]
      simp

/-- Two formal sums are equivalent when they stand for the same real number. -/
instance setoid : Setoid Sym where
  r a b := interp a = interp b
  iseqv := ⟨fun _ => rfl, fun h => h.symm, fun h1 h2 => h1.trans h2⟩

/-- The exact numbers: formal sums of square roots up to equality of their
values. -/
def Num : Type := Quotient setoid

/-- The real number an exact number stands for. -/
noncomputable def toReal : Num → ℝ := Quotient.lift interp fun _ _ h => h

theorem toReal_mk (l : Sym) : toReal (Quotient.mk setoid l) = interp l := rfl

theorem toReal_injective : Function.Injective toReal := by
  intro a b
  induction a using Quotient.inductionOn with
  | _ x =>
    induction b using Quotient.inductionOn with
    | _ y => intro h; exact Quotient.sound h

instance : Zero Num := ⟨Quotient.mk setoid []⟩

instance : One Num := ⟨Quotient.mk setoid [(1, 1)]⟩

instance : Add Num :=
  ⟨Quotient.map₂ (fun a b => a ++ b) fun a a1 ha b b1 hb => by
    show interp (a ++ b) = interp (a1 ++ b1)
    rw [interp_append, interp_append, ha, hb]⟩

instance : Neg Num :=
  ⟨Quotient.map negSym fun a a1 ha => by
    show interp (negSym a) = interp (negSym a1)
    rw [interp_negSym, interp_negSym, ha]⟩

instance : Sub Num :=
  ⟨Quotient.map₂ (fun a b => a ++ negSym b) fun a a1 ha b b1 hb => by
    show interp (a ++ negSym b) = interp (a1 ++ negSym b1)
    rw [interp_append, interp_append, interp_negSym, interp_negSym, ha, hb]⟩

instance : Mul Num :=
  ⟨Quotient.map₂ mulSym fun a a1 ha b b1 hb => by
    show interp (mulSym a b) = interp (mulSym a1 b1)
    rw [interp_mulSym, interp_mulSym, ha, hb]⟩

instance : NatCast Num := ⟨fun n => Quotient.mk setoid [(1, (n : ℚ))]⟩

instance : IntCast Num := ⟨fun n => Quotient.mk setoid [(1, (n : ℚ))]⟩

instance : SMul ℕ Num := ⟨fun n a => (n : Num) * a⟩

instance : SMul ℤ Num := ⟨fun n a => (n : Num) * a⟩

instance : Pow Num ℕ := ⟨fun a n => npowRec n a⟩

theorem toReal_zero : toReal 0 = 0 := interp_nil

theorem toReal_one : toReal 1 = 1 := by
  show interp [(1, 1)] = 1
  simp [interp]

theorem toReal_add (a b : Num) : toReal (a + b) = toReal a + toReal b := by
  induction a using Quotient.inductionOn with
  | _ x =>
    induction b using Quotient.inductionOn with
    | _ y => exact interp_append x y

theorem toReal_neg (a : Num) : toReal (-a) = -toReal a := by
  induction a using Quotient.inductionOn with
  | _ x => exact interp_negSym x

theorem toReal_sub (a b : Num) : toReal (a - b) = toReal a - toReal b := by
  induction a using Quotient.inductionOn with
  | _ x =>
    induction b using Quotient.inductionOn with
    | _ y =>
      show interp (x ++ negSym y) = interp x - interp y
      rw [interp_append, interp_negSym]; ring

theorem toReal_mul (a b : Num) : toReal (a * b) = toReal a * toReal b := by
  induction a using Quotient.inductionOn with
  | _ x =>
    induction b using Quotient.inductionOn with
    | _ y => exact interp_mulSym x y

theorem toReal_natCast (n : ℕ) : toReal (n : Num) = (n : ℝ) := by
  show interp [(1, (n : ℚ))] = (n : ℝ)
  simp [interp]

theorem toReal_intCast (n : ℤ) : toReal (n : Num) = (n : ℝ) := by
  show interp [(1, (n : ℚ))] = (n : ℝ)
  simp [interp]

theorem toReal_nsmul (n : ℕ) (a : Num) : toReal (n • a) = n • toReal a := by
  show toReal ((n : Num) * a) = n • toReal a
  rw [toReal_mul, toReal_natCast, nsmul_eq_mul]

theorem toReal_zsmul (n : ℤ) (a : Num) : toReal (n • a) = n • toReal a := by
  show toReal ((n : Num) * a) = n • toReal a
  rw [toReal_mul, toReal_intCast, zsmul_eq_mul]

theorem toReal_pow (a : Num) (n : ℕ) : toReal (a ^ n) = toReal a ^ n := by
  show toReal (npowRec n a) = toReal a ^ n
  induction n with
  | zero => simp [npowRec, toReal_one]
  | succ k ih => rw [npowRec, toReal_mul, ih, pow_succ]

noncomputable instance : CommRing Num :=
  Function.Injective.commRing toReal toReal_injective toReal_zero toReal_one toReal_add
    toReal_mul toReal_neg toReal_sub toReal_nsmul toReal_zsmul toReal_pow toReal_natCast
    toReal_intCast

/-- Decides `interp x ≤ interp y`, by certificate when the sign of `y - x` is
certified, classically otherwise. -/
noncomputable def leB (x y : Sym) : Bool :=
  match sign (y ++ negSym x) with
  | some 1 => true
  | some 0 => true
  | some _ => false
  | none => decide (interp x ≤ interp y)

/-- Decides `interp x < interp y`. -/
noncomputable def ltB (x y : Sym) : Bool :=
  match sign (y ++ negSym x) with
  | some 1 => true
  | some _ => false
  | none => decide (interp x < interp y)

/-- Decides `interp x = interp y`. -/
noncomputable def eqB (x y : Sym) : Bool :=
  match sign (y ++ negSym x) with
  | some 0 => true
  | some _ => false
  | none => decide (interp x = interp y)

theorem interp_diff (x y : Sym) : interp (y ++ negSym x) = interp y - interp x := by
  rw [interp_append, interp_negSym]; ring

theorem leB_iff (x y : Sym) : leB x y = true ↔ interp x ≤ interp y := by
  obtain ⟨h0, h1, h2, h3⟩ := sign_sound (y ++ negSym x)
  rw [interp_diff] at h0 h1 h2
  unfold leB
  cases hs : sign (y ++ negSym x) with
  | none => simp
  | some z =>
    rcases h3 z hs with rfl | rfl | rfl
    · have := h0 hs; simp only [true_iff]; linarith
    · have := h1 hs; simp only [true_iff]; linarith
    · have := h2 hs
      simp only [Bool.false_eq_true, false_iff, not_le]
      linarith

theorem ltB_iff (x y : Sym) : ltB x y = true ↔ interp x < interp y := by
  obtain ⟨h0, h1, h2, h3⟩ := sign_sound (y ++ negSym x)
  rw [interp_diff] at h0 h1 h2
  unfold ltB
  cases hs : sign (y ++ negSym x) with
  | none => simp
  | some z =>
    rcases h3 z hs with rfl | rfl | rfl
    · have := h0 hs
      simp only [Bool.false_eq_true, false_iff, not_lt]
      linarith
    · have := h1 hs; simp only [true_iff]; linarith
    · have := h2 hs
      simp only [Bool.false_eq_true, false_iff, not_lt]
      linarith

theorem eqB_iff (x y : Sym) : eqB x y = true ↔ interp x = interp y := by
  obtain ⟨h0, h1, h2, h3⟩ := sign_sound (y ++ negSym x)
  rw [interp_diff] at h0 h1 h2
  unfold eqB
  cases hs : sign (y ++ negSym x) with
  | none => simp
  | some z =>
    rcases h3 z hs with rfl | rfl | rfl
    · have := h0 hs; simp only [true_iff]; linarith
    · have := h1 hs
      simp only [Bool.false_eq_true, false_iff]
      intro h; linarith
    · have := h2 hs
      simp only [Bool.false_eq_true, false_iff]
      intro h; linarith

/-- The test `a ≤ b` on exact numbers. -/
noncomputable def leQ : Num → Num → Bool :=
  Quotient.lift₂ leB fun a b a1 b1 ha hb => by
    have ha1 : interp a = interp a1 := ha
    have hb1 : interp b = interp b1 := hb
    rw [Bool.eq_iff_iff, leB_iff, leB_iff, ha1, hb1]

/-- The test `a < b` on exact numbers. -/
noncomputable def ltQ : Num → Num → Bool :=
  Quotient.lift₂ ltB fun a b a1 b1 ha hb => by
    have ha1 : interp a = interp a1 := ha
    have hb1 : interp b = interp b1 := hb
    rw [Bool.eq_iff_iff, ltB_iff, ltB_iff, ha1, hb1]

/-- The test `a = b` on exact numbers. -/
noncomputable def eqQ : Num → Num → Bool :=
  Quotient.lift₂ eqB fun a b a1 b1 ha hb => by
    have ha1 : interp a = interp a1 := ha
    have hb1 : interp b = interp b1 := hb
    rw [Bool.eq_iff_iff, eqB_iff, eqB_iff, ha1, hb1]

theorem leQ_iff (a b : Num) : leQ a b = true ↔ toReal a ≤ toReal b := by
  induction a using Quotient.inductionOn with
  | _ x =>
    induction b using Quotient.inductionOn with
    | _ y => exact leB_iff x y

theorem ltQ_iff (a b : Num) : ltQ a b = true ↔ toReal a < toReal b := by
  induction a using Quotient.inductionOn with
  | _ x =>
    induction b using Quotient.inductionOn with
    | _ y => exact ltB_iff x y

theorem eqQ_iff (a b : Num) : eqQ a b = true ↔ a = b := by
  rw [← toReal_injective.eq_iff]
  induction a using Quotient.inductionOn with
  | _ x =>
    induction b using Quotient.inductionOn with
    | _ y => exact eqB_iff x y

noncomputable instance : LinearOrder Num where
  le a b := toReal a ≤ toReal b
  lt a b := toReal a < toReal b
  le_refl a := le_refl (toReal a)
  le_trans a b c := le_trans (a := toReal a) (b := toReal b) (c := toReal c)
  lt_iff_le_not_le a b := lt_iff_le_not_le (a := toReal a) (b := toReal b)
  le_antisymm a b h1 h2 := toReal_injective (le_antisymm h1 h2)
  le_total a b := le_total (toReal a) (toReal b)
  decidableLE a b := decidable_of_iff (leQ a b = true) (leQ_iff a b)
  decidableLT a b := decidable_of_iff (ltQ a b = true) (ltQ_iff a b)
  decidableEq a b := decidable_of_iff (eqQ a b = true) (eqQ_iff a b)

theorem le_iff_toReal (a b : Num) : a ≤ b ↔ toReal a ≤ toReal b := Iff.rfl

theorem lt_iff_toReal (a b : Num) : a < b ↔ toReal a < toReal b := Iff.rfl

noncomputable instance : LinearOrderedCommRing Num :=
  { (inferInstance : CommRing Num), (inferInstance : LinearOrder Num) with
    add_le_add_left := fun a b h c => by
      rw [le_iff_toReal, toReal_add, toReal_add]
      exact add_le_add_left ((le_iff_toReal a b).1 h) (toReal c)
    exists_pair_ne := ⟨0, 1, fun h => by
      have := congrArg toReal h
      rw [toReal_zero, toReal_one] at this
      exact zero_ne_one this⟩
    zero_le_one := by
      rw [le_iff_toReal, toReal_zero, toReal_one]
      exact zero_le_one
    mul_pos := fun a b ha hb => by
      rw [lt_iff_toReal, toReal_zero] at *
      rw [toReal_mul]
      exact mul_pos ha hb }

/-- The embedding of the exact numbers into the reals, as a ring homomorphism. -/
noncomputable def toRealHom : Num →+* ℝ where
  toFun := toReal
  map_one' := toReal_one
  map_mul' := toReal_mul
  map_zero' := toReal_zero
  map_add' := toReal_add

theorem toRealHom_strictMono : StrictMono toRealHom := fun _ _ h => h

/-- The exact number `√z`. -/
def sqrtNum (z : ℤ) : Num := Quotient.mk setoid (sqrtSym z)

theorem toReal_sqrtNum (z : ℤ) : toReal (sqrtNum z) = Real.sqrt (z : ℝ) := interp_sqrtSym z

/-- The exact number `10⁻¹²`, the tolerance of `almost_equal`. -/
def epsNum : Num := Quotient.mk setoid [(1, 1 / 1000000000000)]

theorem toReal_epsNum : toReal epsNum = 1 / 1000000000000 := by
  show interp [(1, 1 / 1000000000000)] = 1 / 1000000000000
  simp [interp]

end Surd

/-! ## Transport of planner runs along an embedding of the numbers -/

namespace Planner

open Cpp

/-- Apply a map of the numbers to every numeric field of a cell. -/
def Cell.map {K₁ K₂ P : Type} (f : K₁ → K₂) (c : Cell K₁ P) : Cell K₂ P :=
  { i := c.i, j := c.j, id := c.id, p := c.p, state := c.state, g := f c.g, rhs := f c.rhs,
    h := f c.h, k1 := f c.k1, k2 := f c.k2, parent_id := c.parent_id, updated := c.updated }

/-- Apply a map of the numbers to every numeric field of a planner state. -/
def DStarLight.map {K₁ K₂ P : Type} (f : K₁ → K₂) (s : DStarLight K₁ P) : DStarLight K₂ P :=
  { gridmap := s.gridmap, vizd := f s.vizd, ref_grid := s.ref_grid.map (Cell.map f),
    grid := s.grid.map (Cell.map f), open_list := s.open_list.map (Cell.map f),
    visited := s.visited, path := s.path, occu_cost := f s.occu_cost,
    start_id := s.start_id, goal_id := s.goal_id, curr_id := s.curr_id,
    goal_reached := s.goal_reached }

/-- The environment `E₂` is the image of `E₁` under `f`. -/
def Env.IsImage {K₁ K₂ : Type} (f : K₁ → K₂) (E₁ : Env K₁) (E₂ : Env K₂) : Prop :=
  (∀ z, E₂.sqrt z = f (E₁.sqrt z)) ∧ E₂.eps = f E₁.eps

/-- The exact-number environment: exact square roots and the tolerance `1e-12`. -/
def numEnv : Env Surd.Num := { sqrt := Surd.sqrtNum, eps := Surd.epsNum }

/-- The real-number environment: the real square root and the tolerance `1e-12`. -/
noncomputable def realEnv : Env ℝ :=
  { sqrt := fun z => Real.sqrt (z : ℝ), eps := 1 / 1000000000000 }

/-- A fresh planner on the `10 × 10` grid with every cell free; the world point of
a cell is its pair of grid indices, and the visibility radius is `1`. -/
def openGrid (K : Type) [LinearOrderedRing K] : DStarLight K (ℤ × ℤ) :=
  freshPlanner 10 10 (fun n => (((n / 10 : ℕ) : ℤ), ((n % 10 : ℕ) : ℤ))) (fun _ => 0) id 1

/-- Run `initPath` and `planPath` on `s0` and report `g` and `rhs` of the start
cell, the parent of the goal cell and the result of `getPath`. -/
def planSummary {K P : Type} [LinearOrderedRing K] (E : Env K) (fuel : ℕ)
    (s0 : DStarLight K P) (start goal : P) : Option (K × K × ℤ × List P) := do
  let s1 ← initPath E s0 start goal
  let s2 ← planPath E fuel s1
  let c ← at? s2.grid s2.start_id
  let gc ← at? s2.grid s2.goal_id
  let path ← getPath fuel s2
  pure (c.g, c.rhs, gc.parent_id, path)

end Planner

namespace PF

/-- A symmetric `3 × 3` matrix whose quadratic form is nowhere negative. -/
def SymmPSD {K : Type} [LinearOrderedField K] (A : Matrix3d K) : Prop :=
  (∀ a b, A a b = A b a) ∧ ∀ v : Vector3d K, 0 ≤ Matrix.dotProduct v (A.mulVec v)

end PF

namespace Planner

open Cpp

/-- The part of a cell no planner operation writes: grid indices and id. -/
def Cell.pos {K P : Type} (c : Cell K P) : ℤ × ℤ × ℤ := (c.i, c.j, c.id)

/-- The part of a cell that `edgeCost` and the `g` lookup of `minNeighbor` read
besides the indices: occupancy state and `g`. -/
def Cell.costs {K P : Type} (c : Cell K P) : ℤ × K := (c.state, c.g)

/-- The part of a cell that `updateCell` computes from the neighbours: `rhs` and
the parent link. -/
def Cell.mark {K P : Type} (c : Cell K P) : K × ℤ := (c.rhs, c.parent_id)

/-- The planner data an operation leaves alone: grid size, occupancy cost, goal
and start ids, the traversed path and the indices and ids of all cells. -/
def Frame {K P : Type} (s s1 : DStarLight K P) : Prop :=
  s1.gridmap = s.gridmap ∧ s1.occu_cost = s.occu_cost ∧ s1.goal_id = s.goal_id ∧
  s1.start_id = s.start_id ∧ s1.path = s.path ∧ s1.grid.map Cell.pos = s.grid.map Cell.pos

/-- Spec side: the one-step lookahead of cell `x` (stored as `c`): the parent is
an in-bounds neighbour, `rhs = g(parent) + edgeCost(x, parent)`, and no in-bounds
neighbour `n` has a smaller `g(n) + edgeCost(x, n)`. -/
def Lookahead {K P : Type} [LinearOrderedRing K] (E : Env K) (s : DStarLight K P) (x : ℤ)
    (c : Cell K P) : Prop :=
  c.parent_id ∈ neighbors s.gridmap c ∧
  (∃ m e, at? s.grid c.parent_id = some m ∧ edgeCost E s x c.parent_id = some e ∧
    c.rhs = m.g + e) ∧
  ∀ nid ∈ neighbors s.gridmap c, ∃ n e1, at? s.grid nid = some n ∧
    edgeCost E s x nid = some e1 ∧ c.rhs ≤ n.g + e1

/-- The lookahead holds for every cell other than the goal that carries a parent
link and lies outside the set `B`. -/
def LookaheadExcept {K P : Type} [LinearOrderedRing K] (E : Env K) (s : DStarLight K P)
    (B : ℤ → Prop) : Prop :=
  ∀ x c, at? s.grid x = some c → x ≠ s.goal_id → c.parent_id ≠ -1 → ¬ B x → Lookahead E s x c

/-- The one-step-lookahead invariant: the lookahead holds for every cell other
than the goal whose parent link is set.  A parent link other than `-1` marks the
cells that were passed to `updateCell`: fresh cells carry `-1`, and `updateCell`
is the only writer of `parent_id`. -/
def LookaheadInv {K P : Type} [LinearOrderedRing K] (E : Env K) (s : DStarLight K P) : Prop :=
  ∀ x c, at? s.grid x = some c → x ≠ s.goal_id → c.parent_id ≠ -1 → Lookahead E s x c

/-- Well-formed grid: the cell at index `n` stores `n` as id, its indices are in
bounds and `n` is their row-major id. -/
def Shape {K P : Type} (s : DStarLight K P) : Prop :=
  ∀ n c, at? s.grid n = some c →
    c.id = n ∧ s.gridmap.grid2RowMajor c.i c.j = n ∧
    0 ≤ c.i ∧ c.i < s.gridmap.xsize ∧ 0 ≤ c.j ∧ c.j < s.gridmap.ysize

/-- Every cell stored in the open list has the indices of the grid cell with its
id. -/
def OpenGeo {K P : Type} (s : DStarLight K P) : Prop :=
  ∀ c ∈ s.open_list, at? (s.grid.map Cell.pos) c.id = some c.pos

/-- A freshly constructed planner with a well-formed grid: the open list is
empty and no cell has a parent. -/
def FreshShape {K P : Type} (s : DStarLight K P) : Prop :=
  s.open_list = [] ∧ Shape s ∧ ∀ n c, at? s.grid n = some c → c.parent_id = -1

/-- Planner states observed from the planner `s0`: after `initPath`, between
`planPath` loop iterations, after a whole `planPath` and after a
`pathTraversal` call. -/
inductive Observed {K P : Type} [LinearOrderedRing K] [FloorRing K] (E : Env K)
    (s0 : DStarLight K P) : DStarLight K P → Prop
  | init (start goal : P) (s : DStarLight K P) :
      initPath E s0 start goal = some s → Observed E s0 s
  | step (s : DStarLight K P) (b : Bool) (s1 : DStarLight K P) :
      Observed E s0 s → planStep E s = some (b, s1) → Observed E s0 s1
  | plan (s : DStarLight K P) (fuel : ℕ) (s1 : DStarLight K P) :
      Observed E s0 s → planPath E fuel s = some s1 → Observed E s0 s1
  | traverse (s : DStarLight K P) (fuel : ℕ) (s1 : DStarLight K P) :
      Observed E s0 s → pathTraversal E fuel s = some s1 → Observed E s0 s1

/-- Every grid cell stores its own index as id. -/
def IdsIndex {K P : Type} (s : DStarLight K P) : Prop :=
  ∀ n c, at? s.grid n = some c → c.id = n

/-- The first half of `pathTraversal` past the goal test: move the start to the
cheapest traversable neighbour, append its world point to the path and reveal
the cells in view; returns the new state and the ids of the revealed cells. -/
def moveAndReveal {K P : Type} [LinearOrderedRing K] [FloorRing K] (E : Env K)
    (s : DStarLight K P) : Option (DStarLight K P × List ℤ) := do
  let sid ← minNeighbor E s s.start_id true
  let c ← at? s.grid sid
  simulateGridUpdate { s with start_id := sid, path := s.path ++ [c.p] }

/-- The corridor after `initPath`, `planPath` and one `pathTraversal`: the robot
stands on the goal cell `0`. -/
def corridorAtGoal : DStarLight ℚ (ℤ × ℤ) :=
  (pathTraversal exampleEnv 10 corridorDone).getD corridor

/-- The corridor after a second `pathTraversal`, which only sets the
goal-reached flag. -/
def corridorFlagged : DStarLight ℚ (ℤ × ℤ) :=
  (pathTraversal exampleEnv 10 corridorAtGoal).getD corridor

/-- The corridor after a third `pathTraversal`, which moves the robot from the
goal cell `0` to cell `1` and reveals cell `2`. -/
def corridorAway : DStarLight ℚ (ℤ × ℤ) :=
  (pathTraversal exampleEnv 10 corridorFlagged).getD corridor

/-- The corridor after a fourth `pathTraversal`, which moves the robot back to
cell `0` and reveals nothing. -/
def corridorBack : DStarLight ℚ (ℤ × ℤ) :=
  (pathTraversal exampleEnv 10 corridorAway).getD corridor

/-- Every cell stored in the open list carries the heuristic of its id for the
current start and the key computed from it. -/
def KeyInv {K P : Type} [LinearOrderedRing K] (E : Env K) (s : DStarLight K P) : Prop :=
  ∀ c ∈ s.open_list, heuristic E s c.id = some c.h ∧
    c.k1 = min c.g c.rhs + c.h ∧ c.k2 = min c.g c.rhs

/-- The invariants carried through the planner: a well-formed grid, open cells
with the indices of their grid cells, and the one-step lookahead. -/
def Sound {K P : Type} [LinearOrderedRing K] (E : Env K) (s : DStarLight K P) : Prop :=
  Shape s ∧ OpenGeo s ∧ LookaheadInv E s

/-- Cell `x` of the grid has a parent link (`parent_id ≥ 0`). -/
def Marked {K P : Type} (s : DStarLight K P) (x : ℤ) : Prop :=
  ∃ c, at? s.grid x = some c ∧ 0 ≤ c.parent_id

/-- The cell the robot stands on in the planned corridor. -/
def corridorRobotCell : Cell ℚ (ℤ × ℤ) :=
  (at? corridorDone.grid corridorDone.start_id).getD (corridorCell 1)

end Planner

/-! ## Lemmas on vector access -/

namespace Cpp
theorem at?_eq_some {α : Type} {v : List α} {id : ℤ} {a : α} (h : at? v id = some a) :
    0 ≤ id ∧ id.toNat < v.length ∧ v[id.toNat]? = some a := by
  unfold at? at h
  split at h
  · rename_i h0
    refine ⟨h0, ?_, h⟩
    exact (List.getElem?_eq_some.1 h).1
  · cases h

theorem at?_setAt_self {α : Type} {v : List α} {id : ℤ} {a : α} (c : α) (h : at? v id = some a) :
    at? (setAt v id c) id = some c := by
  obtain ⟨h0, hlt, -⟩ := at?_eq_some h
  simp [at?, setAt, h0, hlt]

theorem at?_setAt_ne {α : Type} (v : List α) {id id1 : ℤ} (c : α) (h0 : 0 ≤ id)
    (hne : id ≠ id1) : at? (setAt v id c) id1 = at? v id1 := by
  unfold at? setAt
  split
  · rename_i h1
    rw [List.getElem?_set_ne]
    omega
  · rfl

theorem length_setAt {α : Type} (v : List α) (id : ℤ) (c : α) :
    (setAt v id c).length = v.length := by
  simp [setAt]

theorem at?_map {α β : Type} (f : α → β) (v : List α) (id : ℤ) :
    at? (v.map f) id = (at? v id).map f := by
  unfold at?
  split <;> simp

theorem setAt_map {α β : Type} (f : α → β) (v : List α) (id : ℤ) (c : α) :
    (setAt v id c).map f = setAt (v.map f) id (f c) := by
  simp [setAt, List.map_set]

theorem setAt_same {α : Type} {v : List α} {id : ℤ} {a : α} (h : at? v id = some a) :
    setAt v id a = v := by
  obtain ⟨h0, hlt, hg⟩ := at?_eq_some h
  unfold setAt
  apply List.ext_getElem?
  intro n
  by_cases hn : id.toNat = n
  · subst hn; rw [List.getElem?_set_self hlt, hg]
  · rw [List.getElem?_set_ne hn]

theorem setAt_setAt {α : Type} (v : List α) (id : ℤ) (a b : α) :
    setAt (setAt v id a) id b = setAt v id b := by
  simp [setAt]

theorem at?_setAt {α : Type} {v : List α} {id id1 : ℤ} {a x : α} (c : α)
    (ha : at? v id = some a) (hx : at? (setAt v id c) id1 = some x) :
    (id1 = id ∧ x = c) ∨ (id1 ≠ id ∧ at? v id1 = some x) := by
  by_cases h : id = id1
  · subst h
    rw [at?_setAt_self c ha] at hx
    exact Or.inl ⟨rfl, (Option.some.inj hx).symm⟩
  · rw [at?_setAt_ne v c (at?_eq_some ha).1 h] at hx
    exact Or.inr ⟨fun e => h e.symm, hx⟩
end Cpp

/-! ## The planner: termination test, idempotence and the open-set invariant -/

namespace Planner

open Cpp

section Exit

variable {K P : Type} [LinearOrderedRing K]


theorem ifPlanning_spec {E : Env K} {s s1 : DStarLight K P} {b : Bool}
    (h : ifPlanning E s = some (b, s1)) :
    ∃ hv c top, heuristic E s s.start_id = some hv ∧ at? s.grid s.start_id = some c ∧
      (s.open_list.insertionSort keyLE).head? = some top ∧
      s1 = { s with grid := setAt s.grid s.start_id (c.setHKeys hv),
                    open_list := s.open_list.insertionSort keyLE } ∧
      b = (if almost_equal E top.k1 (c.setHKeys hv).k1 then
            decide (top.k2 < (c.setHKeys hv).k2 ∨
              (c.setHKeys hv).rhs ≠ (c.setHKeys hv).g)
          else
            decide (top.k1 < (c.setHKeys hv).k1 ∨
              (c.setHKeys hv).rhs ≠ (c.setHKeys hv).g)) := by
  unfold ifPlanning at h
  cases hh : heuristic E s s.start_id with
  | none => simp [hh] at h
  | some hv =>
    cases hc : at? s.grid s.start_id with
    | none => simp [hh, hc] at h
    | some c =>
      cases ht : (s.open_list.insertionSort keyLE).head? with
      | none => simp [hh, hc, ht] at h
      | some top =>
        refine ⟨hv, c, top, rfl, rfl, rfl, ?_⟩
        simp only [hh, hc, ht, Option.bind_eq_bind, Option.some_bind] at h
        split at h
        · rename_i hae
          simp only [pure, Option.some.injEq, Prod.mk.injEq] at h
          rw [if_pos hae]
          exact ⟨h.2.symm, h.1.symm⟩
        · rename_i hae
          simp only [pure, Option.some.injEq, Prod.mk.injEq] at h
          rw [if_neg hae]
          exact ⟨h.2.symm, h.1.symm⟩


theorem sortKey_iff_lex (a b : Cell K P) :
    SortKey a b ↔ toLex (a.k1, a.k2) < toLex (b.k1, b.k2) := by
  rw [Prod.Lex.lt_iff]; rfl

theorem keyLE_iff_lex (a b : Cell K P) :
    keyLE a b ↔ toLex (a.k1, a.k2) ≤ toLex (b.k1, b.k2) := by
  unfold keyLE; rw [sortKey_iff_lex, not_lt]

instance keyLE.isTotal : IsTotal (Cell K P) keyLE :=
  ⟨fun a b => by simp only [keyLE_iff_lex]; exact le_total _ _⟩

instance keyLE.isTrans : IsTrans (Cell K P) keyLE :=
  ⟨fun a b c => by simp only [keyLE_iff_lex]; exact le_trans⟩

theorem sorted_open_min (l : List (Cell K P)) (top : Cell K P)
    (h : (l.insertionSort keyLE).head? = some top) :
    ∀ x ∈ l.insertionSort keyLE, ¬ SortKey x top := by
  have hs := List.sorted_insertionSort keyLE l
  cases hl : l.insertionSort keyLE with
  | nil => rw [hl] at h; cases h
  | cons y ys =>
    rw [hl] at h hs
    simp only [List.head?_cons, Option.some.injEq] at h
    subst h
    intro x hx
    rcases List.mem_cons.1 hx with rfl | hx
    · rw [sortKey_iff_lex]; exact lt_irrefl _
    · have := List.rel_of_sorted_cons hs x hx
      exact this

theorem planStep_spec {E : Env K} {s s2 : DStarLight K P} {b : Bool}
    (h : planStep E s = some (b, s2)) :
    (b = true ∧ ∃ s1, ifPlanning E s = some (true, s1) ∧ expand E s1 = some s2) ∨
    (b = false ∧ ifPlanning E s = some (false, s2)) := by
  unfold planStep at h
  cases hi : ifPlanning E s with
  | none => simp [hi] at h
  | some r =>
    obtain ⟨b0, s1⟩ := r
    simp only [hi, Option.bind_eq_bind, Option.some_bind] at h
    cases b0 with
    | true =>
      simp only [if_true] at h
      cases he : expand E s1 with
      | none => simp [he] at h
      | some s3 =>
        simp only [he, Option.some_bind, pure, Option.some.injEq, Prod.mk.injEq] at h
        exact Or.inl ⟨h.1.symm, s1, rfl, by rw [he, h.2]⟩
    | false =>
      simp only [Bool.false_eq_true, if_false, pure, Option.some.injEq, Prod.mk.injEq] at h
      exact Or.inr ⟨h.1.symm, by rw [h.2]⟩

theorem planLoop_exit {E : Env K} :
    ∀ (n : ℕ) (s s1 : DStarLight K P), planLoop E n s = some s1 →
      ∃ s0, ifPlanning E s0 = some (false, s1) := by
  intro n
  induction n with
  | zero => intro s s1 h; simp [planLoop] at h
  | succ n ih =>
    intro s s1 h
    unfold planLoop at h
    cases hp : planStep E s with
    | none => simp [hp] at h
    | some r =>
      obtain ⟨b, s2⟩ := r
      simp only [hp, Option.bind_eq_bind, Option.some_bind] at h
      cases b with
      | true =>
        simp only [if_true] at h
        exact ih s2 s1 h
      | false =>
        simp only [Bool.false_eq_true, if_false, pure, Option.some.injEq] at h
        subst h
        rcases planStep_spec hp with ⟨hb, -⟩ | ⟨-, hi⟩
        · cases hb
        · exact ⟨s, hi⟩

theorem ifPlanning_false_consistent {E : Env K} {s s1 : DStarLight K P}
    (h : ifPlanning E s = some (false, s1)) :
    ∃ c, at? s1.grid s1.start_id = some c ∧ c.rhs = c.g := by
  obtain ⟨hv, c, top, -, hc, -, hs1, hb⟩ := ifPlanning_spec h
  refine ⟨c.setHKeys hv, ?_, ?_⟩
  · rw [hs1]; exact at?_setAt_self _ hc
  · by_contra hne
    split at hb
    · simp [hne] at hb
    · simp [hne] at hb

/-- Claim C5: whenever `planPath` returns (the last `ifPlanning` evaluated to
false, which needs a non-empty open list), the start cell is locally
consistent: `rhs(start) = g(start)`. -/
theorem planPath_start_consistent (E : Env K) (fuel : ℕ) (s s1 : DStarLight K P)
    (h : planPath E fuel s = some s1) :
    ∃ c, at? s1.grid s1.start_id = some c ∧ c.rhs = c.g := by
  obtain ⟨s0, h0⟩ := planLoop_exit fuel _ s1 h
  exact ifPlanning_false_consistent h0

/-- Claim C6, amended: whenever `planPath` returns, the open list is not empty,
its first cell `top` carries a minimum key (no open cell sorts strictly before
it), and the start key is at most that minimum in the sense of `ifPlanning`:
when the two `k1` are almost equal, `k2(start) ≤ k2(top)`; otherwise
`k1(start) ≤ k1(top)`. -/
theorem planPath_start_key_le_min (E : Env K) (fuel : ℕ) (s s1 : DStarLight K P)
    (h : planPath E fuel s = some s1) :
    ∃ c top, at? s1.grid s1.start_id = some c ∧ s1.open_list.head? = some top ∧
      (∀ x ∈ s1.open_list, ¬ SortKey x top) ∧
      (if almost_equal E top.k1 c.k1 then c.k2 ≤ top.k2 else c.k1 ≤ top.k1) := by
  obtain ⟨s0, h0⟩ := planLoop_exit fuel _ s1 h
  obtain ⟨hv, c, top, -, hc, ht, hs1, hb⟩ := ifPlanning_spec h0
  refine ⟨c.setHKeys hv, top, ?_, ?_, ?_, ?_⟩
  · rw [hs1]; exact at?_setAt_self _ hc
  · rw [hs1]; exact ht
  · rw [hs1]; exact sorted_open_min _ _ ht
  · split at hb
    · rename_i hae
      rw [if_pos hae]
      have := of_decide_eq_false hb.symm
      push_neg at this
      exact this.1
    · rename_i hae
      rw [if_neg hae]
      have := of_decide_eq_false hb.symm
      push_neg at this
      exact this.1

theorem ifPlanning_visited {E : Env K} (s : DStarLight K P) (v : List ℤ) :
    ifPlanning E { s with visited := v }
      = (ifPlanning E s).map fun r => (r.1, { r.2 with visited := v }) := by
  unfold ifPlanning heuristic
  cases hc : at? s.grid s.start_id with
  | none => simp [hc]
  | some c =>
    cases ht : (s.open_list.insertionSort keyLE).head? with
    | none => simp [hc, ht]
    | some top =>
      simp only [hc, ht, Option.bind_eq_bind, Option.some_bind, pure]
      split <;> rfl

theorem setHKeys_setHKeys (c : Cell K P) (h : K) : (c.setHKeys h).setHKeys h = c.setHKeys h := rfl

theorem ifPlanning_idem {E : Env K} {s s1 : DStarLight K P} {b : Bool}
    (h : ifPlanning E s = some (b, s1)) : ifPlanning E s1 = some (b, s1) := by
  obtain ⟨hv, c, top, hh, hc, ht, hs1, hb⟩ := ifPlanning_spec h
  have hsorted : (s.open_list.insertionSort keyLE).insertionSort keyLE
      = s.open_list.insertionSort keyLE :=
    List.Sorted.insertionSort_eq (List.sorted_insertionSort keyLE _)
  have hc1 : at? (setAt s.grid s.start_id (c.setHKeys hv)) s.start_id = some (c.setHKeys hv) :=
    at?_setAt_self _ hc
  have hset : setAt (setAt s.grid s.start_id (c.setHKeys hv)) s.start_id (c.setHKeys hv)
      = setAt s.grid s.start_id (c.setHKeys hv) := by simp [setAt]
  have hhv : hv = E.sqrt (|c.i - c.i| * |c.i - c.i| + |c.j - c.j| * |c.j - c.j|) := by
    unfold heuristic at hh
    simp only [hc, Option.bind_eq_bind, Option.some_bind, pure, Option.some.injEq] at hh
    exact hh.symm
  have hh1 : heuristic E s1 s1.start_id = some hv := by
    rw [hs1]
    unfold heuristic
    simp only [hc1, Option.bind_eq_bind, Option.some_bind, pure]
    rw [hhv]; rfl
  unfold ifPlanning
  rw [hh1]
  subst hs1
  simp only [hc1, hsorted, ht, hset, setHKeys_setHKeys, Option.bind_eq_bind, Option.some_bind]
  rw [hb]
  split <;> rfl

/-- Claim C9: `planPath` is idempotent.  If a call returned the state `s1`, a
second call on `s1` (with any positive fuel) returns at its first loop test,
expands nothing (`visited` stays empty) and leaves every other component, in
particular every cell's `g`, `rhs`, `parent_id` and the open list, as it was. -/
theorem planPath_idempotent (E : Env K) (n m : ℕ) (s s1 : DStarLight K P)
    (h : planPath E n s = some s1) :
    planPath E (m + 1) s1 = some { s1 with visited := [] } := by
  obtain ⟨s0, h0⟩ := planLoop_exit n _ s1 h
  have h1 := ifPlanning_idem h0
  have h2 := ifPlanning_visited (E := E) s1 []
  rw [h1] at h2
  unfold planPath planLoop planStep
  simp [h2]

end Exit

section InvariantLists

variable {K : Type}


theorem InvCore.perm {G O O1 : List (ℤ × K × K)} (h : InvCore G O) (hp : O1.Perm O) :
    InvCore G O1 := by
  obtain ⟨h1, h2, h3⟩ := h
  refine ⟨h1, fun x hx => h2 x (hp.mem_iff.1 hx), ?_⟩
  exact (hp.map Prod.fst).nodup_iff.2 h3

theorem mem_eraseP_id {O : List (ℤ × K × K)} (hn : (O.map Prod.fst).Nodup) (id : ℤ)
    {x : ℤ × K × K} (hx : x ∈ O.eraseP fun y => decide (y.1 = id)) : x ∈ O ∧ x.1 ≠ id := by
  induction O with
  | nil => simp at hx
  | cons y ys ih =>
    simp only [List.map_cons, List.nodup_cons] at hn
    by_cases hy : y.1 = id
    · rw [List.eraseP_cons_of_pos (by simpa using hy)] at hx
      refine ⟨List.mem_cons_of_mem _ hx, ?_⟩
      intro hxe
      apply hn.1
      rw [hy, ← hxe]
      exact List.mem_map_of_mem _ hx
    · rw [List.eraseP_cons_of_neg (by simpa using hy)] at hx
      rcases List.mem_cons.1 hx with rfl | hx
      · exact ⟨List.mem_cons_self _ _, hy⟩
      · exact ⟨List.mem_cons_of_mem _ (ih hn.2 hx).1, (ih hn.2 hx).2⟩

/-- Replacing the grid triple at `id` and refreshing the open-list entry of `id`
(the effect of `updateCell`) preserves the invariant. -/
theorem InvCore.update {G O : List (ℤ × K × K)} (h : InvCore G O) {id : ℤ}
    {x x1 : ℤ × K × K} (hx : at? G id = some x) (hid : x1.1 = id) (tl : List (ℤ × K × K))
    (htl : tl = [] ∨ (tl = [x1] ∧ x1.2.1 ≠ x1.2.2)) :
    InvCore (setAt G id x1) ((O.eraseP fun y => decide (y.1 = id)) ++ tl) := by
  obtain ⟨h1, h2, h3⟩ := h
  have hG : ∀ id1 y, at? (setAt G id x1) id1 = some y → y.1 = id1 := by
    intro id1 y hy
    rcases at?_setAt x1 hx hy with ⟨e1, e2⟩ | ⟨-, e2⟩
    · rw [e2, e1, hid]
    · exact h1 id1 y e2
  have hE : ∀ y ∈ O.eraseP (fun y => decide (y.1 = id)),
      at? (setAt G id x1) y.1 = some y ∧ y.2.1 ≠ y.2.2 := by
    intro y hy
    obtain ⟨hyO, hne⟩ := mem_eraseP_id h3 id hy
    rw [at?_setAt_ne G x1 (at?_eq_some hx).1 (fun e => hne e.symm)]
    exact h2 y hyO
  have hEn : ((O.eraseP fun y => decide (y.1 = id)).map Prod.fst).Nodup :=
    List.Nodup.sublist ((List.eraseP_sublist O).map Prod.fst) h3
  rcases htl with rfl | ⟨rfl, hne⟩
  · rw [List.append_nil]
    exact ⟨hG, hE, hEn⟩
  · refine ⟨hG, ?_, ?_⟩
    · intro y hy
      rcases List.mem_append.1 hy with hy | hy
      · exact hE y hy
      · rw [List.mem_singleton] at hy
        subst hy
        rw [hid]
        exact ⟨at?_setAt_self _ hx, hne⟩
    · rw [List.map_append, List.nodup_append]
      refine ⟨hEn, by simp, ?_⟩
      intro a ha hb
      simp only [List.map_cons, List.map_nil, List.mem_singleton] at hb
      obtain ⟨y, hy, rfl⟩ := List.mem_map.1 ha
      exact (mem_eraseP_id h3 id hy).2 (hb.trans hid)

/-- Popping the head of the open list and overwriting the grid triple of its id
(the first half of an expansion) preserves the invariant. -/
theorem InvCore.pop {G : List (ℤ × K × K)} {top : ℤ × K × K} {O : List (ℤ × K × K)}
    (h : InvCore G (top :: O)) (x1 : ℤ × K × K) (hid : x1.1 = top.1) :
    InvCore (setAt G top.1 x1) O := by
  obtain ⟨h1, h2, h3⟩ := h
  have htop := (h2 top (List.mem_cons_self _ _)).1
  simp only [List.map_cons, List.nodup_cons] at h3
  refine ⟨?_, ?_, h3.2⟩
  · intro id1 y hy
    rcases at?_setAt x1 htop hy with ⟨e1, e2⟩ | ⟨-, e2⟩
    · rw [e2, e1, hid]
    · exact h1 id1 y e2
  · intro y hy
    have hne : top.1 ≠ y.1 := fun e => h3.1 (e ▸ List.mem_map_of_mem _ hy)
    rw [at?_setAt_ne G x1 (at?_eq_some htop).1 hne]
    exact h2 y (List.mem_cons_of_mem _ hy)

end InvariantLists

section InvariantCore

variable {K P : Type} [LinearOrderedRing K]


theorem core_setHKeys (c : Cell K P) (h : K) : core (c.setHKeys h) = core c := rfl

theorem updateRhs_shape {E : Env K} {s s1 : DStarLight K P} {id : ℤ}
    (h : updateRhs E s id = some s1) (hex : ∃ c, at? s.grid id = some c) :
    ∃ c c2 : Cell K P, at? s.grid id = some c ∧ c2.id = c.id ∧ c2.g = c.g ∧
      s1 = { s with grid := setAt s.grid id c2 } := by
  unfold updateRhs at h
  by_cases hgoal : id ≠ s.goal_id
  · rw [if_pos hgoal] at h
    cases hm : minNeighbor E s id false with
    | none => simp [hm] at h
    | some min_id =>
      cases hmc : at? s.grid min_id with
      | none => simp [hm, hmc] at h
      | some m =>
        cases he : edgeCost E s id min_id with
        | none => simp [hm, hmc, he] at h
        | some e =>
          cases hc : at? s.grid id with
          | none => simp [hm, hmc, he, hc] at h
          | some c =>
            simp only [hm, hmc, he, hc, Option.bind_eq_bind, Option.some_bind, pure,
              Option.some.injEq] at h
            exact ⟨c, { c with rhs := m.g + e, parent_id := min_id }, rfl, rfl, rfl, h.symm⟩
  · rw [if_neg hgoal] at h
    simp only [pure, Option.some.injEq] at h
    obtain ⟨c, hc⟩ := hex
    refine ⟨c, c, hc, rfl, rfl, ?_⟩
    rw [setAt_same hc, ← h]

theorem refreshOpen_shape {E : Env K} {s s1 : DStarLight K P} {id : ℤ}
    (h : refreshOpen E s id = some s1) :
    ∃ c c1 : Cell K P, at? s.grid id = some c ∧ core c1 = core c ∧
      s1.grid.map core = s.grid.map core ∧
      s1.open_list.map core
        = ((s.open_list.map core).eraseP fun y => decide (y.1 = id))
          ++ (if c.rhs ≠ c.g then [core c] else []) := by
  unfold refreshOpen at h
  have hem : (s.open_list.map core).eraseP (fun y => decide (y.1 = id))
      = (s.open_list.eraseP fun c => decide (c.id = id)).map core := by
    rw [List.eraseP_map]; rfl
  cases hc : at? s.grid id with
  | none => simp [hc] at h
  | some c =>
    simp only [hc, Option.bind_eq_bind, Option.some_bind] at h
    have hc0 : at? (s.grid.map core) id = some (core c) := by rw [at?_map, hc]; rfl
    by_cases hne : c.rhs ≠ c.g
    · rw [if_pos hne] at h
      cases hh : heuristic E s id with
      | none => simp [hh] at h
      | some hv =>
        simp only [hh, Option.some_bind, pure, Option.some.injEq] at h
        subst h
        refine ⟨c, c, rfl, rfl, ?_, ?_⟩
        · simp only [setAt_map, core_setHKeys]; exact setAt_same hc0
        · rw [if_pos hne, hem]; simp [core_setHKeys]
    · rw [if_neg hne] at h
      simp only [pure, Option.some.injEq] at h
      subst h
      refine ⟨c, c, rfl, rfl, rfl, ?_⟩
      rw [if_neg hne, hem]; simp

theorem updateCell_shape {E : Env K} {s s1 : DStarLight K P} {id : ℤ}
    (h : updateCell E s id = some s1) :
    ∃ c c1 : Cell K P, at? s.grid id = some c ∧ c1.id = c.id ∧
      s1.grid.map core = setAt (s.grid.map core) id (core c1) ∧
      s1.open_list.map core
        = ((s.open_list.map core).eraseP fun y => decide (y.1 = id))
          ++ (if c1.rhs ≠ c1.g then [core c1] else []) := by
  unfold updateCell at h
  cases hr : updateRhs E s id with
  | none => simp [hr] at h
  | some s2 =>
    simp only [hr, Option.bind_eq_bind, Option.some_bind] at h
    obtain ⟨c2, c3, hc2, hcore, hg, hol⟩ := refreshOpen_shape h
    have hex : ∃ c, at? s.grid id = some c := by
      unfold updateRhs at hr
      by_cases hgoal : id ≠ s.goal_id
      · rw [if_pos hgoal] at hr
        cases hc : at? s.grid id with
        | none =>
          exfalso
          cases hm : minNeighbor E s id false with
          | none => simp [hm] at hr
          | some min_id =>
            cases hmc : at? s.grid min_id with
            | none => simp [hm, hmc] at hr
            | some m =>
              cases he : edgeCost E s id min_id with
              | none => simp [hm, hmc, he] at hr
              | some e => simp [hm, hmc, he, hc] at hr
        | some c => exact ⟨c, rfl⟩
      · rw [if_neg hgoal] at hr
        simp only [pure, Option.some.injEq] at hr
        subst hr
        exact ⟨c2, hc2⟩
    obtain ⟨c, c4, hc, hid, -, hs2⟩ := updateRhs_shape hr hex
    subst hs2
    have e : c2 = c4 := by
      have := at?_setAt_self c4 hc
      simp only at hc2
      rw [this] at hc2
      exact (Option.some.inj hc2).symm
    subst e
    refine ⟨c, c2, hc, hid, ?_, ?_⟩
    · rw [hg]; simp only [setAt_map]
    · exact hol

theorem updateCell_inv {E : Env K} {s s1 : DStarLight K P} {id : ℤ}
    (hI : Inv s) (h : updateCell E s id = some s1) : Inv s1 := by
  obtain ⟨c, c1, hc, hid, hg, hol⟩ := updateCell_shape h
  unfold Inv at hI ⊢
  have hc0 : at? (s.grid.map core) id = some (core c) := by rw [at?_map, hc]; rfl
  have hcid : c.id = id := hI.1 id (core c) hc0
  rw [hg, hol]
  apply InvCore.update hI hc0 (show (core c1).1 = id from hid.trans hcid)
  by_cases hne : c1.rhs ≠ c1.g
  · rw [if_pos hne]; exact Or.inr ⟨rfl, fun e => hne e.symm⟩
  · rw [if_neg hne]; exact Or.inl rfl

theorem inv_of_eq {s s1 : DStarLight K P} (hI : Inv s) (hg : s1.grid = s.grid)
    (ho : s1.open_list = s.open_list) : Inv s1 := by
  unfold Inv at hI ⊢; rw [hg, ho]; exact hI

theorem visitAll_inv {E : Env K} : ∀ (l : List ℤ) (s s1 : DStarLight K P),
    Inv s → visitAll E s l = some s1 → Inv s1 := by
  intro l
  induction l with
  | nil => intro s s1 hI h; simp only [visitAll, Option.some.injEq] at h; exact h ▸ hI
  | cons id rest ih =>
    intro s s1 hI h
    unfold visitAll at h
    cases hu : updateCell E s id with
    | none => simp [hu] at h
    | some s2 =>
      simp only [hu, Option.bind_eq_bind, Option.some_bind] at h
      exact ih { s2 with visited := s2.visited ++ [id] } s1
        (inv_of_eq (updateCell_inv hI hu) rfl rfl) h

theorem ifPlanning_inv {E : Env K} {s s1 : DStarLight K P} {b : Bool}
    (hI : Inv s) (h : ifPlanning E s = some (b, s1)) : Inv s1 := by
  obtain ⟨hv, c, top, -, hc, -, hs1, -⟩ := ifPlanning_spec h
  subst hs1
  unfold Inv at hI ⊢
  simp only [setAt_map, core_setHKeys]
  rw [setAt_same (by rw [at?_map, hc]; rfl)]
  exact hI.perm ((List.perm_insertionSort keyLE _).map core)

theorem expand_inv {E : Env K} {s s1 : DStarLight K P}
    (hI : Inv s) (h : expand E s = some s1) : Inv s1 := by
  unfold expand at h
  cases hol : s.open_list with
  | nil => simp [hol] at h
  | cons min_cell rest =>
    simp only [hol] at h
    cases hc : at? s.grid min_cell.id with
    | none => simp [hc] at h
    | some c =>
      simp only [hc, Option.bind_eq_bind, Option.some_bind] at h
      unfold Inv at hI
      rw [hol, List.map_cons] at hI
      have hpop : ∀ c1 : Cell K P, c1.id = c.id →
          Inv ({ s with open_list := rest, curr_id := min_cell.id,
                        grid := setAt s.grid min_cell.id c1 } : DStarLight K P) := by
        intro c1 hid
        unfold Inv
        simp only [setAt_map]
        have hcid : c.id = min_cell.id := by
          have := hI.1 min_cell.id (core c) (by rw [at?_map, hc]; rfl)
          exact this
        exact hI.pop (core c1) (hid.trans hcid)
      split at h
      · exact visitAll_inv _ _ _ (hpop { c with g := c.rhs } rfl) h
      · have hI2 := hpop { c with g := 1000000000000 } rfl
        generalize ({ s with open_list := rest, curr_id := min_cell.id,
                             grid := setAt s.grid min_cell.id { c with g := 1000000000000 } }
                      : DStarLight K P) = s2 at h hI2
        cases hv : visitAll E s2 (neighbors s.gridmap min_cell) with
        | none => simp [hv] at h
        | some s3 =>
          simp only [hv, Option.some_bind] at h
          cases hu : updateCell E s3 min_cell.id with
          | none => simp [hu] at h
          | some s4 =>
            simp only [hu, Option.some_bind, pure, Option.some.injEq] at h
            subst h
            exact inv_of_eq (updateCell_inv (visitAll_inv _ _ _ hI2 hv) hu) rfl rfl

theorem planStep_inv {E : Env K} {s s1 : DStarLight K P} {b : Bool}
    (hI : Inv s) (h : planStep E s = some (b, s1)) : Inv s1 := by
  rcases planStep_spec h with ⟨-, s2, hi, he⟩ | ⟨-, hi⟩
  · exact expand_inv (ifPlanning_inv hI hi) he
  · exact ifPlanning_inv hI hi

theorem planLoop_inv {E : Env K} : ∀ (n : ℕ) (s s1 : DStarLight K P),
    Inv s → planLoop E n s = some s1 → Inv s1 := by
  intro n
  induction n with
  | zero => intro s s1 _ h; simp [planLoop] at h
  | succ n ih =>
    intro s s1 hI h
    unfold planLoop at h
    cases hp : planStep E s with
    | none => simp [hp] at h
    | some r =>
      obtain ⟨b, s2⟩ := r
      simp only [hp, Option.bind_eq_bind, Option.some_bind] at h
      cases b with
      | true => exact ih s2 s1 (planStep_inv hI hp) h
      | false =>
        simp only [Bool.false_eq_true, if_false, pure, Option.some.injEq] at h
        exact h ▸ planStep_inv hI hp

theorem planPath_inv {E : Env K} {n : ℕ} {s s1 : DStarLight K P}
    (hI : Inv s) (h : planPath E n s = some s1) : Inv s1 :=
  planLoop_inv n { s with visited := [] } s1 (inv_of_eq hI rfl rfl) h

theorem initPath_inv {E : Env K} {s0 s : DStarLight K P} {start goal : P}
    (hF : Fresh s0) (h : initPath E s0 start goal = some s) : Inv s := by
  unfold initPath at h
  simp only [Option.bind_eq_bind] at h
  generalize hgid : s0.gridmap.grid2RowMajor (s0.gridmap.world2Grid goal).1
    (s0.gridmap.world2Grid goal).2 = gid at h
  cases hc : at? s0.grid gid with
  | none => simp [hc] at h
  | some c =>
    simp only [hc, Option.some_bind] at h
    cases hh : heuristic E
        ({ s0 with start_id := s0.gridmap.grid2RowMajor (s0.gridmap.world2Grid start).1
                     (s0.gridmap.world2Grid start).2,
                   goal_id := gid, grid := setAt s0.grid gid { c with rhs := 0 } } : DStarLight K P)
        (s0.gridmap.grid2RowMajor (s0.gridmap.world2Grid start).1
          (s0.gridmap.world2Grid start).2) with
    | none => simp [hh] at h
    | some hv =>
      simp only [hh, Option.some_bind, at?_setAt_self _ hc, pure, Option.some.injEq] at h
      subst h
      obtain ⟨hO, hG⟩ := hF
      obtain ⟨hcid, hcrg, hcg⟩ := hG gid c hc
      unfold Inv
      simp only [hO, List.nil_append, List.map_cons, List.map_nil, setAt_setAt, setAt_map,
        core_setHKeys]
      have hc0 : at? (s0.grid.map core) gid = some (core c) := by rw [at?_map, hc]; rfl
      refine ⟨?_, ?_, by simp⟩
      · intro id1 y hy
        rcases at?_setAt _ hc0 hy with ⟨e1, e2⟩ | ⟨-, e2⟩
        · rw [e2, e1]; exact hcid
        · rw [at?_map] at e2
          cases hx : at? s0.grid id1 with
          | none => simp [hx] at e2
          | some x =>
            simp only [hx, Option.map_some', Option.some.injEq] at e2
            rw [← e2]; exact (hG id1 x hx).1
      · intro y hy
        rw [List.mem_singleton] at hy
        subst hy
        refine ⟨?_, hcg⟩
        have : (core ({ c with rhs := 0 } : Cell K P)).1 = gid := hcid
        rw [this]
        exact at?_setAt_self _ hc0

end InvariantCore

section InvariantTraversal

variable {K P : Type} [LinearOrderedRing K] [FloorRing K]


theorem revealCell_core {s s1 : DStarLight K P} {l l1 : List ℤ} {id : ℤ}
    (h : revealCell s l id = some (s1, l1)) :
    s1.grid.map core = s.grid.map core ∧ s1.open_list = s.open_list := by
  unfold revealCell at h
  cases hc : at? s.grid id with
  | none => simp [hc] at h
  | some c =>
    simp only [hc, Option.bind_eq_bind, Option.some_bind] at h
    split at h
    · cases hr : at? s.ref_grid id with
      | none => simp [hr] at h
      | some r =>
        simp only [hr, Option.some_bind, pure, Option.some.injEq, Prod.mk.injEq] at h
        obtain ⟨h1, -⟩ := h
        subst h1
        refine ⟨?_, rfl⟩
        simp only [setAt_map]
        exact setAt_same (by rw [at?_map, hc]; rfl)
    · simp only [pure, Option.some.injEq, Prod.mk.injEq] at h
      obtain ⟨h1, -⟩ := h
      subst h1
      exact ⟨rfl, rfl⟩

theorem revealAll_core : ∀ (ids : List ℤ) (s s1 : DStarLight K P) (l l1 : List ℤ),
    revealAll s l ids = some (s1, l1) →
    s1.grid.map core = s.grid.map core ∧ s1.open_list = s.open_list := by
  intro ids
  induction ids with
  | nil =>
    intro s s1 l l1 h
    simp only [revealAll, Option.some.injEq, Prod.mk.injEq] at h
    obtain ⟨h1, -⟩ := h
    subst h1
    exact ⟨rfl, rfl⟩
  | cons id rest ih =>
    intro s s1 l l1 h
    unfold revealAll at h
    cases hr : revealCell s l id with
    | none => simp [hr] at h
    | some r =>
      obtain ⟨s2, l2⟩ := r
      simp only [hr, Option.bind_eq_bind, Option.some_bind] at h
      obtain ⟨a1, a2⟩ := revealCell_core hr
      obtain ⟨b1, b2⟩ := ih s2 s1 l2 l1 h
      exact ⟨b1.trans a1, b2.trans a2⟩

theorem simulateGridUpdate_core {s s1 : DStarLight K P} {l1 : List ℤ}
    (h : simulateGridUpdate s = some (s1, l1)) :
    s1.grid.map core = s.grid.map core ∧ s1.open_list = s.open_list := by
  unfold simulateGridUpdate at h
  cases hc : at? s.grid s.start_id with
  | none => simp [hc] at h
  | some u =>
    simp only [hc, Option.bind_eq_bind, Option.some_bind] at h
    exact revealAll_core _ _ _ _ _ h

theorem updateAll_inv {E : Env K} : ∀ (l : List ℤ) (s s1 : DStarLight K P),
    Inv s → updateAll E s l = some s1 → Inv s1 := by
  intro l
  induction l with
  | nil => intro s s1 hI h; simp only [updateAll, Option.some.injEq] at h; exact h ▸ hI
  | cons id rest ih =>
    intro s s1 hI h
    unfold updateAll at h
    cases hu : updateCell E s id with
    | none => simp [hu] at h
    | some s2 =>
      simp only [hu, Option.bind_eq_bind, Option.some_bind] at h
      exact ih s2 s1 (updateCell_inv hI hu) h

theorem updateChanged_inv {E : Env K} : ∀ (l : List ℤ) (s s1 : DStarLight K P),
    Inv s → updateChanged E s l = some s1 → Inv s1 := by
  intro l
  induction l with
  | nil => intro s s1 hI h; simp only [updateChanged, Option.some.injEq] at h; exact h ▸ hI
  | cons cid rest ih =>
    intro s s1 hI h
    unfold updateChanged at h
    cases hc : at? s.grid cid with
    | none => simp [hc] at h
    | some c =>
      simp only [hc, Option.bind_eq_bind, Option.some_bind] at h
      cases hu : updateAll E s (neighbors s.gridmap c) with
      | none => simp [hu] at h
      | some s2 =>
        simp only [hu, Option.some_bind] at h
        exact ih s2 s1 (updateAll_inv _ _ _ hI hu) h

theorem rekey_core {E : Env K} (s : DStarLight K P) : ∀ (ol ol1 : List (Cell K P)),
    rekey E s ol = some ol1 → ol1.map core = ol.map core := by
  intro ol
  induction ol with
  | nil => intro ol1 h; simp only [rekey, Option.some.injEq] at h; subst h; rfl
  | cons c rest ih =>
    intro ol1 h
    unfold rekey at h
    cases hh : heuristic E s c.id with
    | none => simp [hh] at h
    | some hv =>
      cases hr : rekey E s rest with
      | none => simp [hh, hr] at h
      | some tl =>
        simp only [hh, hr, Option.bind_eq_bind, Option.some_bind, pure, Option.some.injEq] at h
        subst h
        simp only [List.map_cons, core_setHKeys, ih tl hr]

theorem pathTraversal_inv {E : Env K} {fuel : ℕ} {s s1 : DStarLight K P}
    (hI : Inv s) (h : pathTraversal E fuel s = some s1) : Inv s1 := by
  unfold pathTraversal at h
  split at h
  · simp only [Option.some.injEq] at h
    exact h ▸ inv_of_eq hI rfl rfl
  · cases hm : minNeighbor E s s.start_id true with
    | none => simp [hm] at h
    | some sid =>
      simp only [hm, Option.bind_eq_bind, Option.some_bind] at h
      cases hc : at? s.grid sid with
      | none => simp [hc] at h
      | some c =>
        simp only [hc, Option.some_bind] at h
        cases hs : simulateGridUpdate
            ({ s with start_id := sid, path := s.path ++ [c.p] } : DStarLight K P) with
        | none => simp [hs] at h
        | some r =>
          obtain ⟨s3, cell_id⟩ := r
          simp only [hs, Option.some_bind] at h
          obtain ⟨hg3, ho3⟩ := simulateGridUpdate_core hs
          have hI3 : Inv s3 := by
            unfold Inv at hI ⊢
            rw [hg3, ho3]; exact hI
          split at h
          · cases hu : updateChanged E s3 cell_id with
            | none => simp [hu] at h
            | some s4 =>
              simp only [hu, Option.some_bind] at h
              have hI4 := updateChanged_inv _ _ _ hI3 hu
              cases hr : rekey E s4 s4.open_list with
              | none => simp [hr] at h
              | some ol =>
                simp only [hr, Option.some_bind] at h
                have hI5 : Inv ({ s4 with open_list := ol } : DStarLight K P) := by
                  unfold Inv at hI4 ⊢
                  simp only [rekey_core s4 _ _ hr]
                  exact hI4
                exact planPath_inv hI5 h
          · simp only [pure, Option.some.injEq] at h
            exact h ▸ hI3

theorem reachable_inv {E : Env K} {s : DStarLight K P} (h : Reachable E s) : Inv s := by
  induction h with
  | init s0 start goal s hF hi => exact initPath_inv hF hi
  | step s b s1 _ hs ih => exact planStep_inv ih hs
  | plan s fuel s1 _ hp ih => exact planPath_inv ih hp
  | update s id s1 _ hu ih => exact updateCell_inv ih hu
  | traverse s fuel s1 _ ht ih => exact pathTraversal_inv ih ht

/-- Claim C8: in every state reachable from a fresh planner by one `initPath`
followed by `planPath` loop iterations, `planPath`, `updateCell` and
`pathTraversal` calls, every cell stored in the open list has `g ≠ rhs`, both
in its stored copy and in the backing grid. -/
theorem open_cells_locally_inconsistent (E : Env K) (s : DStarLight K P)
    (h : Reachable E s) : OpenInconsistent s := by
  obtain ⟨-, h2, -⟩ := reachable_inv h
  intro c hc
  obtain ⟨hat, hne⟩ := h2 (core c) (List.mem_map_of_mem core hc)
  refine ⟨hne, ?_⟩
  rw [at?_map] at hat
  cases hg : at? s.grid c.id with
  | none =>
    have hat1 : Option.map core (at? s.grid c.id) = some (core c) := hat
    simp [hg] at hat1
  | some gc =>
    refine ⟨gc, rfl, ?_⟩
    have hat1 : Option.map core (at? s.grid c.id) = some (core c) := hat
    rw [hg] at hat1
    simp only [Option.map_some', Option.some.injEq] at hat1
    have hat := hat1
    have h1 : gc.g = c.g := congrArg (fun x => x.2.1) hat
    have h2 : gc.rhs = c.rhs := congrArg (fun x => x.2.2) hat
    rw [h1, h2]
    exact hne

end InvariantTraversal

end Planner

/-! ### Planner runs commute with strictly monotone ring homomorphisms -/

namespace Planner

open Cpp

section Transfer

variable {K₁ K₂ P : Type} [LinearOrderedRing K₁] [LinearOrderedRing K₂]
variable (f : K₁ →+* K₂) {E₁ : Env K₁} {E₂ : Env K₂}

theorem map_calculateKeys (hf : StrictMono f) (c : Cell K₁ P) :
    Cell.map f (Cell.calculateKeys c) = Cell.calculateKeys (Cell.map f c) := by
  simp [Cell.map, Cell.calculateKeys, hf.monotone.map_min]

theorem map_setHKeys (hf : StrictMono f) (c : Cell K₁ P) (h : K₁) :
    Cell.map f (c.setHKeys h) = (Cell.map f c).setHKeys (f h) := by
  unfold Cell.setHKeys
  rw [map_calculateKeys f hf]
  rfl

theorem heuristic_map (hE : Env.IsImage f E₁ E₂) (s : DStarLight K₁ P) (id : ℤ) :
    heuristic E₂ (s.map f) id = (heuristic E₁ s id).map f := by
  unfold heuristic
  simp only [DStarLight.map, at?_map]
  cases at? s.grid s.start_id with
  | none => rfl
  | some a =>
    cases at? s.grid id with
    | none => rfl
    | some b => simp [Cell.map, hE.1]

theorem edgeCost_map (hE : Env.IsImage f E₁ E₂) (s : DStarLight K₁ P) (id1 id2 : ℤ) :
    edgeCost E₂ (s.map f) id1 id2 = (edgeCost E₁ s id1 id2).map f := by
  unfold edgeCost
  simp only [DStarLight.map, at?_map]
  cases at? s.grid id1 with
  | none => rfl
  | some a =>
    cases at? s.grid id2 with
    | none => rfl
    | some b =>
      simp only [Option.map_some', Option.bind_eq_bind, Option.some_bind, Cell.map]
      split <;> simp [hE.1]

theorem idCosts_map (hE : Env.IsImage f E₁ E₂) (s : DStarLight K₁ P) (id : ℤ) (b : Bool) (l : List ℤ) :
    idCosts E₂ (s.map f) id b l
      = (idCosts E₁ s id b l).map (List.map fun x => (x.1, f x.2)) := by
  induction l with
  | nil => rfl
  | cons nid rest ih =>
    unfold idCosts
    rw [ih, edgeCost_map f hE]
    have hg : at? (s.map f).grid nid = (at? s.grid nid).map (Cell.map f) := by
      simp only [DStarLight.map, at?_map]
    rw [hg]
    cases at? s.grid nid with
    | none => rfl
    | some n =>
      simp only [Option.map_some', Option.bind_eq_bind, Option.some_bind]
      have hst : (Cell.map f n).state = n.state := rfl
      have hgg : (Cell.map f n).g = f n.g := rfl
      rw [hst, hgg]
      cases b with
      | false =>
        simp only [Bool.not_false, if_true]
        cases edgeCost E₁ s id nid with
        | none => rfl
        | some e =>
          cases idCosts E₁ s id false rest with
          | none => rfl
          | some tl => simp
      | true =>
        simp only [Bool.not_true, Bool.false_eq_true, if_false]
        split
        · cases edgeCost E₁ s id nid with
          | none => rfl
          | some e =>
            cases idCosts E₁ s id true rest with
            | none => rfl
            | some tl => simp
        · rfl

theorem costLE_map (hf : StrictMono f) (a b : ℤ × K₁) :
    costLE (a.1, f a.2) (b.1, f b.2) ↔ costLE a b := by
  unfold costLE SortCost
  simp only [not_lt]
  exact hf.le_iff_le

theorem keyLE_map (hf : StrictMono f) (a b : Cell K₁ P) : keyLE (Cell.map f a) (Cell.map f b) ↔ keyLE a b := by
  unfold keyLE SortKey
  simp only [Cell.map, hf.lt_iff_lt, hf.injective.eq_iff]

theorem minNeighbor_map (hf : StrictMono f) (hE : Env.IsImage f E₁ E₂) (s : DStarLight K₁ P) (id : ℤ) (b : Bool) :
    minNeighbor E₂ (s.map f) id b = minNeighbor E₁ s id b := by
  unfold minNeighbor
  have hg : at? (s.map f).grid id = (at? s.grid id).map (Cell.map f) := by
    simp only [DStarLight.map, at?_map]
  rw [hg]
  cases at? s.grid id with
  | none => rfl
  | some cell =>
    simp only [Option.map_some', Option.bind_eq_bind, Option.some_bind]
    have hn : neighbors (s.map f).gridmap (Cell.map f cell) = neighbors s.gridmap cell := rfl
    rw [hn, idCosts_map f hE]
    cases idCosts E₁ s id b (neighbors s.gridmap cell) with
    | none => rfl
    | some l =>
      simp only [Option.map_some', Option.some_bind]
      rw [← List.map_insertionSort costLE costLE (fun x : ℤ × K₁ => (x.1, f x.2)) l
        (fun a _ b _ => (costLE_map f hf a b).symm)]
      rw [List.head?_map]
      cases (List.insertionSort costLE l).head? with
      | none => rfl
      | some x => rfl

theorem updateRhs_map (hf : StrictMono f) (hE : Env.IsImage f E₁ E₂) (s : DStarLight K₁ P)
    (id : ℤ) : updateRhs E₂ (s.map f) id = (updateRhs E₁ s id).map (DStarLight.map f) := by
  unfold updateRhs
  have hgoal : (s.map f).goal_id = s.goal_id := rfl
  rw [hgoal]
  split
  · rw [minNeighbor_map f hf hE]
    cases minNeighbor E₁ s id false with
    | none => rfl
    | some min_id =>
      simp only [Option.bind_eq_bind, Option.some_bind]
      rw [edgeCost_map f hE]
      have hg : ∀ k, at? (s.map f).grid k = (at? s.grid k).map (Cell.map f) := by
        intro k; simp only [DStarLight.map, at?_map]
      rw [hg, hg]
      cases at? s.grid min_id with
      | none => rfl
      | some m =>
        cases edgeCost E₁ s id min_id with
        | none => rfl
        | some e =>
          cases at? s.grid id with
          | none => rfl
          | some c =>
            simp only [Option.map_some', Option.some_bind, pure]
            congr 1
            simp only [DStarLight.map, setAt_map, Cell.map, map_add]
  · rfl

theorem eraseP_id_map (l : List (Cell K₁ P)) (id : ℤ) :
    (l.map (Cell.map f)).eraseP (fun c => decide (c.id = id))
      = (l.eraseP fun c => decide (c.id = id)).map (Cell.map f) := by
  rw [List.eraseP_map]; rfl

theorem refreshOpen_map (hf : StrictMono f) (hE : Env.IsImage f E₁ E₂) (s : DStarLight K₁ P)
    (id : ℤ) : refreshOpen E₂ (s.map f) id = (refreshOpen E₁ s id).map (DStarLight.map f) := by
  unfold refreshOpen
  rw [heuristic_map f hE]
  have hg : at? (s.map f).grid id = (at? s.grid id).map (Cell.map f) := by
    simp only [DStarLight.map, at?_map]
  have hol : (s.map f).open_list.eraseP (fun c => decide (c.id = id))
      = (s.open_list.eraseP fun c => decide (c.id = id)).map (Cell.map f) :=
    eraseP_id_map f s.open_list id
  rw [hg, hol]
  cases at? s.grid id with
  | none => rfl
  | some c =>
    simp only [Option.map_some', Option.bind_eq_bind, Option.some_bind]
    have hne : ((Cell.map f c).rhs ≠ (Cell.map f c).g) ↔ (c.rhs ≠ c.g) := by
      simp only [Cell.map, ne_eq, hf.injective.eq_iff]
    by_cases h : c.rhs ≠ c.g
    · rw [if_pos h, if_pos (hne.2 h)]
      cases heuristic E₁ s id with
      | none => rfl
      | some hv =>
        simp only [Option.map_some', Option.some_bind, pure]
        congr 1
        simp only [DStarLight.map, setAt_map, map_setHKeys f hf, List.map_append, List.map_cons,
          List.map_nil]
    · rw [if_neg h, if_neg (fun h1 => h (hne.1 h1))]
      rfl

theorem updateCell_map (hf : StrictMono f) (hE : Env.IsImage f E₁ E₂) (s : DStarLight K₁ P)
    (id : ℤ) : updateCell E₂ (s.map f) id = (updateCell E₁ s id).map (DStarLight.map f) := by
  unfold updateCell
  rw [updateRhs_map f hf hE]
  cases updateRhs E₁ s id with
  | none => rfl
  | some s1 =>
    simp only [Option.map_some', Option.bind_eq_bind, Option.some_bind]
    exact refreshOpen_map f hf hE s1 id

theorem visitAll_map (hf : StrictMono f) (hE : Env.IsImage f E₁ E₂) :
    ∀ (l : List ℤ) (s : DStarLight K₁ P),
      visitAll E₂ (s.map f) l = (visitAll E₁ s l).map (DStarLight.map f) := by
  intro l
  induction l with
  | nil => intro s; rfl
  | cons id rest ih =>
    intro s
    unfold visitAll
    rw [updateCell_map f hf hE]
    cases updateCell E₁ s id with
    | none => rfl
    | some s1 =>
      simp only [Option.map_some', Option.bind_eq_bind, Option.some_bind]
      exact ih { s1 with visited := s1.visited ++ [id] }

theorem almost_equal_map (hf : StrictMono f) (hE : Env.IsImage f E₁ E₂) (a b : K₁) :
    almost_equal E₂ (f a) (f b) = almost_equal E₁ a b := by
  unfold almost_equal
  rw [hE.2, ← map_sub, abs_eq_max_neg, abs_eq_max_neg, ← map_neg, ← hf.monotone.map_max]
  simp only [hf.lt_iff_lt]

theorem ifPlanning_map (hf : StrictMono f) (hE : Env.IsImage f E₁ E₂) (s : DStarLight K₁ P) :
    ifPlanning E₂ (s.map f)
      = (ifPlanning E₁ s).map fun r => (r.1, DStarLight.map f r.2) := by
  unfold ifPlanning
  have hsid : (s.map f).start_id = s.start_id := rfl
  rw [hsid, heuristic_map f hE]
  have hg : at? (s.map f).grid s.start_id
      = (at? s.grid s.start_id).map (Cell.map f) := by
    simp only [DStarLight.map, at?_map]
  have hsort : (s.map f).open_list.insertionSort keyLE
      = (s.open_list.insertionSort keyLE).map (Cell.map f) := by
    show (s.open_list.map (Cell.map f)).insertionSort keyLE = _
    rw [List.map_insertionSort keyLE keyLE (Cell.map f) s.open_list
      (fun a _ b _ => (keyLE_map f hf a b).symm)]
  rw [hg, hsort]
  cases heuristic E₁ s s.start_id with
  | none => rfl
  | some hv =>
    cases at? s.grid s.start_id with
    | none => rfl
    | some c =>
      simp only [Option.map_some', Option.bind_eq_bind, Option.some_bind, List.head?_map]
      cases (s.open_list.insertionSort keyLE).head? with
      | none => rfl
      | some top =>
        simp only [Option.map_some', Option.bind_eq_bind, Option.some_bind]
        rw [← map_setHKeys f hf]
        have hk1 : (Cell.map f top).k1 = f top.k1 := rfl
        have hk2 : (Cell.map f top).k2 = f top.k2 := rfl
        have hs1 : (Cell.map f (c.setHKeys hv)).k1 = f (c.setHKeys hv).k1 := rfl
        have hs2 : (Cell.map f (c.setHKeys hv)).k2 = f (c.setHKeys hv).k2 := rfl
        have hs3 : (Cell.map f (c.setHKeys hv)).rhs = f (c.setHKeys hv).rhs := rfl
        have hs4 : (Cell.map f (c.setHKeys hv)).g = f (c.setHKeys hv).g := rfl
        rw [hk1, hk2, hs1, hs2, hs3, hs4, almost_equal_map f hf hE]
        have hst : (DStarLight.map f
            { s with grid := setAt s.grid s.start_id (c.setHKeys hv),
                     open_list := s.open_list.insertionSort keyLE })
            = { s.map f with
                  grid := setAt (s.map f).grid s.start_id (Cell.map f (c.setHKeys hv)),
                  open_list := (s.open_list.insertionSort keyLE).map (Cell.map f) } := by
          simp only [DStarLight.map, setAt_map]
        split <;>
          simp only [pure, Option.map_some', hst, hf.lt_iff_lt, ne_eq, hf.injective.eq_iff] <;>
          rfl

theorem expand_map (hf : StrictMono f) (hE : Env.IsImage f E₁ E₂) (s : DStarLight K₁ P) :
    expand E₂ (s.map f) = (expand E₁ s).map (DStarLight.map f) := by
  obtain ⟨gm, vizd, ref, grid, ol, vis, path, oc, sid, gid, cid, gr⟩ := s
  cases ol with
  | nil => rfl
  | cons min_cell rest =>
    simp only [expand, DStarLight.map, List.map_cons, at?_map, Option.bind_eq_bind]
    have hid : (Cell.map f min_cell).id = min_cell.id := rfl
    have hnb : neighbors gm (Cell.map f min_cell) = neighbors gm min_cell := rfl
    have hcmp : ((Cell.map f min_cell).g > (Cell.map f min_cell).rhs)
        ↔ (min_cell.g > min_cell.rhs) := by
      simp only [Cell.map, gt_iff_lt, hf.lt_iff_lt]
    rw [hid, hnb]
    cases at? grid min_cell.id with
    | none => rfl
    | some c =>
      simp only [Option.map_some', Option.some_bind]
      by_cases h : min_cell.g > min_cell.rhs
      · rw [if_pos h, if_pos (hcmp.2 h)]
        have hv := visitAll_map f hf hE (neighbors gm min_cell)
          (⟨gm, vizd, ref, setAt grid min_cell.id { c with g := c.rhs }, rest, vis, path, oc,
            sid, gid, min_cell.id, gr⟩ : DStarLight K₁ P)
        simp only [DStarLight.map, setAt_map, Cell.map] at hv
        exact hv
      · rw [if_neg h, if_neg (fun h1 => h (hcmp.1 h1))]
        have hv := visitAll_map f hf hE (neighbors gm min_cell)
          (⟨gm, vizd, ref, setAt grid min_cell.id { c with g := 1000000000000 }, rest, vis, path,
            oc, sid, gid, min_cell.id, gr⟩ : DStarLight K₁ P)
        simp only [DStarLight.map, setAt_map, Cell.map, map_ofNat] at hv
        simp only [Cell.map]
        rw [hv]
        cases visitAll E₁ (⟨gm, vizd, ref, setAt grid min_cell.id { c with g := 1000000000000 },
            rest, vis, path, oc, sid, gid, min_cell.id, gr⟩ : DStarLight K₁ P)
            (neighbors gm min_cell) with
        | none => rfl
        | some s3 =>
          simp only [Option.map_some', Option.some_bind]
          rw [updateCell_map f hf hE s3 min_cell.id]
          cases updateCell E₁ s3 min_cell.id with
          | none => rfl
          | some s4 => rfl

theorem planStep_map (hf : StrictMono f) (hE : Env.IsImage f E₁ E₂) (s : DStarLight K₁ P) :
    planStep E₂ (s.map f) = (planStep E₁ s).map fun r => (r.1, DStarLight.map f r.2) := by
  unfold planStep
  rw [ifPlanning_map f hf hE]
  cases ifPlanning E₁ s with
  | none => rfl
  | some r =>
    obtain ⟨b, s1⟩ := r
    simp only [Option.map_some', Option.bind_eq_bind, Option.some_bind]
    cases b with
    | true =>
      simp only [if_true]
      rw [expand_map f hf hE]
      cases expand E₁ s1 with
      | none => rfl
      | some s2 => rfl
    | false => rfl

theorem planLoop_map (hf : StrictMono f) (hE : Env.IsImage f E₁ E₂) :
    ∀ (n : ℕ) (s : DStarLight K₁ P),
      planLoop E₂ n (s.map f) = (planLoop E₁ n s).map (DStarLight.map f) := by
  intro n
  induction n with
  | zero => intro s; rfl
  | succ n ih =>
    intro s
    unfold planLoop
    rw [planStep_map f hf hE]
    cases planStep E₁ s with
    | none => rfl
    | some r =>
      obtain ⟨b, s1⟩ := r
      simp only [Option.map_some', Option.bind_eq_bind, Option.some_bind]
      cases b with
      | true => simp only [if_true]; exact ih s1
      | false => rfl

theorem planPath_map (hf : StrictMono f) (hE : Env.IsImage f E₁ E₂) (n : ℕ)
    (s : DStarLight K₁ P) :
    planPath E₂ n (s.map f) = (planPath E₁ n s).map (DStarLight.map f) :=
  planLoop_map f hf hE n { s with visited := [] }

theorem initPath_map (hf : StrictMono f) (hE : Env.IsImage f E₁ E₂) (s : DStarLight K₁ P)
    (start goal : P) :
    initPath E₂ (s.map f) start goal = (initPath E₁ s start goal).map (DStarLight.map f) := by
  obtain ⟨gm, vizd, ref, grid, ol, vis, path, oc, sid0, gid0, cid, gr⟩ := s
  simp only [initPath, DStarLight.map, at?_map, Option.bind_eq_bind]
  generalize gm.grid2RowMajor (gm.world2Grid goal).1 (gm.world2Grid goal).2 = gid
  generalize gm.grid2RowMajor (gm.world2Grid start).1 (gm.world2Grid start).2 = sid
  cases hc : at? grid gid with
  | none => rfl
  | some c =>
    simp only [Option.map_some', Option.some_bind]
    have hh := heuristic_map f hE
      (⟨gm, vizd, ref, setAt grid gid { c with rhs := 0 }, ol, vis, path, oc, sid, gid, cid, gr⟩
        : DStarLight K₁ P) sid
    simp only [DStarLight.map, setAt_map, Cell.map, map_zero] at hh
    simp only [Cell.map]
    rw [hh]
    cases heuristic E₁ (⟨gm, vizd, ref, setAt grid gid { c with rhs := 0 }, ol, vis, path, oc,
        sid, gid, cid, gr⟩ : DStarLight K₁ P) sid with
    | none => rfl
    | some hv =>
      have hc1 : at? (List.map (Cell.map f) grid) gid = some (Cell.map f c) := by
        rw [at?_map, hc]; rfl
      simp only [Option.map_some', Option.some_bind, at?_setAt_self _ hc, at?_setAt_self _ hc1,
        pure, Option.some.injEq]
      have hk := map_setHKeys f hf ({ c with rhs := 0 } : Cell K₁ P) hv
      simp only [Cell.map, map_zero] at hk
      simp only [DStarLight.map, setAt_map, setAt_setAt, List.map_append, List.map_cons,
        List.map_nil, Cell.map, hk]

theorem followParents_map (grid : List (Cell K₁ P)) :
    ∀ (n : ℕ) (id : ℤ),
      followParents (grid.map (Cell.map f)) n id = followParents grid n id := by
  intro n
  induction n with
  | zero => intro id; rfl
  | succ n ih =>
    intro id
    unfold followParents
    split
    · rfl
    · rw [at?_map]
      cases at? grid id with
      | none => rfl
      | some c =>
        simp only [Option.map_some', Option.bind_eq_bind, Option.some_bind]
        have : (Cell.map f c).parent_id = c.parent_id := rfl
        rw [this, ih]
        rfl

theorem getPath_map (n : ℕ) (s : DStarLight K₁ P) :
    getPath n (s.map f) = getPath n s := by
  unfold getPath
  have : (s.map f).grid = s.grid.map (Cell.map f) := rfl
  rw [this, followParents_map]
  rfl

end Transfer

end Planner

/-! ### The open `10 × 10` grid: exact evaluation and transfer to `ℝ` -/

namespace Planner

open Cpp

section Summary

variable {K₁ K₂ P : Type} [LinearOrderedRing K₁] [LinearOrderedRing K₂]
variable (f : K₁ →+* K₂) {E₁ : Env K₁} {E₂ : Env K₂}

theorem planSummary_map (hf : StrictMono f) (hE : Env.IsImage f E₁ E₂) (n : ℕ)
    (s : DStarLight K₁ P) (start goal : P) :
    planSummary E₂ n (s.map f) start goal
      = (planSummary E₁ n s start goal).map fun r => (f r.1, f r.2.1, r.2.2.1, r.2.2.2) := by
  unfold planSummary
  rw [initPath_map f hf hE]
  cases initPath E₁ s start goal with
  | none => rfl
  | some s1 =>
    simp only [Option.map_some', Option.bind_eq_bind, Option.some_bind]
    rw [planPath_map f hf hE]
    cases planPath E₁ n s1 with
    | none => rfl
    | some s2 =>
      simp only [Option.map_some', Option.some_bind]
      have hg : ∀ k, at? (s2.map f).grid k = (at? s2.grid k).map (Cell.map f) := by
        intro k; simp only [DStarLight.map, at?_map]
      have hs : (s2.map f).start_id = s2.start_id := rfl
      have hgl : (s2.map f).goal_id = s2.goal_id := rfl
      rw [hs, hgl, hg, hg, getPath_map]
      cases at? s2.grid s2.start_id with
      | none => rfl
      | some c =>
        cases at? s2.grid s2.goal_id with
        | none => rfl
        | some gc =>
          cases getPath n s2 with
          | none => rfl
          | some path => rfl

theorem freshPlanner_map (xs ys : ℕ) (pt : ℕ → P) (st : ℕ → ℤ) (w : P → ℤ × ℤ) (vizd : K₁) :
    (freshPlanner xs ys pt st w vizd : DStarLight K₁ P).map f
      = freshPlanner xs ys pt st w (f vizd) := by
  simp [freshPlanner, freshGrid, DStarLight.map, Cell.map, List.map_map, Function.comp_def]
  exact ⟨fun _ _ => map_ofNat f _, map_ofNat f _⟩

end Summary

theorem numEnv_image : Env.IsImage Surd.toRealHom numEnv realEnv :=
  ⟨fun z => (Surd.toReal_sqrtNum z).symm, Surd.toReal_epsNum.symm⟩

theorem openGrid_map : (openGrid Surd.Num).map Surd.toRealHom = openGrid ℝ := by
  unfold openGrid
  rw [freshPlanner_map, map_one]

set_option maxRecDepth 100000 in
theorem planSummary_openGrid_num_aux :
    (planSummary numEnv 11 (openGrid Surd.Num) (0, 0) (9, 9)).map
        (fun r => (decide (r.1 = 9 * Surd.sqrtNum 2), decide (r.2.1 = 9 * Surd.sqrtNum 2),
          r.2.2.1, r.2.2.2))
      = some (true, true, -1,
          [(0, 0), (1, 1), (2, 2), (3, 3), (4, 4), (5, 5), (6, 6), (7, 7), (8, 8), (9, 9)]) := by
  decide!

theorem planSummary_openGrid_num :
    planSummary numEnv 11 (openGrid Surd.Num) (0, 0) (9, 9)
      = some (9 * Surd.sqrtNum 2, 9 * Surd.sqrtNum 2, -1,
          [(0, 0), (1, 1), (2, 2), (3, 3), (4, 4), (5, 5), (6, 6), (7, 7), (8, 8), (9, 9)]) := by
  have h := planSummary_openGrid_num_aux
  cases hr : planSummary numEnv 11 (openGrid Surd.Num) (0, 0) (9, 9) with
  | none => rw [hr] at h; exact absurd h (by simp)
  | some r =>
    rw [hr, Option.map_some', Option.some.injEq, Prod.mk.injEq, Prod.mk.injEq, Prod.mk.injEq,
      decide_eq_true_eq, decide_eq_true_eq] at h
    obtain ⟨e1, e2, e3, e4⟩ := h
    obtain ⟨a, b, c, d⟩ := r
    simp only at e1 e2 e3 e4
    rw [e1, e2, e3, e4]

theorem planSummary_openGrid_real :
    planSummary realEnv 11 (openGrid ℝ) (0, 0) (9, 9)
      = some (9 * Real.sqrt 2, 9 * Real.sqrt 2, -1,
          [(0, 0), (1, 1), (2, 2), (3, 3), (4, 4), (5, 5), (6, 6), (7, 7), (8, 8), (9, 9)]) := by
  rw [← openGrid_map, planSummary_map Surd.toRealHom Surd.toRealHom_strictMono numEnv_image,
    planSummary_openGrid_num]
  simp only [Option.map_some', map_mul, map_ofNat]
  have h2 : Surd.toRealHom (Surd.sqrtNum 2) = Real.sqrt 2 := by
    have := Surd.toReal_sqrtNum 2
    simpa using this
  rw [h2]

/-- Claim C7: on the fresh `10 × 10` all-free grid (every cell `g = rhs = 1e12`,
`parent_id = -1`) with start cell `(0, 0)` and goal cell `(9, 9)`, in exact real
arithmetic, `initPath` followed by `planPath` terminates (fuel 11: ten
expansions and the final test) with `g(start) = rhs(start) = 9·√2`; the goal
cell keeps `parent_id = -1`, and `getPath` follows the parent links from the
start through exactly the ten diagonal cells `(0,0), (1,1), …, (9,9)`. -/
theorem trivial_path_on_open_grid :
    ∃ s1 s2 : DStarLight ℝ (ℤ × ℤ), ∃ c gc : Cell ℝ (ℤ × ℤ),
      initPath realEnv (openGrid ℝ) (0, 0) (9, 9) = some s1 ∧
      planPath realEnv 11 s1 = some s2 ∧
      at? s2.grid s2.start_id = some c ∧ c.g = 9 * Real.sqrt 2 ∧ c.rhs = 9 * Real.sqrt 2 ∧
      at? s2.grid s2.goal_id = some gc ∧ gc.parent_id = -1 ∧
      getPath 11 s2
        = some [(0, 0), (1, 1), (2, 2), (3, 3), (4, 4), (5, 5), (6, 6), (7, 7), (8, 8), (9, 9)] := by
  have h := planSummary_openGrid_real
  unfold planSummary at h
  obtain ⟨s1, h1, h⟩ := Option.bind_eq_some.1 h
  obtain ⟨s2, h2, h⟩ := Option.bind_eq_some.1 h
  obtain ⟨c, h3, h⟩ := Option.bind_eq_some.1 h
  obtain ⟨gc, h4, h⟩ := Option.bind_eq_some.1 h
  obtain ⟨path, h5, h⟩ := Option.bind_eq_some.1 h
  rw [show (pure (c.g, c.rhs, gc.parent_id, path) : Option _) = some (c.g, c.rhs, gc.parent_id, path)
    from rfl, Option.some.injEq, Prod.mk.injEq, Prod.mk.injEq, Prod.mk.injEq] at h
  obtain ⟨e1, e2, e3, e4⟩ := h
  exact ⟨s1, s2, c, gc, h1, h2, h3, e1, e2, h4, e3, e4 ▸ h5⟩

end Planner

/-! ## The planner on a concrete corridor -/

namespace Planner

open Cpp

theorem eq_some_getD {α : Type} {o : Option α} (d : α) (h : o.isSome = true) :
    o = some (o.getD d) := by
  cases o with
  | none => cases h
  | some a => rfl

theorem freshPlanner_fresh {K P : Type} [LinearOrderedRing K] (xs ys : ℕ) (pt : ℕ → P)
    (st : ℕ → ℤ) (w : P → ℤ × ℤ) (vizd : K) : Fresh (freshPlanner xs ys pt st w vizd) := by
  refine ⟨rfl, ?_⟩
  intro id c hc
  obtain ⟨h0, -, hg⟩ := at?_eq_some hc
  simp only [freshPlanner, freshGrid, List.getElem?_map] at hg
  cases hr : (List.range (xs * ys))[id.toNat]? with
  | none => simp [hr] at hg
  | some n =>
    have hn : n = id.toNat := by
      obtain ⟨hlt, he⟩ := List.getElem?_eq_some.1 hr
      rw [List.getElem_range] at he
      exact he.symm
    simp only [hr, Option.map_some', Option.some.injEq] at hg
    subst hg
    refine ⟨?_, rfl, ?_⟩
    · simp only [hn]; omega
    · simp only; norm_num

theorem corridorStart_eq : initPath exampleEnv corridor (0, 1) (0, 0) = some corridorStart :=
  eq_some_getD _ (by decide!)

theorem corridorDone_eq : planPath exampleEnv 10 corridorStart = some corridorDone :=
  eq_some_getD _ (by decide!)

/-- Witness for claim C5 on the corridor. -/
theorem planPath_start_consistent_witness :
    ∃ c, at? corridorDone.grid corridorDone.start_id = some c ∧ c.rhs = c.g :=
  planPath_start_consistent exampleEnv 10 corridorStart corridorDone corridorDone_eq

/-- Counterexample to claim C6 as stated: on the corridor `planPath` returns with
a non-empty open list whose only key is `(3, 2)` while the start key is
`(1, 1)`, and `(1, 1)` is not lexicographically greater than or equal to
`(3, 2)`. -/
theorem planPath_start_key_below_min_counterexample :
    (planPath exampleEnv 10 corridorStart).isSome = true ∧
    startKey corridorDone = some (1, 1) ∧ openKeys corridorDone = [(3, 2)] ∧
    ¬ (toLex ((3 : ℚ), (2 : ℚ)) ≤ toLex ((1 : ℚ), (1 : ℚ))) := by
  decide!

/-- Witness for the amended claim C6 on the corridor. -/
theorem planPath_start_key_le_min_witness :
    ∃ c top, at? corridorDone.grid corridorDone.start_id = some c ∧
      corridorDone.open_list.head? = some top ∧
      (∀ x ∈ corridorDone.open_list, ¬ SortKey x top) ∧
      (if almost_equal exampleEnv top.k1 c.k1 then c.k2 ≤ top.k2 else c.k1 ≤ top.k1) :=
  planPath_start_key_le_min exampleEnv 10 corridorStart corridorDone corridorDone_eq

/-- Witness for claim C9 on the corridor. -/
theorem planPath_idempotent_witness :
    planPath exampleEnv 3 corridorDone = some { corridorDone with visited := [] } :=
  planPath_idempotent exampleEnv 10 2 corridorStart corridorDone corridorDone_eq

/-- Witness for claim C8: the corridor after `initPath` and `planPath`. -/
theorem open_cells_locally_inconsistent_witness : OpenInconsistent corridorDone :=
  open_cells_locally_inconsistent exampleEnv corridorDone
    (Reachable.plan corridorStart 10 corridorDone
      (Reachable.init corridor (0, 1) (0, 0) corridorStart
        (freshPlanner_fresh 1 4 _ _ _ _) corridorStart_eq)
      corridorDone_eq)

end Planner

/-! ## The particle filter: normalisation, resampling and the best particle -/

namespace PF

open Cpp

section Sums

variable {K G : Type} [LinearOrderedField K]

theorem foldl_add_eq_sum {α : Type} (f : α → K) (l : List α) (a : K) :
    l.foldl (fun acc p => acc + f p) a = a + (l.map f).sum := by
  induction l generalizing a with
  | nil => simp
  | cons x xs ih => simp [List.foldl_cons, ih, add_assoc]

theorem weightSum_exact (ps : List (Particle K G)) :
    weightSum ps = ps.foldl (fun acc p => acc + p.weight) 0 := rfl

theorem sqrdSum_exact (ps : List (Particle K G)) :
    sqrdSum ps = ps.foldl (fun acc p => acc + p.weight ^ 2) 0 := rfl

theorem normalizeWeights_exact (pf : ParticleFilter K G) :
    normalizeWeights pf
      = { pf with
          particle_set_ := pf.particle_set_.map fun p =>
            { p with weight := p.weight / weightSum pf.particle_set_ },
          normal_sqrd_sum_ := sqrdSum (pf.particle_set_.map fun p =>
            { p with weight := p.weight / weightSum pf.particle_set_ }) } := rfl

theorem effectiveParticles_exact [FloorRing K] (pf : ParticleFilter K G) :
    effectiveParticles pf
      = decide (truncInt (1 / pf.normal_sqrd_sum_) < Int.tdiv pf.num_particles_ 2) := rfl

theorem weightSum_eq_sum (ps : List (Particle K G)) :
    weightSum ps = (ps.map fun p => p.weight).sum := by
  rw [weightSum_exact, foldl_add_eq_sum (fun p : Particle K G => p.weight) ps 0, zero_add]

theorem sqrdSum_eq_sum (ps : List (Particle K G)) :
    sqrdSum ps = ((ps.map fun p => p.weight).map fun w => w ^ 2).sum := by
  rw [sqrdSum_exact, foldl_add_eq_sum (fun p : Particle K G => p.weight ^ 2) ps 0, zero_add,
    List.map_map]
  rfl

theorem sum_map_div (l : List K) (s : K) : (l.map fun w => w / s).sum = l.sum / s := by
  induction l with
  | nil => simp
  | cons x xs ih => simp [ih, add_div]

/-- Claim C1: in exact arithmetic, when the weights have a non-zero sum `S` (so
the particle set is not empty), `normalizeWeights` replaces every weight by its
previous value divided by `S`, and the new weights sum to exactly `1`. -/
theorem normalizeWeights_sum_one (pf : ParticleFilter K G)
    (hS : (pf.particle_set_.map fun p => p.weight).sum ≠ 0) :
    (normalizeWeights pf).particle_set_.map (fun p => p.weight)
        = pf.particle_set_.map
            (fun p => p.weight / (pf.particle_set_.map fun q => q.weight).sum)
      ∧ ((normalizeWeights pf).particle_set_.map fun p => p.weight).sum = 1 := by
  have h1 : (normalizeWeights pf).particle_set_.map (fun p => p.weight)
        = pf.particle_set_.map
            (fun p => p.weight / (pf.particle_set_.map fun q => q.weight).sum) := by
    rw [normalizeWeights_exact, weightSum_eq_sum]
    simp [List.map_map, Function.comp_def]
  refine ⟨h1, ?_⟩
  rw [h1]
  have := sum_map_div (pf.particle_set_.map fun p => p.weight)
    (pf.particle_set_.map fun q => q.weight).sum
  rw [List.map_map] at this
  simp only [Function.comp_def] at this
  rw [this, div_self hS]

end Sums

section Resampling

variable {K G : Type} [LinearOrderedField K]

theorem atE_of_lt (ps : List (Particle K G)) (i : ℤ) (h0 : 0 ≤ i) (h1 : i < ps.length) :
    ∃ p, atE ps i = .ok p ∧ at? ps i = some p := by
  have hlt : i.toNat < ps.length := by omega
  refine ⟨ps[i.toNat], ?_, ?_⟩ <;>
  simp [atE, at?, h0, List.getElem?_eq_getElem hlt]

theorem at?_mem {α : Type} (v : List α) (i : ℤ) (a : α) (h : at? v i = some a) : a ∈ v := by
  unfold at? at h
  split at h
  · exact List.getElem?_mem h
  · cases h

theorem mem_at? {α : Type} (v : List α) (a : α) (h : a ∈ v) :
    ∃ i : ℤ, 0 ≤ i ∧ i < v.length ∧ at? v i = some a := by
  obtain ⟨n, hn, rfl⟩ := List.mem_iff_getElem.1 h
  refine ⟨n, by omega, by omega, ?_⟩
  simp [at?, List.getElem?_eq_getElem hn]

theorem resampleWhile_ok (pf : ParticleFilter K G) (U : K)
    (hlen : (pf.particle_set_.length : ℤ) = pf.num_particles_) :
    ∀ (fuel : ℕ) (c : K) (i : ℤ), 0 ≤ i → i ≤ pf.num_particles_ - 1 →
      (pf.num_particles_ - i).toNat ≤ fuel →
      ∃ c1 i1, resampleWhile pf U fuel c i = .ok (some (c1, i1)) ∧ 0 ≤ i1 ∧
        i1 ≤ pf.num_particles_ - 1 := by
  intro fuel
  induction fuel with
  | zero => intro c i h0 h1 hf; omega
  | succ n ih =>
    intro c i h0 h1 hf
    unfold resampleWhile
    by_cases hU : U > c
    · simp only [hU, if_true]
      by_cases hb : i + 1 > pf.num_particles_ - 1
      · simp only [hb, if_true]
        exact ⟨c, _, rfl, by omega, le_refl _⟩
      · simp only [hb, if_false]
        obtain ⟨p, hp, -⟩ := atE_of_lt pf.particle_set_ (i + 1) (by omega) (by omega)
        rw [hp]
        exact ih (c + p.weight) (i + 1) (by omega) (by omega) (by omega)
    · simp only [hU, if_false]
      exact ⟨c, i, rfl, h0, h1⟩

theorem resampleFor_ok (pf : ParticleFilter K G) (fuel : ℕ) (r : K)
    (hlen : (pf.particle_set_.length : ℤ) = pf.num_particles_)
    (hfuel : pf.num_particles_.toNat ≤ fuel) :
    ∀ (n : ℕ) (m : ℤ) (c : K) (i : ℤ) (temp : List (Particle K G)),
      0 ≤ i → i ≤ pf.num_particles_ - 1 →
      (∀ p ∈ temp, ∃ idx : ℤ, 0 ≤ idx ∧ idx ≤ pf.num_particles_ - 1 ∧
        at? pf.particle_set_ idx = some p) →
      ∃ out, resampleFor pf fuel r n m c i temp = .ok (some out) ∧
        out.length = temp.length + n ∧
        ∀ p ∈ out, ∃ idx : ℤ, 0 ≤ idx ∧ idx ≤ pf.num_particles_ - 1 ∧
          at? pf.particle_set_ idx = some p := by
  intro n
  induction n with
  | zero =>
    intro m c i temp h0 h1 ht
    exact ⟨temp, rfl, rfl, ht⟩
  | succ n ih =>
    intro m c i temp h0 h1 ht
    unfold resampleFor
    obtain ⟨c1, i1, hw, hi0, hi1⟩ :=
      resampleWhile_ok pf (r + (m : K) * (1 / ((pf.num_particles_ - 1 : ℤ) : K))) hlen fuel c i
        h0 h1 (by omega)
    obtain ⟨p, hp, hp2⟩ := atE_of_lt pf.particle_set_ i1 hi0 (by omega)
    simp only [hw, hp, bind, Except.bind]
    obtain ⟨out, ho, hl, hall⟩ := ih (m + 1) c1 i1 (temp ++ [p]) hi0 hi1 (by
      intro q hq
      rcases List.mem_append.1 hq with hq | hq
      · exact ht q hq
      · rw [List.mem_singleton] at hq
        exact ⟨i1, hi0, hi1, hq ▸ hp2⟩)
    refine ⟨out, ho, ?_, hall⟩
    rw [hl]; simp; omega

/-- Claim C3: for `N ≥ 2` particles, any weights and any random draw `v`,
`lowVarianceResampling` terminates (fuel `N` suffices for every inner loop) and
returns exactly `N` particles, each a copy of the input particle at some index
in `[0, N - 1]`. -/
theorem lowVarianceResampling_preserves_count (pf : ParticleFilter K G) (v : K) (fuel : ℕ)
    (hN : 2 ≤ pf.num_particles_)
    (hlen : (pf.particle_set_.length : ℤ) = pf.num_particles_)
    (hfuel : pf.num_particles_.toNat ≤ fuel) :
    ∃ pf1, lowVarianceResampling fuel v pf = .ok (some pf1) ∧
      (pf1.particle_set_.length : ℤ) = pf.num_particles_ ∧
      ∀ p ∈ pf1.particle_set_, ∃ idx : ℤ, 0 ≤ idx ∧ idx ≤ pf.num_particles_ - 1 ∧
        at? pf.particle_set_ idx = some p := by
  unfold lowVarianceResampling
  obtain ⟨p0, hp0, -⟩ := atE_of_lt pf.particle_set_ 0 (le_refl _) (by omega)
  obtain ⟨out, ho, hl, hall⟩ :=
    resampleFor_ok pf fuel (v / (pf.num_particles_ : K)) hlen hfuel pf.num_particles_.toNat 0
      p0.weight 0 [] (le_refl _) (by omega) (by simp)
  simp only [hp0, ho, bind, Except.bind]
  refine ⟨_, rfl, ?_, hall⟩
  simp [hl]; omega

theorem resampleFor_stay (pf : ParticleFilter K G) (fuel : ℕ) (r c : K) (i : ℤ)
    (p : Particle K G) (hp : atE pf.particle_set_ i = .ok p) :
    ∀ (n : ℕ) (m : ℤ) (temp : List (Particle K G)),
      (∀ k : ℤ, m ≤ k → k < m + n →
        r + (k : K) * (1 / ((pf.num_particles_ - 1 : ℤ) : K)) ≤ c) →
      resampleFor pf (fuel + 1) r n m c i temp = .ok (some (temp ++ List.replicate n p)) := by
  intro n
  induction n with
  | zero => intro m temp _; simp [resampleFor]
  | succ n ih =>
    intro m temp hU
    have h1 := hU m (le_refl _) (by push_cast; omega)
    unfold resampleFor
    have hw : resampleWhile pf (r + (m : K) * (1 / ((pf.num_particles_ - 1 : ℤ) : K)))
        (fuel + 1) c i = .ok (some (c, i)) := by
      unfold resampleWhile
      rw [if_neg (not_lt.2 h1)]
    simp only [hw, hp, bind, Except.bind]
    rw [ih (m + 1) (temp ++ [p]) (fun k hk1 hk2 => hU k (by omega) (by push_cast at hk2 ⊢; omega))]
    simp [List.replicate_succ]

end Resampling

section Trigger

variable {K G : Type} [LinearOrderedField K] [FloorRing K]

/-- Claim C4, amended: with `N = 100` particles and weights `w₀ = 1`,
`w₁ = … = w₉₉ = 0`, `normalizeWeights` leaves the squared-weight sum `1`,
`effectiveParticles` returns true, and for every random draw `v ≤ 0` (so
`r = v / N ≤ 0`) `lowVarianceResampling` returns 100 copies of particle 0. -/
theorem resample_trigger_nonpositive_draw (pf : ParticleFilter K G)
    (hN : pf.num_particles_ = 100)
    (hw : pf.particle_set_.map (fun p => p.weight) = 1 :: List.replicate 99 0) :
    (normalizeWeights pf).normal_sqrd_sum_ = 1 ∧
    effectiveParticles (normalizeWeights pf) = true ∧
    ∃ p0, pf.particle_set_.head? = some p0 ∧
      ∀ (fuel : ℕ) (v : K), v ≤ 0 →
        ∃ pf1, lowVarianceResampling (fuel + 1) v (normalizeWeights pf) = .ok (some pf1) ∧
          pf1.particle_set_ = List.replicate 100 p0 := by
  have hsum : weightSum pf.particle_set_ = 1 := by
    rw [weightSum_eq_sum, hw]; simp
  have hps : (normalizeWeights pf).particle_set_ = pf.particle_set_ := by
    simp [normalizeWeights_exact, hsum]
  have hnum : (normalizeWeights pf).num_particles_ = 100 := by
    simp [normalizeWeights_exact, hN]
  have hsq : (normalizeWeights pf).normal_sqrd_sum_ = 1 := by
    have : (normalizeWeights pf).normal_sqrd_sum_ = sqrdSum (normalizeWeights pf).particle_set_ := by
      simp [normalizeWeights_exact]
    rw [this, hps, sqrdSum_eq_sum, hw]; simp
  refine ⟨hsq, ?_, ?_⟩
  · simp [effectiveParticles_exact, hsq, hnum, truncInt]
    decide
  · cases hl : pf.particle_set_ with
    | nil => rw [hl] at hw; simp at hw
    | cons p0 rest =>
      rw [hl] at hw
      have hp0 : p0.weight = 1 := by simpa using (List.cons.inj hw).1
      refine ⟨p0, rfl, ?_⟩
      intro fuel v hv
      have hat : atE (normalizeWeights pf).particle_set_ 0 = .ok p0 := by
        rw [hps, hl]; simp [atE, at?]
      unfold lowVarianceResampling
      simp only [hat, bind, Except.bind]
      rw [resampleFor_stay (normalizeWeights pf) fuel _ p0.weight 0 p0 hat]
      · refine ⟨_, rfl, ?_⟩
        simp [hnum]
      · intro k hk0 hk1
        rw [hnum] at hk1 ⊢
        rw [hp0]
        have hk : (k : K) ≤ 99 := by
          have : k ≤ 99 := by
            simp at hk1; omega
          exact_mod_cast this
        have hv1 : v / ((100 : ℤ) : K) ≤ 0 := by
          apply div_nonpos_of_nonpos_of_nonneg hv; norm_num
        have h99 : (k : K) * (1 / (((100 : ℤ) - 1 : ℤ) : K)) ≤ 1 := by
          have e : (((100 : ℤ) - 1 : ℤ) : K) = 99 := by norm_num
          rw [e, mul_one_div, div_le_one (by norm_num : (0 : K) < 99)]
          exact hk
        linarith

end Trigger

section Best

variable {K G S T M : Type} [LinearOrderedField K]

/-- Loop invariant of `bestLoop` before iteration `i`: either nothing has been
seen yet, or `idx` is the first index among `0 … i - 1` whose weight `weight`
is the largest seen. -/
theorem bestLoop_inv (pf : ParticleFilter K G)
    (hw : ∀ p ∈ pf.particle_set_, 0 ≤ p.weight) :
    ∀ (n : ℕ) (i : ℤ) (weight : K) (idx : ℤ), 0 ≤ i → i + n = pf.particle_set_.length →
      BestInv pf.particle_set_ i weight idx →
      ∃ idx1 w1, bestLoop pf n i weight idx = .ok idx1 ∧
        BestInv pf.particle_set_ pf.particle_set_.length w1 idx1 := by
  intro n
  induction n with
  | zero =>
    intro i weight idx h0 hn hinv
    have : i = pf.particle_set_.length := by simpa using hn
    exact ⟨idx, weight, rfl, this ▸ hinv⟩
  | succ n ih =>
    intro i weight idx h0 hn hinv
    obtain ⟨p, hp, hp2⟩ := atE_of_lt pf.particle_set_ i h0 (by push_cast at hn; omega)
    unfold bestLoop
    simp only [hp, bind, Except.bind]
    have hpw := hw p (at?_mem _ _ _ hp2)
    by_cases hgt : p.weight > weight
    · rw [if_pos hgt]
      apply ih (i + 1) p.weight i (by omega) (by push_cast at hn ⊢; omega)
      right
      refine ⟨h0, by omega, ⟨p, hp2, rfl⟩, ?_, ?_⟩
      · intro j q hj0 hj1 hq
        rcases hinv with ⟨hi, -, -⟩ | ⟨-, -, -, hle, -⟩
        · have : j = i := by omega
          subst this; rw [hp2] at hq; cases hq; exact le_refl _
        · by_cases hji : j = i
          · subst hji; rw [hp2] at hq; cases hq; exact le_refl _
          · exact le_trans (hle j q hj0 (by omega) hq) (le_of_lt hgt)
      · intro j q hj0 hj1 hq
        rcases hinv with ⟨hi, -, -⟩ | ⟨-, -, -, hle, -⟩
        · omega
        · exact lt_of_le_of_lt (hle j q hj0 hj1 hq) hgt
    · rw [if_neg hgt]
      apply ih (i + 1) weight idx (by omega) (by push_cast at hn ⊢; omega)
      right
      rcases hinv with ⟨hi, hidx, hwz⟩ | ⟨hidx0, hidx, hex, hle, hlt⟩
      · subst hi hidx hwz
        have hz : p.weight = 0 := le_antisymm (not_lt.1 hgt) hpw
        refine ⟨le_refl _, by omega, ⟨p, hp2, hz⟩, ?_, ?_⟩
        · intro j q hj0 hj1 hq
          have : j = 0 := by omega
          subst this; rw [hp2] at hq; cases hq; exact le_of_eq hz
        · intro j q hj0 hj1; omega
      · refine ⟨hidx0, by omega, hex, ?_, hlt⟩
        intro j q hj0 hj1 hq
        by_cases hji : j = i
        · subst hji; rw [hp2] at hq; cases hq; exact not_lt.1 hgt
        · exact hle j q hj0 (by omega) hq

/-- Claim C10: for a non-empty particle set with non-negative weights and
`num_particles_` equal to its size, there is an index `idx` whose particle `p`
has a weight at least every other weight and strictly above every weight at a
lower index; `getRobotState` returns the transform built from `p`'s pose
(translation `(x, y)`, rotation `θ`) and `newMap` exports the grid of the same
particle. -/
theorem best_particle_is_first_argmax (X : Ext K G S T M) (pf : ParticleFilter K G)
    (hne : pf.particle_set_ ≠ [])
    (hw : ∀ p ∈ pf.particle_set_, 0 ≤ p.weight)
    (hlen : (pf.particle_set_.length : ℤ) = pf.num_particles_) :
    ∃ (idx : ℤ) (p : Particle K G), 0 ≤ idx ∧ at? pf.particle_set_ idx = some p ∧
      (∀ q ∈ pf.particle_set_, q.weight ≤ p.weight) ∧
      (∀ (j : ℤ) q, 0 ≤ j → j < idx → at? pf.particle_set_ j = some q →
        q.weight < p.weight) ∧
      getRobotState X pf = .ok (X.mkT (p.pose 1) (p.pose 2) (p.pose 0)) ∧
      newMap X pf = .ok (X.gridMap p.grid) := by
  have hpos : 0 < pf.particle_set_.length := List.length_pos.2 hne
  obtain ⟨idx, w1, hb, hinv⟩ := bestLoop_inv pf hw pf.num_particles_.toNat 0 0 0 (le_refl _)
    (by rw [← hlen]; simp) (Or.inl ⟨rfl, rfl, rfl⟩)
  rcases hinv with ⟨h, -, -⟩ | ⟨hidx0, hidx, ⟨p, hp, hpw⟩, hle, hlt⟩
  · omega
  · subst hpw
    refine ⟨idx, p, hidx0, hp, ?_, hlt, ?_, ?_⟩
    · intro q hq
      obtain ⟨j, hj0, hj1, hj⟩ := mem_at? _ _ hq
      exact hle j q hj0 hj1 hj
    · simp [getRobotState, hb, atE, hp, bind, Except.bind, pure, Except.pure]
    · simp [newMap, hb, atE, hp, bind, Except.bind, pure, Except.pure]

end Best

/-! ### Concrete runs -/

/-- Witness for claim C1 on the weights `1, 3`: the new weights are `1/4` and
`3/4`. -/
theorem normalizeWeights_sum_one_witness :
    (normalizeWeights (exampleFilter [1, 3])).particle_set_.map (fun p => p.weight)
        = [1 / 4, 3 / 4] ∧
    ((normalizeWeights (exampleFilter [1, 3])).particle_set_.map fun p => p.weight).sum = 1 :=
  ⟨by decide!, (normalizeWeights_sum_one (exampleFilter [1, 3]) (by decide!)).2⟩

/-- Witness for claim C3 on two particles with the draw `v = 1 / 2`. -/
theorem lowVarianceResampling_preserves_count_witness :
    ∃ pf1, lowVarianceResampling 2 (1 / 2) (exampleFilter [1, 3]) = .ok (some pf1) ∧
      (pf1.particle_set_.length : ℤ) = (exampleFilter [1, 3]).num_particles_ ∧
      ∀ p ∈ pf1.particle_set_, ∃ idx : ℤ, 0 ≤ idx ∧
        idx ≤ (exampleFilter [1, 3]).num_particles_ - 1 ∧
        at? (exampleFilter [1, 3]).particle_set_ idx = some p :=
  lowVarianceResampling_preserves_count (exampleFilter [1, 3]) (1 / 2) 2
    (by decide) (by decide) (by decide)

/-- Counterexample to claim C4 as stated: on the spike weights the resampling
fires, and with the draw `v = 1` (`r = 1 / 100`) the last of the 100 returned
particles is a copy of particle 99, not of particle 0. -/
theorem resample_trigger_positive_draw_counterexample :
    effectiveParticles (normalizeWeights (exampleFilter spikeWeights)) = true ∧
    resampledGrids (lowVarianceResampling 100 1 (normalizeWeights (exampleFilter spikeWeights)))
      = some (List.replicate 99 0 ++ [99]) := by
  decide!

/-- Witness for the amended claim C4 on the spike weights. -/
theorem resample_trigger_nonpositive_draw_witness :
    (normalizeWeights (exampleFilter spikeWeights)).normal_sqrd_sum_ = 1 ∧
    effectiveParticles (normalizeWeights (exampleFilter spikeWeights)) = true ∧
    ∃ p0, (exampleFilter spikeWeights).particle_set_.head? = some p0 ∧
      ∀ (fuel : ℕ) (v : ℚ), v ≤ 0 →
        ∃ pf1, lowVarianceResampling (fuel + 1) v (normalizeWeights (exampleFilter spikeWeights))
            = .ok (some pf1) ∧
          pf1.particle_set_ = List.replicate 100 p0 :=
  resample_trigger_nonpositive_draw (exampleFilter spikeWeights) (by decide) (by decide!)

/-- Witness for claim C10 on the weights `1, 3, 3`. -/
theorem best_particle_is_first_argmax_witness :
    ∃ (idx : ℤ) (p : Particle ℚ ℕ), 0 ≤ idx ∧
      at? (exampleFilter [1, 3, 3]).particle_set_ idx = some p ∧
      (∀ q ∈ (exampleFilter [1, 3, 3]).particle_set_, q.weight ≤ p.weight) ∧
      (∀ (j : ℤ) q, 0 ≤ j → j < idx → at? (exampleFilter [1, 3, 3]).particle_set_ j = some q →
        q.weight < p.weight) ∧
      getRobotState exampleExt (exampleFilter [1, 3, 3])
        = .ok (exampleExt.mkT (p.pose 1) (p.pose 2) (p.pose 0)) ∧
      newMap exampleExt (exampleFilter [1, 3, 3]) = .ok (exampleExt.gridMap p.grid) :=
  best_particle_is_first_argmax exampleExt (exampleFilter [1, 3, 3])
    (by simp [exampleFilter, exampleParticles, List.enum, List.enumFrom])
    (by decide!) (by decide)

/-- Claim C2, evaluation at the failing input: the scan matcher succeeds, the
eight mode samples give the proposal mean `θ = 0` and the identity covariance,
and the final pose sample lies four standard deviations along `θ`; after the
`SLAM` step both particles have `θ = 4`, which is larger than `π`. -/
theorem SLAM_success_branch_angle_unwrapped :
    poseAngles (SLAM exampleExt 2 (exampleFilter [1 / 2, 1 / 2]) () ⟨0, 0, 0⟩ ![0, 0, 0]
      ![0, 0, 0] exampleDraws 0) = some [4, 4] := by
  decide!

end PF

/-! ## The planner: neighbours, the visualisation map, `updateCell` and the loop test -/

namespace Planner

open Cpp

section Neighbours

variable {K P : Type} [LinearOrderedRing K]

theorem neighbors_eq_map_filter (gm : GridMap P) (cell : Cell K P) :
    neighbors gm cell
      = (actions.filter fun a => gm.worldBounds (cell.i + a.1) (cell.j + a.2)).map
          fun a => gm.grid2RowMajor (cell.i + a.1) (cell.j + a.2) := by
  unfold neighbors
  generalize actions = l
  induction l with
  | nil => rfl
  | cons a rest ih =>
    by_cases h : gm.worldBounds (cell.i + a.1) (cell.j + a.2) = true
    · simp [List.filterMap_cons, List.filter_cons, h, ih]
    · simp [List.filterMap_cons, List.filter_cons, h, ih]

theorem mem_actions_iff (a : ℤ × ℤ) : a ∈ actions ↔ max |a.1| |a.2| = 1 := by
  obtain ⟨x, y⟩ := a
  constructor
  · intro h
    exact (by decide : ∀ d ∈ actions, max |d.1| |d.2| = 1) (x, y) h
  · intro h
    have hx : |x| ≤ 1 := by rw [← h]; exact le_max_left _ _
    have hy : |y| ≤ 1 := by rw [← h]; exact le_max_right _ _
    rw [abs_le] at hx hy
    obtain ⟨hx1, hx2⟩ := hx
    obtain ⟨hy1, hy2⟩ := hy
    simp only at hx1 hx2 hy1 hy2 h
    interval_cases x <;> interval_cases y <;> first | decide | (exfalso; revert h; decide)

theorem worldBounds_iff (gm : GridMap P) (a b : ℤ) :
    gm.worldBounds a b = true ↔ 0 ≤ a ∧ a < gm.xsize ∧ 0 ≤ b ∧ b < gm.ysize := by
  simp [GridMap.worldBounds, and_assoc]

theorem grid2RowMajor_inj (gm : GridMap P) {a b a1 b1 : ℤ}
    (hb : 0 ≤ b ∧ b < gm.ysize) (hb1 : 0 ≤ b1 ∧ b1 < gm.ysize)
    (h : gm.grid2RowMajor a b = gm.grid2RowMajor a1 b1) : a = a1 ∧ b = b1 := by
  unfold GridMap.grid2RowMajor at h
  have hy : 0 < gm.ysize := by omega
  have ha : a = a1 := by
    by_contra hne
    rcases lt_or_gt_of_ne hne with hlt | hgt
    · have h1 : a + 1 ≤ a1 := hlt
      have h2 : (a + 1) * gm.ysize ≤ a1 * gm.ysize := mul_le_mul_of_nonneg_right h1 (le_of_lt hy)
      have h3 : (a + 1) * gm.ysize = a * gm.ysize + gm.ysize := by ring
      omega
    · have h1 : a1 + 1 ≤ a := hgt
      have h2 : (a1 + 1) * gm.ysize ≤ a * gm.ysize := mul_le_mul_of_nonneg_right h1 (le_of_lt hy)
      have h3 : (a1 + 1) * gm.ysize = a1 * gm.ysize + gm.ysize := by ring
      omega
  subst ha
  exact ⟨rfl, by omega⟩

theorem grid2RowMajor_range (gm : GridMap P) {a b : ℤ}
    (ha : 0 ≤ a ∧ a < gm.xsize) (hb : 0 ≤ b ∧ b < gm.ysize) :
    0 ≤ gm.grid2RowMajor a b ∧ gm.grid2RowMajor a b < gm.xsize * gm.ysize := by
  unfold GridMap.grid2RowMajor
  have h1 : 0 ≤ a * gm.ysize := mul_nonneg ha.1 (by omega)
  have h2 : (a + 1) * gm.ysize ≤ gm.xsize * gm.ysize :=
    mul_le_mul_of_nonneg_right (by omega) (by omega)
  have h3 : (a + 1) * gm.ysize = a * gm.ysize + gm.ysize := by ring
  constructor <;> omega

theorem neighbors_length (gm : GridMap P) (cell : Cell K P)
    (hi : 0 ≤ cell.i ∧ cell.i < gm.xsize) (hj : 0 ≤ cell.j ∧ cell.j < gm.ysize)
    (hx : 2 ≤ gm.xsize) (hy : 2 ≤ gm.ysize) :
    (neighbors gm cell).length =
      if (cell.i = 0 ∨ cell.i = gm.xsize - 1) ∧ (cell.j = 0 ∨ cell.j = gm.ysize - 1) then 3
      else if (cell.i = 0 ∨ cell.i = gm.xsize - 1) ∨ (cell.j = 0 ∨ cell.j = gm.ysize - 1) then 5
      else 8 := by
  rw [neighbors_eq_map_filter, List.length_map, ← List.countP_eq_length_filter]
  obtain ⟨hi0, hi1⟩ := hi
  obtain ⟨hj0, hj1⟩ := hj
  have e1 : (0 ≤ cell.i + 0 ∧ cell.i + 0 < gm.xsize ∧ 0 ≤ cell.j + -1 ∧ cell.j + -1 < gm.ysize)
      ↔ 1 ≤ cell.j := by omega
  have e2 : (0 ≤ cell.i + 0 ∧ cell.i + 0 < gm.xsize ∧ 0 ≤ cell.j + 1 ∧ cell.j + 1 < gm.ysize)
      ↔ cell.j + 1 < gm.ysize := by omega
  have e3 : (0 ≤ cell.i + -1 ∧ cell.i + -1 < gm.xsize ∧ 0 ≤ cell.j + 0 ∧ cell.j + 0 < gm.ysize)
      ↔ 1 ≤ cell.i := by omega
  have e4 : (0 ≤ cell.i + 1 ∧ cell.i + 1 < gm.xsize ∧ 0 ≤ cell.j + 0 ∧ cell.j + 0 < gm.ysize)
      ↔ cell.i + 1 < gm.xsize := by omega
  have e5 : (0 ≤ cell.i + -1 ∧ cell.i + -1 < gm.xsize ∧ 0 ≤ cell.j + -1 ∧
      cell.j + -1 < gm.ysize) ↔ 1 ≤ cell.i ∧ 1 ≤ cell.j := by omega
  have e6 : (0 ≤ cell.i + -1 ∧ cell.i + -1 < gm.xsize ∧ 0 ≤ cell.j + 1 ∧
      cell.j + 1 < gm.ysize) ↔ 1 ≤ cell.i ∧ cell.j + 1 < gm.ysize := by omega
  have e7 : (0 ≤ cell.i + 1 ∧ cell.i + 1 < gm.xsize ∧ 0 ≤ cell.j + -1 ∧
      cell.j + -1 < gm.ysize) ↔ cell.i + 1 < gm.xsize ∧ 1 ≤ cell.j := by omega
  have e8 : (0 ≤ cell.i + 1 ∧ cell.i + 1 < gm.xsize ∧ 0 ≤ cell.j + 1 ∧
      cell.j + 1 < gm.ysize) ↔ cell.i + 1 < gm.xsize ∧ cell.j + 1 < gm.ysize := by omega
  have r1 : (cell.i = 0 ∨ cell.i = gm.xsize - 1) ↔ (¬ 1 ≤ cell.i ∨ ¬ cell.i + 1 < gm.xsize) := by
    omega
  have r2 : (cell.j = 0 ∨ cell.j = gm.ysize - 1) ↔ (¬ 1 ≤ cell.j ∨ ¬ cell.j + 1 < gm.ysize) := by
    omega
  simp only [actions, List.countP_cons, List.countP_nil, worldBounds_iff, e1, e2, e3, e4, e5,
    e6, e7, e8, r1, r2]
  by_cases hL : 1 ≤ cell.i <;> by_cases hR : cell.i + 1 < gm.xsize <;>
    by_cases hD : 1 ≤ cell.j <;> by_cases hU : cell.j + 1 < gm.ysize <;>
    first
      | (exfalso; omega)
      | simp [hL, hR, hD, hU]

/-- Claim C15: for a cell `(i, j)` inside an `xsize × ysize` grid, `neighbors`
returns exactly the ids `a * ysize + b` of the in-bounds cells `(a, b)` at
Chebyshev distance `1` from `(i, j)`, each once; the id of the cell itself is
not returned and every returned id lies in `[0, xsize * ysize)`.  When both
dimensions are at least `2` the number of ids is `3` at a corner, `5` on a
border cell that is not a corner and `8` in the interior. -/
theorem neighbors_in_bounds (gm : GridMap P) (cell : Cell K P)
    (hi : 0 ≤ cell.i ∧ cell.i < gm.xsize) (hj : 0 ≤ cell.j ∧ cell.j < gm.ysize) :
    (∀ id : ℤ, id ∈ neighbors gm cell ↔
      ∃ a b : ℤ, max |a - cell.i| |b - cell.j| = 1 ∧
        (0 ≤ a ∧ a < gm.xsize ∧ 0 ≤ b ∧ b < gm.ysize) ∧ id = gm.grid2RowMajor a b) ∧
    (neighbors gm cell).Nodup ∧
    gm.grid2RowMajor cell.i cell.j ∉ neighbors gm cell ∧
    (∀ id ∈ neighbors gm cell, 0 ≤ id ∧ id < gm.xsize * gm.ysize) ∧
    (2 ≤ gm.xsize → 2 ≤ gm.ysize →
      (neighbors gm cell).length =
        if (cell.i = 0 ∨ cell.i = gm.xsize - 1) ∧ (cell.j = 0 ∨ cell.j = gm.ysize - 1) then 3
        else if (cell.i = 0 ∨ cell.i = gm.xsize - 1) ∨ (cell.j = 0 ∨ cell.j = gm.ysize - 1)
          then 5
        else 8) := by
  have hmem : ∀ id : ℤ, id ∈ neighbors gm cell ↔
      ∃ a b : ℤ, max |a - cell.i| |b - cell.j| = 1 ∧
        (0 ≤ a ∧ a < gm.xsize ∧ 0 ≤ b ∧ b < gm.ysize) ∧ id = gm.grid2RowMajor a b := by
    intro id
    rw [neighbors_eq_map_filter, List.mem_map]
    constructor
    · rintro ⟨d, hd, rfl⟩
      rw [List.mem_filter, mem_actions_iff, worldBounds_iff] at hd
      refine ⟨cell.i + d.1, cell.j + d.2, ?_, hd.2, rfl⟩
      rw [add_sub_cancel_left, add_sub_cancel_left]
      exact hd.1
    · rintro ⟨a, b, hd, hb, rfl⟩
      refine ⟨(a - cell.i, b - cell.j), ?_, ?_⟩
      · rw [List.mem_filter, mem_actions_iff, worldBounds_iff]
        refine ⟨hd, ?_⟩
        simp only [add_sub_cancel]
        exact hb
      · simp only [add_sub_cancel]
  refine ⟨hmem, ?_, ?_, ?_, neighbors_length gm cell hi hj⟩
  · rw [neighbors_eq_map_filter]
    apply List.Nodup.map_on
    · intro d hd d1 hd1 he
      rw [List.mem_filter, worldBounds_iff] at hd hd1
      obtain ⟨h1, h2⟩ := grid2RowMajor_inj gm ⟨hd.2.2.2.1, hd.2.2.2.2⟩
        ⟨hd1.2.2.2.1, hd1.2.2.2.2⟩ he
      exact Prod.ext (by omega) (by omega)
    · exact List.Nodup.filter _ (by decide)
  · intro hin
    obtain ⟨a, b, hd, hb, he⟩ := (hmem _).1 hin
    obtain ⟨h1, h2⟩ := grid2RowMajor_inj gm hj ⟨hb.2.2.1, hb.2.2.2⟩ he
    rw [← h1, ← h2] at hd
    simp at hd
  · intro id hin
    obtain ⟨a, b, -, hb, rfl⟩ := (hmem _).1 hin
    exact grid2RowMajor_range gm ⟨hb.1, hb.2.1⟩ ⟨hb.2.2.1, hb.2.2.2⟩

end Neighbours

/-- Witness for claim C15: the corner cell `(0, 0)` of the `10 × 10` grid. -/
theorem neighbors_in_bounds_witness :
    (neighbors (openGrid ℚ).gridmap
        ({ i := 0, j := 0, id := 0, p := (0, 0), state := 0, g := 0, rhs := 0, h := 0, k1 := 0,
           k2 := 0, parent_id := -1, updated := false } : Cell ℚ (ℤ × ℤ))).length = 3 ∧
    neighbors (openGrid ℚ).gridmap
        ({ i := 0, j := 0, id := 0, p := (0, 0), state := 0, g := 0, rhs := 0, h := 0, k1 := 0,
           k2 := 0, parent_id := -1, updated := false } : Cell ℚ (ℤ × ℤ)) = [1, 10, 11] :=
  ⟨((neighbors_in_bounds (openGrid ℚ).gridmap
      ({ i := 0, j := 0, id := 0, p := (0, 0), state := 0, g := 0, rhs := 0, h := 0, k1 := 0,
         k2 := 0, parent_id := -1, updated := false } : Cell ℚ (ℤ × ℤ))
      (by decide) (by decide)).2.2.2.2 (by decide) (by decide)),
    by decide⟩

end Planner

namespace Planner

open Cpp

section Viz

theorem at?_natCast {α : Type} (v : List α) (n : ℕ) : at? v (n : ℤ) = v[n]? := by
  simp [at?]

theorem at?_natCast_lt {α : Type} (v : List α) (n : ℕ) (h : n < v.length) :
    at? v (n : ℤ) = some (v.get ⟨n, h⟩) := by
  rw [at?_natCast, List.getElem?_eq_getElem h]; rfl

theorem vizIndex_natCast (xs ys i : ℕ) :
    vizIndex (xs : ℤ) (ys : ℤ) i = ((i % ys * xs + i / ys : ℕ) : ℤ) := by
  simp only [vizIndex]
  push_cast
  rfl

theorem vizIndex_lt (xs ys i : ℕ) (h : i < xs * ys) : i % ys * xs + i / ys < xs * ys := by
  have hy : 0 < ys := by
    rcases Nat.eq_zero_or_pos ys with h0 | h0
    · rw [h0, Nat.mul_zero] at h; omega
    · exact h0
  have h1 : i / ys < xs := Nat.div_lt_of_lt_mul (by rw [Nat.mul_comm]; exact h)
  have h2 : i % ys < ys := Nat.mod_lt _ hy
  have h3 : (i % ys + 1) * xs ≤ ys * xs := Nat.mul_le_mul_right xs h2
  have h4 : (i % ys + 1) * xs = i % ys * xs + xs := by ring
  have h5 : ys * xs = xs * ys := Nat.mul_comm _ _
  omega

theorem vizIndex_inj (xs ys i j : ℕ) (hi : i < xs * ys) (hj : j < xs * ys)
    (h : i % ys * xs + i / ys = j % ys * xs + j / ys) : i = j := by
  have h1 : i / ys < xs := Nat.div_lt_of_lt_mul (by rw [Nat.mul_comm]; exact hi)
  have h2 : j / ys < xs := Nat.div_lt_of_lt_mul (by rw [Nat.mul_comm]; exact hj)
  have e1 : (i % ys * xs + i / ys) % xs = i / ys := by
    rw [Nat.add_comm, Nat.add_mul_mod_self_right, Nat.mod_eq_of_lt h1]
  have e2 : (j % ys * xs + j / ys) % xs = j / ys := by
    rw [Nat.add_comm, Nat.add_mul_mod_self_right, Nat.mod_eq_of_lt h2]
  have hx : 0 < xs := by omega
  have e3 : (i % ys * xs + i / ys) / xs = i % ys := by
    rw [Nat.add_comm, Nat.add_mul_div_right _ _ hx, Nat.div_eq_of_lt h1, Nat.zero_add]
  have e4 : (j % ys * xs + j / ys) / xs = j % ys := by
    rw [Nat.add_comm, Nat.add_mul_div_right _ _ hx, Nat.div_eq_of_lt h2, Nat.zero_add]
  have hd : i / ys = j / ys := by rw [← e1, ← e2, h]
  have hm : i % ys = j % ys := by rw [← e3, ← e4, h]
  rw [← Nat.div_add_mod i ys, ← Nat.div_add_mod j ys, hd, hm]

theorem vizIndex_rowcol (xs ys row col : ℕ) (hc : col < ys) :
    (row * ys + col) % ys * xs + (row * ys + col) / ys = col * xs + row := by
  have hy : 0 < ys := by omega
  have e1 : (row * ys + col) % ys = col := by
    rw [Nat.add_comm, Nat.add_mul_mod_self_right, Nat.mod_eq_of_lt hc]
  have e2 : (row * ys + col) / ys = row := by
    rw [Nat.add_comm, Nat.add_mul_div_right _ _ hy, Nat.div_eq_of_lt hc, Nat.zero_add]
  rw [e1, e2]

theorem rowcol_lt (xs ys row col : ℕ) (hr : row < xs) (hc : col < ys) :
    row * ys + col < xs * ys := by
  have h3 : (row + 1) * ys ≤ xs * ys := Nat.mul_le_mul_right ys hr
  have h4 : (row + 1) * ys = row * ys + ys := by ring
  omega

theorem length_resize (map : List ℤ) (n : ℕ) : (resize map n).length = n := by
  simp only [resize, List.length_append, List.length_take, List.length_replicate]
  omega

theorem vizLoop_spec {K P : Type} (s : DStarLight K P) (xs ys : ℕ)
    (hx : s.gridmap.xsize = xs) (hy : s.gridmap.ysize = ys) (hlen : s.grid.length = xs * ys) :
    ∀ (l : List ℕ) (map : List ℤ), (∀ i ∈ l, i < xs * ys) → l.Nodup →
      map.length = xs * ys →
      ∃ m, vizLoop s l map = some m ∧ m.length = xs * ys ∧
        (∀ i ∈ l, ∃ c, at? s.grid (i : ℤ) = some c ∧
          at? m ((i % ys * xs + i / ys : ℕ) : ℤ) = some (vizCode c.state)) ∧
        (∀ k : ℤ, (∀ i ∈ l, ((i % ys * xs + i / ys : ℕ) : ℤ) ≠ k) → at? m k = at? map k) := by
  intro l
  induction l with
  | nil =>
    intro map _ _ hm
    exact ⟨map, rfl, hm, fun i hi => absurd hi (List.not_mem_nil _), fun _ _ => rfl⟩
  | cons i rest ih =>
    intro map hb hnd hm
    have hi : i < xs * ys := hb i (List.mem_cons_self _ _)
    have hys : s.gridmap.ysize ≠ 0 := by
      rw [hy]
      intro h0
      have : ys = 0 := by exact_mod_cast h0
      rw [this, Nat.mul_zero] at hi
      omega
    have hidx : vizIndex s.gridmap.xsize s.gridmap.ysize i
        = ((i % ys * xs + i / ys : ℕ) : ℤ) := by rw [hx, hy, vizIndex_natCast]
    have hlt := vizIndex_lt xs ys i hi
    have hg : at? s.grid (i : ℤ) = some (s.grid.get ⟨i, by rw [hlen]; exact hi⟩) :=
      at?_natCast_lt _ _ _
    have hmap : at? map ((i % ys * xs + i / ys : ℕ) : ℤ)
        = some (map.get ⟨i % ys * xs + i / ys, by rw [hm]; exact hlt⟩) :=
      at?_natCast_lt _ _ _
    obtain ⟨m, hrun, hml, hset, hkeep⟩ :=
      ih (setAt map ((i % ys * xs + i / ys : ℕ) : ℤ)
          (vizCode (s.grid.get ⟨i, by rw [hlen]; exact hi⟩).state))
        (fun j hj => hb j (List.mem_cons_of_mem _ hj)) (List.nodup_cons.1 hnd).2
        (by rw [length_setAt]; exact hm)
    refine ⟨m, ?_, hml, ?_, ?_⟩
    · rw [vizLoop, if_neg hys, hidx]
      simp only [hg, hmap, Option.bind_eq_bind, Option.some_bind]
      exact hrun
    · intro j hj
      rcases List.mem_cons.1 hj with rfl | hj
      · refine ⟨_, hg, ?_⟩
        rw [hkeep]
        · exact at?_setAt_self _ hmap
        · intro i1 hi1 he
          have he1 : i1 % ys * xs + i1 / ys = j % ys * xs + j / ys := by exact_mod_cast he
          have := vizIndex_inj xs ys i1 j (hb i1 (List.mem_cons_of_mem _ hi1)) hi he1
          subst this
          exact (List.nodup_cons.1 hnd).1 hi1
      · exact hset j hj
    · intro k hk
      rw [hkeep k fun i1 hi1 => hk i1 (List.mem_cons_of_mem _ hi1)]
      exact at?_setAt_ne _ _ (by positivity) (hk i (List.mem_cons_self _ _))

/-- Claim C14: on an `xs × ys` planner grid (`xs * ys` cells), whatever vector
the caller hands in, `getGridViz` returns a map of length `xs * ys` whose entry
`col * xs + row` is the code of the state of the internal cell `row * ys + col`
for every `row < xs` and `col < ys`; the codes are `0` for state `0`, `100` for
state `1`, `30` for state `2` and `-1` for every other state; and every output
index below `xs * ys` is the image of exactly one internal index. -/
theorem getGridViz_transposes {K P : Type} (s : DStarLight K P) (xs ys : ℕ)
    (hx : s.gridmap.xsize = xs) (hy : s.gridmap.ysize = ys) (hlen : s.grid.length = xs * ys)
    (map0 : List ℤ) :
    ∃ m, getGridViz s map0 = some m ∧ m.length = xs * ys ∧
      (∀ row col : ℕ, row < xs → col < ys →
        ∃ c, at? s.grid ((row * ys + col : ℕ) : ℤ) = some c ∧
          at? m ((col * xs + row : ℕ) : ℤ) = some (vizCode c.state)) ∧
      (vizCode 0 = 0 ∧ vizCode 1 = 100 ∧ vizCode 2 = 30 ∧
        ∀ st : ℤ, st ≠ 0 → st ≠ 1 → st ≠ 2 → vizCode st = -1) ∧
      (∀ k : ℕ, k < xs * ys →
        ∃! i : ℕ, i < xs * ys ∧ vizIndex s.gridmap.xsize s.gridmap.ysize i = (k : ℤ)) := by
  obtain ⟨m, hrun, hml, hset, -⟩ := vizLoop_spec s xs ys hx hy hlen (List.range (xs * ys))
    (resize map0 (xs * ys)) (fun i hi => List.mem_range.1 hi) (List.nodup_range _)
    (length_resize _ _)
  refine ⟨m, ?_, hml, ?_, ?_, ?_⟩
  · unfold getGridViz
    rw [hlen]
    exact hrun
  · intro row col hr hc
    obtain ⟨c, hc1, hc2⟩ := hset (row * ys + col) (List.mem_range.2 (rowcol_lt xs ys row col hr hc))
    rw [vizIndex_rowcol xs ys row col hc] at hc2
    exact ⟨c, hc1, hc2⟩
  · refine ⟨by decide, by decide, by decide, ?_⟩
    intro st h0 h1 h2
    simp [vizCode, h0, h1, h2]
  · intro k hk
    have hxp : 0 < xs := by
      rcases Nat.eq_zero_or_pos xs with h0 | h0
      · rw [h0, Nat.zero_mul] at hk; omega
      · exact h0
    have hkx : k / xs < ys := Nat.div_lt_of_lt_mul hk
    have hkm : k % xs < xs := Nat.mod_lt _ hxp
    refine ⟨k % xs * ys + k / xs, ⟨rowcol_lt xs ys _ _ hkm hkx, ?_⟩, ?_⟩
    · rw [hx, hy, vizIndex_natCast, vizIndex_rowcol xs ys _ _ hkx]
      have := Nat.div_add_mod k xs
      have h2 : k / xs * xs = xs * (k / xs) := Nat.mul_comm _ _
      exact_mod_cast (by omega : k / xs * xs + k % xs = k)
    · rintro j ⟨hj, he⟩
      rw [hx, hy, vizIndex_natCast] at he
      have he1 : j % ys * xs + j / ys = k := by exact_mod_cast he
      apply vizIndex_inj xs ys j _ hj (rowcol_lt xs ys _ _ hkm hkx)
      rw [vizIndex_rowcol xs ys _ _ hkx, he1]
      have := Nat.div_add_mod k xs
      have h2 : k / xs * xs = xs * (k / xs) := Nat.mul_comm _ _
      omega

end Viz

/-- Witness for claim C14: the fresh `1 × 4` corridor and a stale input map. -/
theorem getGridViz_transposes_witness :
    getGridViz corridor [7, 7] = some [0, 0, 0, 0] ∧
    ∃ m, getGridViz corridor [7, 7] = some m ∧ m.length = 1 * 4 ∧
      (∀ row col : ℕ, row < 1 → col < 4 →
        ∃ c, at? corridor.grid ((row * 4 + col : ℕ) : ℤ) = some c ∧
          at? m ((col * 1 + row : ℕ) : ℤ) = some (vizCode c.state)) ∧
      (vizCode 0 = 0 ∧ vizCode 1 = 100 ∧ vizCode 2 = 30 ∧
        ∀ st : ℤ, st ≠ 0 → st ≠ 1 → st ≠ 2 → vizCode st = -1) ∧
      (∀ k : ℕ, k < 1 * 4 →
        ∃! i : ℕ, i < 1 * 4 ∧
          vizIndex corridor.gridmap.xsize corridor.gridmap.ysize i = (k : ℤ)) :=
  ⟨by decide, getGridViz_transposes corridor 1 4 rfl rfl (by decide) [7, 7]⟩

end Planner

namespace Planner

open Cpp

section UpdateCell

variable {K P : Type} [LinearOrderedRing K]

instance costLE.isTotal : IsTotal (ℤ × K) costLE :=
  ⟨fun a b => by
    unfold costLE SortCost
    rcases le_total a.2 b.2 with h | h
    · exact Or.inl (not_lt.2 h)
    · exact Or.inr (not_lt.2 h)⟩

instance costLE.isTrans : IsTrans (ℤ × K) costLE :=
  ⟨fun a b c h1 h2 => by
    unfold costLE SortCost at *
    exact not_lt.2 (le_trans (not_lt.1 h1) (not_lt.1 h2))⟩

theorem sorted_cost_min (l : List (ℤ × K)) (hne : l ≠ []) :
    ∃ front, (l.insertionSort costLE).head? = some front ∧ front ∈ l ∧
      ∀ p ∈ l, front.2 ≤ p.2 := by
  have hperm := List.perm_insertionSort costLE l
  have hs := List.sorted_insertionSort costLE l
  cases hl : l.insertionSort costLE with
  | nil =>
    rw [hl] at hperm
    exact absurd (List.Perm.eq_nil (List.Perm.symm hperm)) hne
  | cons y ys =>
    rw [hl] at hs hperm
    refine ⟨y, rfl, (List.Perm.mem_iff hperm).1 (List.mem_cons_self _ _), ?_⟩
    intro p hp
    rcases List.mem_cons.1 ((List.Perm.mem_iff hperm).2 hp) with rfl | hp1
    · exact le_refl _
    · have := List.rel_of_sorted_cons hs p hp1
      unfold costLE SortCost at this
      exact not_lt.1 this

theorem edgeCost_some (E : Env K) (s : DStarLight K P) {id1 id2 : ℤ} {a b : Cell K P}
    (ha : at? s.grid id1 = some a) (hb : at? s.grid id2 = some b) :
    ∃ e, edgeCost E s id1 id2 = some e := by
  unfold edgeCost
  simp only [ha, hb, Option.bind_eq_bind, Option.some_bind]
  split <;> exact ⟨_, rfl⟩

theorem idCosts_all (E : Env K) (s : DStarLight K P) (id : ℤ) {c : Cell K P}
    (hc : at? s.grid id = some c) :
    ∀ l : List ℤ, (∀ nid ∈ l, ∃ n, at? s.grid nid = some n) →
      ∃ ic, idCosts E s id false l = some ic ∧ ic.map Prod.fst = l ∧
        ∀ p ∈ ic, ∃ n e, at? s.grid p.1 = some n ∧ edgeCost E s id p.1 = some e ∧
          p.2 = n.g + e := by
  intro l
  induction l with
  | nil => intro _; exact ⟨[], rfl, rfl, fun p hp => absurd hp (List.not_mem_nil _)⟩
  | cons nid rest ih =>
    intro hall
    obtain ⟨n, hn⟩ := hall nid (List.mem_cons_self _ _)
    obtain ⟨e, he⟩ := edgeCost_some E s hc hn
    obtain ⟨tl, htl, hfst, hprop⟩ := ih fun x hx => hall x (List.mem_cons_of_mem _ hx)
    refine ⟨(nid, n.g + e) :: tl, ?_, ?_, ?_⟩
    · rw [idCosts]
      simp [hn, he, htl]
    · simp [hfst]
    · intro p hp
      rcases List.mem_cons.1 hp with rfl | hp
      · exact ⟨n, e, hn, he, rfl⟩
      · exact hprop p hp

theorem minNeighbor_min (E : Env K) (s : DStarLight K P) (id : ℤ) {c : Cell K P}
    (hc : at? s.grid id = some c) (hne : neighbors s.gridmap c ≠ [])
    (hall : ∀ nid ∈ neighbors s.gridmap c, ∃ n, at? s.grid nid = some n) :
    ∃ (min_id : ℤ) (m : Cell K P) (e : K),
      minNeighbor E s id false = some min_id ∧ min_id ∈ neighbors s.gridmap c ∧
      at? s.grid min_id = some m ∧ edgeCost E s id min_id = some e ∧
      ∀ nid ∈ neighbors s.gridmap c, ∀ n e1, at? s.grid nid = some n →
        edgeCost E s id nid = some e1 → m.g + e ≤ n.g + e1 := by
  obtain ⟨ic, hic, hfst, hprop⟩ := idCosts_all E s id hc _ hall
  have hicne : ic ≠ [] := by
    intro h0
    rw [h0] at hfst
    exact hne hfst.symm
  obtain ⟨front, hhead, hmem, hmin⟩ := sorted_cost_min ic hicne
  obtain ⟨m, e, hm, he, hcost⟩ := hprop front hmem
  refine ⟨front.1, m, e, ?_, ?_, hm, he, ?_⟩
  · unfold minNeighbor
    simp only [hc, hic, hhead, Option.bind_eq_bind, Option.some_bind, pure]
  · rw [← hfst]
    exact List.mem_map_of_mem _ hmem
  · intro nid hnid n e1 hn he1
    rw [← hfst] at hnid
    obtain ⟨p, hp, rfl⟩ := List.mem_map.1 hnid
    obtain ⟨n2, e2, hn2, he2, hcost2⟩ := hprop p hp
    rw [hn] at hn2
    rw [he1] at he2
    cases hn2
    cases he2
    rw [← hcost, ← hcost2]
    exact hmin p hp

theorem eraseP_key_ne {α : Type} (f : α → ℤ) (id : ℤ) :
    ∀ l : List α, (l.map f).Nodup → ∀ x ∈ l.eraseP (fun c => decide (f c = id)), f x ≠ id := by
  intro l
  induction l with
  | nil => intro _ x hx; simp at hx
  | cons a rest ih =>
    intro hnd x hx
    rw [List.map_cons, List.nodup_cons] at hnd
    by_cases ha : f a = id
    · rw [List.eraseP_cons_of_pos (by simpa using ha)] at hx
      intro hxid
      apply hnd.1
      rw [ha, ← hxid]
      exact List.mem_map_of_mem f hx
    · rw [List.eraseP_cons_of_neg (by simpa using ha)] at hx
      rcases List.mem_cons.1 hx with rfl | hx
      · exact ha
      · exact ih hnd.2 x hx

theorem refreshOpen_spec (E : Env K) (s : DStarLight K P) (id : ℤ) {c : Cell K P}
    (hc : at? s.grid id = some c) (hcid : c.id = id)
    (hstart : ∃ c0, at? s.grid s.start_id = some c0)
    (hnd : (s.open_list.map fun x => x.id).Nodup) :
    ∃ (s1 : DStarLight K P) (c1 : Cell K P),
      refreshOpen E s id = some s1 ∧ at? s1.grid id = some c1 ∧
      c1.rhs = c.rhs ∧ c1.parent_id = c.parent_id ∧ c1.g = c.g ∧
      (∀ j, j ≠ id → at? s1.grid j = at? s.grid j) ∧
      ((∃ x ∈ s1.open_list, x.id = id) ↔ c1.rhs ≠ c1.g) := by
  obtain ⟨c0, hc0⟩ := hstart
  have h0 : 0 ≤ id := (at?_eq_some hc).1
  have herase := eraseP_key_ne (fun x : Cell K P => x.id) id s.open_list hnd
  by_cases hne : c.rhs ≠ c.g
  · have hh : ∃ hv, heuristic E s id = some hv := by
      unfold heuristic
      simp only [hc0, hc, Option.bind_eq_bind, Option.some_bind, pure]
      exact ⟨_, rfl⟩
    obtain ⟨hv, hhv⟩ := hh
    refine ⟨{ s with grid := setAt s.grid id (c.setHKeys hv),
                     open_list := (s.open_list.eraseP fun x => decide (x.id = id))
                       ++ [c.setHKeys hv] },
      c.setHKeys hv, ?_, at?_setAt_self _ hc, rfl, rfl, rfl, ?_, ?_⟩
    · unfold refreshOpen
      simp only [hc, hhv, Option.bind_eq_bind, Option.some_bind, if_pos hne, pure]
    · intro j hj
      exact at?_setAt_ne _ _ h0 (Ne.symm hj)
    · constructor
      · intro _; exact hne
      · intro _
        exact ⟨c.setHKeys hv, List.mem_append_right _ (List.mem_singleton_self _), hcid⟩
  · refine ⟨{ s with open_list := s.open_list.eraseP fun x => decide (x.id = id) },
      c, ?_, hc, rfl, rfl, rfl, fun _ _ => rfl, ?_⟩
    · unfold refreshOpen
      simp only [hc, Option.bind_eq_bind, Option.some_bind, if_neg hne, pure]
    · constructor
      · rintro ⟨x, hx, hxid⟩
        exact absurd hxid (herase x hx)
      · intro h; exact absurd h hne

/-- Claim C19: let `id` index the cell `c` (which stores its own index as id),
let the start cell exist and let no id occur twice in the open list.
If `id ≠ goal`, the cell has an in-bounds neighbour and the in-bounds
neighbour ids index grid cells, then `updateCell(id)` returns, the new
`rhs(id)` is `g(min_id) + edgeCost(id, min_id)` for an in-bounds neighbour
`min_id` that becomes the parent, and this value is the minimum of
`g(s') + edgeCost(id, s')` over all in-bounds neighbours `s'` (occupied or
not); `g(id)` and every other grid cell are unchanged; and afterwards `id` is in
the open list if and only if `rhs(id) ≠ g(id)`.  If `id = goal`, `updateCell`
returns and leaves `rhs(id)` and `parent_id(id)` unchanged. -/
theorem updateCell_sets_rhs_to_min (E : Env K) (s : DStarLight K P) (id : ℤ) (c : Cell K P)
    (hc : at? s.grid id = some c) (hcid : c.id = id)
    (hstart : ∃ c0, at? s.grid s.start_id = some c0)
    (hnd : (s.open_list.map fun x => x.id).Nodup) :
    (id ≠ s.goal_id → neighbors s.gridmap c ≠ [] →
      (∀ nid ∈ neighbors s.gridmap c, ∃ n, at? s.grid nid = some n) →
      ∃ (s1 : DStarLight K P) (c1 : Cell K P) (min_id : ℤ) (m : Cell K P) (e : K),
        updateCell E s id = some s1 ∧ at? s1.grid id = some c1 ∧
        min_id ∈ neighbors s.gridmap c ∧ at? s.grid min_id = some m ∧
        edgeCost E s id min_id = some e ∧
        c1.rhs = m.g + e ∧ c1.parent_id = min_id ∧
        (∀ nid ∈ neighbors s.gridmap c, ∀ n e1, at? s.grid nid = some n →
          edgeCost E s id nid = some e1 → c1.rhs ≤ n.g + e1) ∧
        c1.g = c.g ∧
        (∀ j, j ≠ id → at? s1.grid j = at? s.grid j) ∧
        ((∃ x ∈ s1.open_list, x.id = id) ↔ c1.rhs ≠ c1.g)) ∧
    (id = s.goal_id →
      ∃ (s1 : DStarLight K P) (c1 : Cell K P),
        updateCell E s id = some s1 ∧ at? s1.grid id = some c1 ∧
        c1.rhs = c.rhs ∧ c1.parent_id = c.parent_id) := by
  have h0 : 0 ≤ id := (at?_eq_some hc).1
  constructor
  · intro hgoal hne hall
    obtain ⟨min_id, m, e, hmin, hmem, hm, he, hleast⟩ := minNeighbor_min E s id hc hne hall
    have hstart1 : ∃ c0, at? (setAt s.grid id { c with rhs := m.g + e, parent_id := min_id })
        s.start_id = some c0 := by
      by_cases hsid : id = s.start_id
      · rw [← hsid]; exact ⟨_, at?_setAt_self _ hc⟩
      · obtain ⟨c0, hc0⟩ := hstart
        exact ⟨c0, by rw [at?_setAt_ne _ _ h0 hsid]; exact hc0⟩
    obtain ⟨s1, c1, hrun, hc1, hrhs, hpar, hg, hother, hopen⟩ :=
      refreshOpen_spec E
        { s with grid := setAt s.grid id { c with rhs := m.g + e, parent_id := min_id } } id
        (c := { c with rhs := m.g + e, parent_id := min_id })
        (at?_setAt_self _ hc) hcid hstart1 hnd
    refine ⟨s1, c1, min_id, m, e, ?_, hc1, hmem, hm, he, hrhs, hpar, ?_, hg, ?_, hopen⟩
    · unfold updateCell updateRhs
      simp only [if_pos hgoal, hmin, hm, he, hc, Option.bind_eq_bind, Option.some_bind, pure]
      exact hrun
    · intro nid hnid n e1 hn he1
      rw [hrhs]
      exact hleast nid hnid n e1 hn he1
    · intro j hj
      rw [hother j hj]
      exact at?_setAt_ne _ _ h0 (Ne.symm hj)
  · intro hgoal
    obtain ⟨s1, c1, hrun, hc1, hrhs, hpar, -, -, -⟩ :=
      refreshOpen_spec E s id hc hcid hstart hnd
    refine ⟨s1, c1, ?_, hc1, hrhs, hpar⟩
    unfold updateCell updateRhs
    simp only [if_neg (not_not.2 hgoal), Option.bind_eq_bind, Option.some_bind, pure]
    exact hrun

end UpdateCell

/-- Witness for claim C19 on the corridor after `initPath` (start cell `1`, goal
cell `0`): `updateCell(1)` on a cell other than the goal, and `updateCell(0)`
on the goal. -/
theorem updateCell_sets_rhs_to_min_witness :
    (∃ (s1 : DStarLight ℚ (ℤ × ℤ)) (c1 : Cell ℚ (ℤ × ℤ)) (min_id : ℤ) (m : Cell ℚ (ℤ × ℤ))
        (e : ℚ),
        updateCell exampleEnv corridorStart 1 = some s1 ∧ at? s1.grid 1 = some c1 ∧
        min_id ∈ neighbors corridorStart.gridmap (corridorCell 1) ∧
        at? corridorStart.grid min_id = some m ∧
        edgeCost exampleEnv corridorStart 1 min_id = some e ∧
        c1.rhs = m.g + e ∧ c1.parent_id = min_id ∧
        (∀ nid ∈ neighbors corridorStart.gridmap (corridorCell 1), ∀ n e1,
          at? corridorStart.grid nid = some n →
          edgeCost exampleEnv corridorStart 1 nid = some e1 → c1.rhs ≤ n.g + e1) ∧
        c1.g = (corridorCell 1).g ∧
        (∀ j, j ≠ 1 → at? s1.grid j = at? corridorStart.grid j) ∧
        ((∃ x ∈ s1.open_list, x.id = 1) ↔ c1.rhs ≠ c1.g)) ∧
    (∃ (s1 : DStarLight ℚ (ℤ × ℤ)) (c1 : Cell ℚ (ℤ × ℤ)),
        updateCell exampleEnv corridorStart 0 = some s1 ∧ at? s1.grid 0 = some c1 ∧
        c1.rhs = ({ corridorCell 0 with rhs := 0 } : Cell ℚ (ℤ × ℤ)).rhs ∧
        c1.parent_id = ({ corridorCell 0 with rhs := 0 } : Cell ℚ (ℤ × ℤ)).parent_id) :=
  ⟨(updateCell_sets_rhs_to_min exampleEnv corridorStart 1 (corridorCell 1) (by decide!) rfl
      ⟨corridorCell 1, by decide!⟩ (by decide!)).1 (by decide!) (by decide!)
      (fun nid hnid => Option.isSome_iff_exists.1
        ((by decide! : ∀ x ∈ neighbors corridorStart.gridmap (corridorCell 1),
          (at? corridorStart.grid x).isSome = true) nid hnid)),
    (updateCell_sets_rhs_to_min exampleEnv corridorStart 0 { corridorCell 0 with rhs := 0 }
      (by decide!) rfl ⟨corridorCell 1, by decide!⟩ (by decide!)).2 (by decide!)⟩

end Planner

namespace Planner

open Cpp

section OpenSet

variable {K P : Type} [LinearOrderedRing K] [FloorRing K]

/-- Claim C16: in every state reachable from a fresh planner by one `initPath`
followed by `planPath` loop iterations, `planPath`, `updateCell` and
`pathTraversal` calls, no cell id occurs twice in the open list. -/
theorem open_ids_nodup (E : Env K) (s : DStarLight K P) (h : Reachable E s) :
    (s.open_list.map fun c => c.id).Nodup := by
  obtain ⟨-, -, h3⟩ := reachable_inv h
  rw [List.map_map] at h3
  exact h3

end OpenSet

section Test

variable {K P : Type} [LinearOrderedRing K]

/-- Claim C20, amended: in a state whose open list is not empty and whose start
cell `c0` exists, `ifPlanning` returns.  The start cell of the returned state
is `c0` with `h = heuristic(start) = sqrt 0` and the freshly recomputed key
`(min(g, rhs) + h, min(g, rhs))`, where `g` and `rhs` are those of `c0`; `top`
carries a minimum key of the open list; and the result is true exactly when
`top.k2 < min(g, rhs)` in case `top.k1` and `min(g, rhs) + h` are almost equal,
`top.k1 < min(g, rhs) + h` in case they are not, or `rhs(start) ≠ g(start)`. -/
theorem ifPlanning_true_iff (E : Env K) (s : DStarLight K P) (c0 : Cell K P)
    (hne : s.open_list ≠ []) (hstart : at? s.grid s.start_id = some c0) :
    ∃ (b : Bool) (s1 : DStarLight K P) (top : Cell K P),
      ifPlanning E s = some (b, s1) ∧
      top ∈ s.open_list ∧ (∀ x ∈ s.open_list, ¬ SortKey x top) ∧
      s1.start_id = s.start_id ∧
      at? s1.grid s.start_id
        = some { c0 with h := E.sqrt 0, k1 := min c0.g c0.rhs + E.sqrt 0,
                         k2 := min c0.g c0.rhs } ∧
      (∀ j, j ≠ s.start_id → at? s1.grid j = at? s.grid j) ∧
      (b = true ↔
        (if almost_equal E top.k1 (min c0.g c0.rhs + E.sqrt 0) then top.k2 < min c0.g c0.rhs
          else top.k1 < min c0.g c0.rhs + E.sqrt 0) ∨
          c0.rhs ≠ c0.g) := by
  have hperm := List.perm_insertionSort keyLE s.open_list
  cases hsort : s.open_list.insertionSort keyLE with
  | nil =>
    rw [hsort] at hperm
    exact absurd (List.Perm.eq_nil (List.Perm.symm hperm)) hne
  | cons top rest =>
    have hhead : (s.open_list.insertionSort keyLE).head? = some top := by rw [hsort]; rfl
    have hh : heuristic E s s.start_id = some (E.sqrt 0) := by
      unfold heuristic
      simp only [hstart, Option.bind_eq_bind, Option.some_bind, pure, sub_self, abs_zero,
        mul_zero, add_zero]
    have hrun : ∃ b s1, ifPlanning E s = some (b, s1) := by
      unfold ifPlanning
      simp only [hh, hstart, hhead, Option.bind_eq_bind, Option.some_bind]
      split <;> exact ⟨_, _, rfl⟩
    obtain ⟨b, s1, hb⟩ := hrun
    obtain ⟨hv, c, top1, hhv, hc, ht, hs1, hbv⟩ := ifPlanning_spec hb
    rw [hhead] at ht
    have htop : top = top1 := Option.some.inj ht
    subst htop
    rw [hh] at hhv
    have hhv1 : E.sqrt 0 = hv := Option.some.inj hhv
    subst hhv1
    rw [hstart] at hc
    have hc1 : c0 = c := Option.some.inj hc
    subst hc1
    have h0 : 0 ≤ s.start_id := (at?_eq_some hstart).1
    refine ⟨b, s1, top, hb, ?_, ?_, ?_, ?_, ?_, ?_⟩
    · apply (List.Perm.mem_iff hperm).1
      rw [hsort]; exact List.mem_cons_self _ _
    · intro x hx
      exact sorted_open_min _ _ hhead x ((List.Perm.mem_iff hperm).2 hx)
    · rw [hs1]
    · rw [hs1]; exact at?_setAt_self _ hstart
    · intro j hj
      rw [hs1]
      exact at?_setAt_ne _ _ h0 (Ne.symm hj)
    · have hk1 : (c0.setHKeys (E.sqrt 0)).k1 = min c0.g c0.rhs + E.sqrt 0 := rfl
      have hk2 : (c0.setHKeys (E.sqrt 0)).k2 = min c0.g c0.rhs := rfl
      have hr : (c0.setHKeys (E.sqrt 0)).rhs = c0.rhs := rfl
      have hg : (c0.setHKeys (E.sqrt 0)).g = c0.g := rfl
      rw [hk1, hk2, hr, hg] at hbv
      rw [hbv]
      split_ifs with hae
      · exact decide_eq_true_iff
      · exact decide_eq_true_iff

end Test

/-- Evaluation for claim C13 at the failing input, the fresh `1 × 4` corridor
with start cell `(0, 1)` and goal cell `(0, 0)`: after `initPath` the goal cell
has `rhs = 0`, `h = 0` and key `(0, 0)`, the distance from the goal cell to the
start cell computed by `heuristic` is `1`, and the open list holds the goal
cell only. -/
theorem initPath_goal_h_not_distance :
    initPath exampleEnv corridor (0, 1) (0, 0) = some corridorStart ∧
    corridorStart.start_id = 1 ∧ corridorStart.goal_id = 0 ∧
    (at? corridorStart.grid corridorStart.goal_id).map (fun c => (c.rhs, c.h, c.k1, c.k2))
      = some (0, 0, 0, 0) ∧
    heuristic exampleEnv corridorStart corridorStart.goal_id = some 1 ∧
    corridorStart.open_list.map (fun c => (c.id, c.rhs, c.h, c.k1, c.k2))
      = [(0, 0, 0, 0, 0)] :=
  ⟨corridorStart_eq, by decide!, by decide!, by decide!, by decide!, by decide!⟩

/-- Witness for claim C16: the corridor after `initPath` and `planPath`. -/
theorem open_ids_nodup_witness : (corridorDone.open_list.map fun c => c.id).Nodup :=
  open_ids_nodup exampleEnv corridorDone
    (Reachable.plan corridorStart 10 corridorDone
      (Reachable.init corridor (0, 1) (0, 0) corridorStart
        (freshPlanner_fresh 1 4 _ _ _ _) corridorStart_eq)
      corridorDone_eq)

/-- Counterexample to claim C20 as stated: in `toleranceState` the only open key
is `(1, 0)`, the recomputed start key is `(1 - 1e-13, 1 - 1e-13)` and the start
cell is consistent, so the top key is not lexicographically below the start key
and `rhs(start) = g(start)`; `ifPlanning` nevertheless returns true, because
the two `k1` are almost equal and `0 < 1 - 1e-13`. -/
theorem ifPlanning_tolerance_counterexample :
    (ifPlanning exampleEnv toleranceState).map Prod.fst = some true ∧
    openKeys toleranceState = [(1, 0)] ∧
    (ifPlanning exampleEnv toleranceState).map (fun r => startKey r.2)
      = some (some (1 - 1 / 10000000000000, 1 - 1 / 10000000000000)) ∧
    (ifPlanning exampleEnv toleranceState).map
        (fun r => (at? r.2.grid r.2.start_id).map fun c => decide (c.rhs = c.g))
      = some (some true) ∧
    ¬ (toLex ((1 : ℚ), (0 : ℚ))
        < toLex ((1 - 1 / 10000000000000 : ℚ), (1 - 1 / 10000000000000 : ℚ))) :=
  ⟨by decide!, by decide!, by decide!, by decide!, by decide!⟩

/-- Witness for the amended claim C20 on `toleranceState`. -/
theorem ifPlanning_true_iff_witness :
    ∃ (b : Bool) (s1 : DStarLight ℚ (ℤ × ℤ)) (top : Cell ℚ (ℤ × ℤ)),
      ifPlanning exampleEnv toleranceState = some (b, s1) ∧
      top ∈ toleranceState.open_list ∧ (∀ x ∈ toleranceState.open_list, ¬ SortKey x top) ∧
      s1.start_id = toleranceState.start_id ∧
      at? s1.grid toleranceState.start_id
        = some { toleranceStart with
                 h := exampleEnv.sqrt 0,
                 k1 := min toleranceStart.g toleranceStart.rhs + exampleEnv.sqrt 0,
                 k2 := min toleranceStart.g toleranceStart.rhs } ∧
      (∀ j, j ≠ toleranceState.start_id → at? s1.grid j = at? toleranceState.grid j) ∧
      (b = true ↔
        (if almost_equal exampleEnv top.k1
              (min toleranceStart.g toleranceStart.rhs + exampleEnv.sqrt 0) then
            top.k2 < min toleranceStart.g toleranceStart.rhs
          else top.k1 < min toleranceStart.g toleranceStart.rhs + exampleEnv.sqrt 0) ∨
          toleranceStart.rhs ≠ toleranceStart.g) :=
  ifPlanning_true_iff exampleEnv toleranceState toleranceStart (by decide) rfl

end Planner

/-! ## The particle filter: motion model, proposal and the resampling trigger -/

namespace PF

section MotionAndProposal

variable {K G S T M : Type} [LinearOrderedField K] [FloorRing K]

/-- Claim C11: when `almost_equal(ω, 0)` holds, `sampleMotionModel` takes the
straight-line branch.  With `w` the sampled noise, the new pose is
`θ' = wrap(θ + w_θ)`, `x' = x + vx·cos θ' + w_x`, `y' = y + vx·sin θ' + w_y`;
`ω` does not occur in it (no quotient by `ω` is formed: two twists with the
same `vx` that both pass the test give the same pose).  In particular, with
zero noise, `vx = 1`, `wrap 0 = 0`, `cos 0 = 1` and `sin 0 = 0`, the pose
`(0, 0, 0)` becomes `(0, 1, 0)`. -/
theorem sampleMotionModel_straight_line (X : Ext K G S T M) (pf : ParticleFilter K G)
    (u : Twist2D K) (pose z : Vector3d K) (hω : almost_equal X u.w 0 = true) :
    (sampleMotionModel X pf u pose z =
      ![X.normalize_angle_PI (pose 0 + sampleNoise X pf.motion_noise_ z 0),
        pose 1 + u.vx * X.cos (X.normalize_angle_PI (pose 0 + sampleNoise X pf.motion_noise_ z 0))
          + sampleNoise X pf.motion_noise_ z 1,
        pose 2 + u.vx * X.sin (X.normalize_angle_PI (pose 0 + sampleNoise X pf.motion_noise_ z 0))
          + sampleNoise X pf.motion_noise_ z 2]) ∧
    (∀ u1 : Twist2D K, u1.vx = u.vx → almost_equal X u1.w 0 = true →
      sampleMotionModel X pf u1 pose z = sampleMotionModel X pf u pose z) ∧
    (sampleNoise X pf.motion_noise_ z = 0 → u.vx = 1 → X.normalize_angle_PI 0 = 0 →
      X.cos 0 = 1 → X.sin 0 = 0 → pose = ![0, 0, 0] →
      sampleMotionModel X pf u pose z = ![0, 1, 0]) := by
  have key : ∀ u1 : Twist2D K, almost_equal X u1.w 0 = true →
      sampleMotionModel X pf u1 pose z =
        ![X.normalize_angle_PI (pose 0 + sampleNoise X pf.motion_noise_ z 0),
          pose 1 + u1.vx *
            X.cos (X.normalize_angle_PI (pose 0 + sampleNoise X pf.motion_noise_ z 0))
            + sampleNoise X pf.motion_noise_ z 1,
          pose 2 + u1.vx *
            X.sin (X.normalize_angle_PI (pose 0 + sampleNoise X pf.motion_noise_ z 0))
            + sampleNoise X pf.motion_noise_ z 2] := by
    intro u1 h1
    unfold sampleMotionModel
    simp only [h1, if_true, add_assoc]
  refine ⟨key u hω, ?_, ?_⟩
  · intro u1 hvx h1
    rw [key u1 h1, key u hω, hvx]
  · intro hw hvx hwrap hcos hsin hpose
    rw [key u hω, hw, hvx, hpose]
    simp [hwrap, hcos, hsin]

end MotionAndProposal

/-- Witness for claim C11: the straight-line scenario of the spec, twist
`(ω, vx) = (0, 1)`, zero noise draw, pose `(0, 0, 0)`. -/
theorem sampleMotionModel_straight_line_witness :
    almost_equal exampleExt (0 : ℚ) 0 = true ∧
    sampleMotionModel exampleExt (exampleFilter [1]) ⟨0, 1, 0⟩ ![0, 0, 0] ![0, 0, 0]
      = ![0, 1, 0] :=
  ⟨by decide!,
    (sampleMotionModel_straight_line exampleExt (exampleFilter [1]) ⟨0, 1, 0⟩ ![0, 0, 0]
      ![0, 0, 0] (by decide!)).2.2 (by decide!) rfl (by decide!) rfl rfl rfl⟩

end PF

namespace PF

open Cpp

section ProposalLoops

variable {K G S T M : Type} [LinearOrderedField K] [FloorRing K]

theorem atE_append_length {α : Type} (pre : List α) (x : α) (suf : List α) :
    atE (pre ++ x :: suf) (pre.length : ℤ) = .ok x := by
  have h : (pre ++ x :: suf)[pre.length]? = some x := by
    rw [List.getElem?_append_right (le_refl _)]; simp
  simp [atE, at?, h]

theorem proposalLoop1_eq (X : Ext K G S T M) (pf : ParticleFilter K G) (particle : Particle K G)
    (scan : S) (cur_odom prev_odom : Vector3d K) :
    ∀ (suf pre : List (Vector3d K)) (ls : List K) (mu : Vector3d K) (eta : K),
      proposalLoop1 X pf (pre ++ suf) particle scan cur_odom prev_odom suf.length
          (pre.length : ℤ) ls mu eta
        = .ok (ls ++ suf.map (proposalWeight X pf particle scan cur_odom prev_odom),
            mu + (suf.map fun xj =>
              proposalWeight X pf particle scan cur_odom prev_odom xj • xj).sum,
            eta + (suf.map (proposalWeight X pf particle scan cur_odom prev_odom)).sum) := by
  intro suf
  induction suf with
  | nil => intro pre ls mu eta; simp [proposalLoop1]
  | cons x rest ih =>
    intro pre ls mu eta
    have hpre : pre ++ x :: rest = (pre ++ [x]) ++ rest := by simp
    have hidx : ((pre.length : ℤ) + 1) = ((pre ++ [x]).length : ℤ) := by simp
    rw [List.length_cons, proposalLoop1, atE_append_length]
    simp only [Except.bind, bind]
    rw [hidx, hpre, ih]
    simp [proposalWeight, add_assoc]

theorem proposalLoop2_eq (W : Vector3d K → K) (mu : Vector3d K) :
    ∀ (suf pre : List (Vector3d K)) (sigma : Matrix3d K),
      proposalLoop2 (pre ++ suf) ((pre ++ suf).map W) mu suf.length (pre.length : ℤ) sigma
        = .ok (sigma + (suf.map fun xj => W xj • Matrix.vecMulVec (xj - mu) (xj - mu)).sum) := by
  intro suf
  induction suf with
  | nil => intro pre sigma; simp [proposalLoop2]
  | cons x rest ih =>
    intro pre sigma
    have hpre : pre ++ x :: rest = (pre ++ [x]) ++ rest := by simp
    have hidx : ((pre.length : ℤ) + 1) = ((pre ++ [x]).length : ℤ) := by simp
    have hW : atE ((pre ++ x :: rest).map W) (pre.length : ℤ) = .ok (W x) := by
      have := atE_append_length (pre.map W) (W x) (rest.map W)
      simpa using this
    rw [List.length_cons, proposalLoop2, atE_append_length, hW]
    simp only [Except.bind, bind]
    rw [hidx, hpre, ih]
    simp [add_assoc]

theorem proposalLoop1_run (X : Ext K G S T M) (pf : ParticleFilter K G)
    (poses : List (Vector3d K)) (particle : Particle K G) (scan : S)
    (cur_odom prev_odom : Vector3d K) (hlen : poses.length = pf.k_.toNat)
    (mu : Vector3d K) (eta : K) :
    proposalLoop1 X pf poses particle scan cur_odom prev_odom pf.k_.toNat 0 [] mu eta
      = .ok (poses.map (proposalWeight X pf particle scan cur_odom prev_odom),
          mu + (poses.map fun xj =>
            proposalWeight X pf particle scan cur_odom prev_odom xj • xj).sum,
          eta + (poses.map (proposalWeight X pf particle scan cur_odom prev_odom)).sum) := by
  have h := proposalLoop1_eq X pf particle scan cur_odom prev_odom poses [] [] mu eta
  simp only [List.nil_append, List.length_nil, Nat.cast_zero] at h
  rw [← hlen]
  exact h

theorem clamp_zero_scan {v lo hi : K} (hv : v = 0) (hlo : 0 < lo) : clamp v lo hi = lo := by
  unfold clamp
  rw [if_pos (by rw [hv]; exact hlo)]

theorem clamp_pose_bound {v lo hi : K} (hv : 0 < v) (hhi : 0 < hi) :
    0 < clamp v lo hi ∧ min v hi ≤ clamp v lo hi := by
  unfold clamp
  split_ifs with h1 h2
  · exact ⟨lt_trans hv h1, le_trans (min_le_left _ _) (le_of_lt h1)⟩
  · exact ⟨hhi, min_le_right _ _⟩
  · exact ⟨hv, min_le_left _ _⟩

/-- Claim C12: let `k_ ≥ 1` poses be sampled, let the clamp bounds satisfy
`0 < scan_likelihood_min ≤ scan_likelihood_max` and
`pose_likelihood_min ≤ pose_likelihood_max`, `0 < pose_likelihood_max`, and let
every raw scan likelihood be `0` and every raw pose likelihood be positive.
Then the first loop of `gaussianProposal`, started from `eta = 0`, completes
with a normaliser `η > 0`; `η ≥ k · scan_likelihood_min · m` for every lower
bound `m` of the values `min(p_pose_j, pose_likelihood_max)` (so for their
minimum); and a normal return of `gaussianProposal` hands back this `η`. -/
theorem gaussianProposal_eta_positive (X : Ext K G S T M) (pf : ParticleFilter K G)
    (poses : List (Vector3d K)) (particle : Particle K G) (scan : S)
    (cur_odom prev_odom : Vector3d K) (mu0 : Vector3d K) (sigma0 : Matrix3d K)
    (hk : 1 ≤ pf.k_) (hlen : poses.length = pf.k_.toNat)
    (hs0 : 0 < pf.scan_likelihood_min_)
    (hs : pf.scan_likelihood_min_ ≤ pf.scan_likelihood_max_)
    (hp : pf.pose_likelihood_min_ ≤ pf.pose_likelihood_max_)
    (hp0 : 0 < pf.pose_likelihood_max_)
    (hscan : ∀ xj ∈ poses,
      X.likelihoodFieldModel particle.grid scan (X.mkT (xj 1) (xj 2) (xj 0)) = 0)
    (hpose : ∀ xj ∈ poses, 0 < poseLikelihoodOdom X pf xj particle.prev_pose cur_odom prev_odom) :
    ∃ (ls : List K) (mu1 : Vector3d K) (eta : K),
      proposalLoop1 X pf poses particle scan cur_odom prev_odom pf.k_.toNat 0 [] mu0 0
        = .ok (ls, mu1, eta) ∧
      0 < eta ∧
      (∀ m : K,
        (∀ xj ∈ poses,
          m ≤ min (poseLikelihoodOdom X pf xj particle.prev_pose cur_odom prev_odom)
            pf.pose_likelihood_max_) →
        (pf.k_ : K) * pf.scan_likelihood_min_ * m ≤ eta) ∧
      (∀ r, gaussianProposal X pf poses particle scan cur_odom prev_odom mu0 sigma0 0 = .ok r →
        r.2.2 = eta) := by
  have hrun := proposalLoop1_run X pf poses particle scan cur_odom prev_odom hlen mu0 0
  have hW : ∀ xj ∈ poses, proposalWeight X pf particle scan cur_odom prev_odom xj
      = pf.scan_likelihood_min_ *
        clamp (poseLikelihoodOdom X pf xj particle.prev_pose cur_odom prev_odom)
          pf.pose_likelihood_min_ pf.pose_likelihood_max_ := by
    intro xj hx
    unfold proposalWeight
    rw [clamp_zero_scan (hscan xj hx) hs0]
  have hne : poses ≠ [] := by
    intro h0
    rw [h0] at hlen
    simp only [List.length_nil] at hlen
    omega
  have hkK : (pf.k_ : K) = (poses.length : K) := by
    have : pf.k_ = (poses.length : ℤ) := by omega
    rw [this]; simp
  refine ⟨_, _, _, hrun, ?_, ?_, ?_⟩
  · rw [zero_add]
    apply List.sum_pos
    · intro w hw
      obtain ⟨xj, hx, rfl⟩ := List.mem_map.1 hw
      rw [hW xj hx]
      exact mul_pos hs0 (clamp_pose_bound (hpose xj hx) hp0).1
    · simpa using hne
  · intro m hm
    rw [zero_add, hkK]
    have hle : ∀ w ∈ poses.map (proposalWeight X pf particle scan cur_odom prev_odom),
        pf.scan_likelihood_min_ * m ≤ w := by
      intro w hw
      obtain ⟨xj, hx, rfl⟩ := List.mem_map.1 hw
      rw [hW xj hx]
      exact mul_le_mul_of_nonneg_left
        (le_trans (hm xj hx) (clamp_pose_bound (hpose xj hx) hp0).2) (le_of_lt hs0)
    have := List.card_nsmul_le_sum _ _ hle
    rw [List.length_map, nsmul_eq_mul] at this
    rw [mul_assoc]
    exact this
  · intro r hr
    unfold gaussianProposal at hr
    rw [if_neg (not_lt.2 (le_trans zero_le_one hk)), hrun] at hr
    simp only [bind, Except.bind] at hr
    split_ifs at hr with hae
    cases hl2 : proposalLoop2 poses
        (poses.map (proposalWeight X pf particle scan cur_odom prev_odom))
        ![X.normalize_angle_PI ((mu0 + (poses.map fun xj =>
            proposalWeight X pf particle scan cur_odom prev_odom xj • xj).sum) 0 /
            (0 + (poses.map (proposalWeight X pf particle scan cur_odom prev_odom)).sum)),
          (mu0 + (poses.map fun xj =>
            proposalWeight X pf particle scan cur_odom prev_odom xj • xj).sum) 1 /
            (0 + (poses.map (proposalWeight X pf particle scan cur_odom prev_odom)).sum),
          (mu0 + (poses.map fun xj =>
            proposalWeight X pf particle scan cur_odom prev_odom xj • xj).sum) 2 /
            (0 + (poses.map (proposalWeight X pf particle scan cur_odom prev_odom)).sum)]
        pf.k_.toNat 0 sigma0 with
    | error e => rw [hl2] at hr; cases hr
    | ok sg =>
      rw [hl2] at hr
      simp only [pure, Except.pure, Except.ok.injEq] at hr
      rw [← hr]

end ProposalLoops

end PF

namespace PF

open Cpp

section ProposalSpec

variable {K G S T M : Type} [LinearOrderedField K] [FloorRing K]

theorem gaussianProposal_negative_count (X : Ext K G S T M) (pf : ParticleFilter K G)
    (poses : List (Vector3d K)) (particle : Particle K G) (scan : S)
    (cur_odom prev_odom : Vector3d K) (mu : Vector3d K) (sigma : Matrix3d K) (eta : K)
    (hk : pf.k_ < 0) :
    gaussianProposal X pf poses particle scan cur_odom prev_odom mu sigma eta
      = .error .length_error := by
  unfold gaussianProposal
  rw [if_pos hk]

/-- Claim C18: on `k_ ≥ 0` sampled poses, with `mu`, `sigma` and `eta` started
at zero as `SLAM` does, `gaussianProposal` raises `invalid_argument` exactly
when the accumulated normaliser `η = Σ pⱼ` passes `almost_equal(η, 0)`;
otherwise it returns `μ = (Σ xⱼ·pⱼ)/η` with the `θ` component wrapped,
`Σ_prop = (Σ (xⱼ − μ)(xⱼ − μ)ᵀ·pⱼ)/η` and `η`. -/
theorem gaussianProposal_fails_iff_eta_zero (X : Ext K G S T M) (pf : ParticleFilter K G)
    (poses : List (Vector3d K)) (particle : Particle K G) (scan : S)
    (cur_odom prev_odom : Vector3d K) (hk : 0 ≤ pf.k_) (hlen : poses.length = pf.k_.toNat) :
    (gaussianProposal X pf poses particle scan cur_odom prev_odom 0 0 0
        = .error .invalid_argument ↔
      almost_equal X (etaSpec X pf poses particle scan cur_odom prev_odom) 0 = true) ∧
    (almost_equal X (etaSpec X pf poses particle scan cur_odom prev_odom) 0 = false →
      gaussianProposal X pf poses particle scan cur_odom prev_odom 0 0 0
        = .ok (muSpec X pf poses particle scan cur_odom prev_odom,
            sigmaSpec X pf poses particle scan cur_odom prev_odom,
            etaSpec X pf poses particle scan cur_odom prev_odom)) := by
  have hrun := proposalLoop1_run X pf poses particle scan cur_odom prev_odom hlen 0 0
  have hl2 := fun mu => proposalLoop2_eq
    (proposalWeight X pf particle scan cur_odom prev_odom) mu poses [] 0
  simp only [List.nil_append, List.length_nil, Nat.cast_zero, zero_add, hlen] at hl2
  rw [zero_add, zero_add] at hrun
  have hok : almost_equal X (etaSpec X pf poses particle scan cur_odom prev_odom) 0 = false →
      gaussianProposal X pf poses particle scan cur_odom prev_odom 0 0 0
        = .ok (muSpec X pf poses particle scan cur_odom prev_odom,
            sigmaSpec X pf poses particle scan cur_odom prev_odom,
            etaSpec X pf poses particle scan cur_odom prev_odom) := by
    intro hae
    unfold gaussianProposal
    rw [if_neg (not_lt.2 hk), hrun]
    simp only [bind, Except.bind]
    rw [show (poses.map (proposalWeight X pf particle scan cur_odom prev_odom)).sum
      = etaSpec X pf poses particle scan cur_odom prev_odom from rfl, hae]
    simp only [Bool.false_eq_true, if_false]
    rw [hl2]
    rfl
  refine ⟨⟨?_, ?_⟩, hok⟩
  · intro herr
    by_contra hne
    rw [Bool.not_eq_true] at hne
    rw [hok hne] at herr
    cases herr
  · intro hae
    unfold gaussianProposal
    rw [if_neg (not_lt.2 hk), hrun]
    simp only [bind, Except.bind]
    rw [show (poses.map (proposalWeight X pf particle scan cur_odom prev_odom)).sum
      = etaSpec X pf poses particle scan cur_odom prev_odom from rfl, hae]
    rfl

end ProposalSpec

/-- Witness for claim C12: eight sampled poses, scan likelihood `0`, pose
likelihood `1`, clamps `[1/100, 1]`. -/
theorem gaussianProposal_eta_positive_witness :
    ∃ (ls : List ℚ) (mu1 : Vector3d ℚ) (eta : ℚ),
      proposalLoop1 zeroScanExt (clampFilter [1]) examplePoses ⟨1, 0, ![0, 0, 0], ![0, 0, 0]⟩ ()
          ![0, 0, 0] ![0, 0, 0] (clampFilter [1]).k_.toNat 0 [] 0 0
        = .ok (ls, mu1, eta) ∧
      0 < eta ∧
      (∀ m : ℚ,
        (∀ xj ∈ examplePoses,
          m ≤ min (poseLikelihoodOdom zeroScanExt (clampFilter [1]) xj
              (⟨1, 0, ![0, 0, 0], ![0, 0, 0]⟩ : Particle ℚ ℕ).prev_pose ![0, 0, 0] ![0, 0, 0])
            (clampFilter [1]).pose_likelihood_max_) →
        ((clampFilter [1]).k_ : ℚ) * (clampFilter [1]).scan_likelihood_min_ * m ≤ eta) ∧
      (∀ r, gaussianProposal zeroScanExt (clampFilter [1]) examplePoses
          ⟨1, 0, ![0, 0, 0], ![0, 0, 0]⟩ () ![0, 0, 0] ![0, 0, 0] 0 0 0 = .ok r →
        r.2.2 = eta) :=
  gaussianProposal_eta_positive zeroScanExt (clampFilter [1]) examplePoses
    ⟨1, 0, ![0, 0, 0], ![0, 0, 0]⟩ () ![0, 0, 0] ![0, 0, 0] 0 0
    (by decide) (by decide) (by decide!) (by decide!) (by decide!) (by decide!)
    (fun _ _ => rfl)
    (fun _ _ => by simp [poseLikelihoodOdom, zeroScanExt, exampleExt])

/-- Witness for claim C18: eight sampled poses with all likelihoods `1`, so
`η = 8` and the proposal returns normally. -/
theorem gaussianProposal_fails_iff_eta_zero_witness :
    gaussianProposal exampleExt (exampleFilter [1]) examplePoses ⟨1, 0, ![0, 0, 0], ![0, 0, 0]⟩ ()
        ![0, 0, 0] ![0, 0, 0] 0 0 0
      = .ok (muSpec exampleExt (exampleFilter [1]) examplePoses ⟨1, 0, ![0, 0, 0], ![0, 0, 0]⟩ ()
            ![0, 0, 0] ![0, 0, 0],
          sigmaSpec exampleExt (exampleFilter [1]) examplePoses ⟨1, 0, ![0, 0, 0], ![0, 0, 0]⟩ ()
            ![0, 0, 0] ![0, 0, 0],
          etaSpec exampleExt (exampleFilter [1]) examplePoses ⟨1, 0, ![0, 0, 0], ![0, 0, 0]⟩ ()
            ![0, 0, 0] ![0, 0, 0]) ∧
    etaSpec exampleExt (exampleFilter [1]) examplePoses ⟨1, 0, ![0, 0, 0], ![0, 0, 0]⟩ ()
      ![0, 0, 0] ![0, 0, 0] = 8 :=
  ⟨(gaussianProposal_fails_iff_eta_zero exampleExt (exampleFilter [1]) examplePoses
      ⟨1, 0, ![0, 0, 0], ![0, 0, 0]⟩ () ![0, 0, 0] ![0, 0, 0] (by decide) (by decide)).2
      (by decide!),
    by decide!⟩

end PF

namespace PF

open Cpp

section EffectiveAny

variable {F G : Type} [DoubleArith F]

theorem weightSum_eq_foldl (ps : List (Particle F G)) :
    weightSum ps = (ps.map fun p => p.weight).foldl DoubleArith.add DoubleArith.zero := by
  unfold weightSum
  rw [List.foldl_map]

theorem normalizeWeights_sqrd_foldl (pf : ParticleFilter F G) :
    (normalizeWeights pf).normal_sqrd_sum_
      = (pf.particle_set_.map fun p => p.weight).foldl
          (fun acc w => DoubleArith.add acc (DoubleArith.sq (DoubleArith.div w
            ((pf.particle_set_.map fun p => p.weight).foldl DoubleArith.add DoubleArith.zero))))
          DoubleArith.zero := by
  show sqrdSum (pf.particle_set_.map fun p =>
      { p with weight := DoubleArith.div p.weight (weightSum pf.particle_set_) }) = _
  unfold sqrdSum
  rw [List.foldl_map, List.foldl_map, weightSum_eq_foldl]

end EffectiveAny

section Effective

variable {K G : Type} [LinearOrderedField K] [FloorRing K]

theorem normalizeWeights_sqrd_sum (pf : ParticleFilter K G) :
    (normalizeWeights pf).normal_sqrd_sum_
      = ((pf.particle_set_.map fun p => p.weight).map fun w =>
          (w / (pf.particle_set_.map fun p => p.weight).sum) ^ 2).sum := by
  rw [normalizeWeights_exact]
  simp only
  rw [sqrdSum_eq_sum, weightSum_eq_sum, List.map_map, List.map_map, List.map_map]
  rfl

theorem sum_sq_nonneg (l : List K) : 0 ≤ (l.map fun w => w ^ 2).sum := by
  apply List.sum_nonneg
  intro x hx
  obtain ⟨w, -, rfl⟩ := List.mem_map.1 hx
  exact sq_nonneg w

end Effective

/-- Claim C17, amended.  In whatever arithmetic the doubles compute with,
`effectiveParticles` called after `normalizeWeights` returns true exactly when
`static_cast<int>(1.0 / S₂) < N / 2`, where `N / 2` is the `int` division of the
code and `S₂` is the value accumulated in list order from `0.0` by
`S₂ += pow(wᵢ / S, 2)`, `S` being accumulated in list order from `0.0` by
`S += wᵢ`.  In exact arithmetic, for `N ≥ 1` and weights with a non-zero sum,
this is `⌊1 / Σ wᵢ²⌋ < N / 2` for the normalised weights `wᵢ` and the integer
quotient `N / 2`. -/
theorem effectiveParticles_iff_int_half :
    (∀ (F G : Type) [DoubleArith F] [DoubleCast F] (pf : ParticleFilter F G),
      effectiveParticles (normalizeWeights pf) = true ↔
        DoubleCast.toInt (DoubleArith.div DoubleArith.one
          ((pf.particle_set_.map fun p => p.weight).foldl
            (fun acc w => DoubleArith.add acc (DoubleArith.sq (DoubleArith.div w
              ((pf.particle_set_.map fun p => p.weight).foldl
                DoubleArith.add DoubleArith.zero))))
            DoubleArith.zero))
          < Int.tdiv pf.num_particles_ 2) ∧
    (∀ (K G : Type) [LinearOrderedField K] [FloorRing K] (pf : ParticleFilter K G),
      1 ≤ pf.num_particles_ → (pf.particle_set_.map fun p => p.weight).sum ≠ 0 →
      (effectiveParticles (normalizeWeights pf) = true ↔
        ⌊1 / ((pf.particle_set_.map fun p => p.weight).map fun w =>
            (w / (pf.particle_set_.map fun p => p.weight).sum) ^ 2).sum⌋
          < pf.num_particles_ / 2)) := by
  constructor
  · intro F G _ _ pf
    unfold effectiveParticles
    rw [normalizeWeights_sqrd_foldl, decide_eq_true_eq]
    rfl
  · intro K G _ _ pf hN _
    rw [effectiveParticles_exact, normalizeWeights_sqrd_sum, decide_eq_true_eq]
    have hnum : (normalizeWeights pf).num_particles_ = pf.num_particles_ := rfl
    have hdiv : Int.tdiv pf.num_particles_ 2 = pf.num_particles_ / 2 :=
      Int.tdiv_eq_ediv (by omega) (by decide)
    have hnn : (0 : K) ≤
        1 / ((pf.particle_set_.map fun p => p.weight).map fun w =>
          (w / (pf.particle_set_.map fun p => p.weight).sum) ^ 2).sum := by
      apply div_nonneg zero_le_one
      have := sum_sq_nonneg ((pf.particle_set_.map fun p => p.weight).map fun w =>
        w / (pf.particle_set_.map fun p => p.weight).sum)
      rw [List.map_map] at this
      exact this
    rw [hnum, hdiv, truncInt, if_pos hnn]

/-- Witness for the amended claim C17: ten particles with the weights
`1, 1, 1, 1, 1, 0, 0, 0, 0, 0`.  In the arithmetic of `double` the normalised
weights are `fl(0.2)`, their rounded squares add up to `0.20000000000000004`,
the quotient is `4.999…`, truncated to `4 < 5`: the result is true.  In exact
arithmetic `1 / Σ wᵢ² = 5` and the result is false. -/
theorem effectiveParticles_iff_int_half_witness :
    effectiveParticles (normalizeWeights (doubleFilter halfWeights)) = true ∧
    (normalizeWeights (doubleFilter halfWeights)).normal_sqrd_sum_
      = ⟨7205759403792795 / 36028797018963968⟩ ∧
    effectiveParticles (normalizeWeights (exampleFilter halfWeights)) = false ∧
    (normalizeWeights (exampleFilter halfWeights)).normal_sqrd_sum_ = 1 / 5 :=
  ⟨(effectiveParticles_iff_int_half.1 Binary64 ℕ (doubleFilter halfWeights)).2 (by decide!),
    by decide!,
    Bool.eq_false_iff.2 fun h =>
      absurd ((effectiveParticles_iff_int_half.2 ℚ ℕ (exampleFilter halfWeights) (by decide)
        (by decide!)).1 h) (by decide!),
    by decide!⟩

/-- Counterexample to claim C17 as stated: with `N = 3` particles and weights
`(1, 0, 0)` the normalised squared weights sum to `1`, so `⌊N_eff⌋ = 1 < 3/2`,
yet `effectiveParticles` returns false because it compares with `3 / 2 = 1`.
The values `1` and `0` are not rounded, so the run is the same in the
arithmetic of `double`. -/
theorem effectiveParticles_odd_count_counterexample :
    effectiveParticles (normalizeWeights (exampleFilter [1, 0, 0])) = false ∧
    effectiveParticles (normalizeWeights (doubleFilter [1, 0, 0])) = false ∧
    ((⌊1 / (([1, 0, 0] : List ℚ).map fun w => (w / ([1, 0, 0] : List ℚ).sum) ^ 2).sum⌋ : ℤ) : ℚ)
      < ((3 : ℤ) : ℚ) / 2 ∧
    (exampleFilter [1, 0, 0]).particle_set_.map (fun p => p.weight) = [1, 0, 0] ∧
    (exampleFilter [1, 0, 0]).num_particles_ = 3 := by
  refine ⟨by decide!, by decide!, by decide!, by decide!, by decide!⟩

end PF

/-! ## The planner: what `minNeighbor`, `updateCell` and the loop body leave behind -/

namespace Planner

open Cpp

section Elim

variable {K P : Type} [LinearOrderedRing K]

theorem idCosts_elim (E : Env K) (s : DStarLight K P) (id : ℤ) (b : Bool) :
    ∀ (l : List ℤ) (ic : List (ℤ × K)), idCosts E s id b l = some ic →
      ∀ p ∈ ic, p.1 ∈ l ∧ ∃ n e, at? s.grid p.1 = some n ∧ edgeCost E s id p.1 = some e ∧
        p.2 = n.g + e ∧ (b = true → n.state ≠ 1 ∧ n.state ≠ 2) := by
  intro l
  induction l with
  | nil =>
    intro ic h p hp
    simp only [idCosts, Option.some.injEq] at h
    subst h
    cases hp
  | cons nid rest ih =>
    intro ic h p hp
    rw [idCosts] at h
    cases hn : at? s.grid nid with
    | none => simp [hn] at h
    | some n =>
      simp only [hn, Option.bind_eq_bind, Option.some_bind] at h
      have hpush : ∀ tl e, edgeCost E s id nid = some e → idCosts E s id b rest = some tl →
          ic = (nid, n.g + e) :: tl → (b = true → n.state ≠ 1 ∧ n.state ≠ 2) →
          p.1 ∈ nid :: rest ∧ ∃ n e, at? s.grid p.1 = some n ∧ edgeCost E s id p.1 = some e ∧
            p.2 = n.g + e ∧ (b = true → n.state ≠ 1 ∧ n.state ≠ 2) := by
        intro tl e he htl hic hst
        subst hic
        rcases List.mem_cons.1 hp with rfl | hp
        · exact ⟨List.mem_cons_self _ _, n, e, hn, he, rfl, hst⟩
        · obtain ⟨h1, h2⟩ := ih tl htl p hp
          exact ⟨List.mem_cons_of_mem _ h1, h2⟩
      have hrun : ∀ (hst : b = true → n.state ≠ 1 ∧ n.state ≠ 2),
          (do let e ← edgeCost E s id nid
              let tl ← idCosts E s id b rest
              pure ((nid, n.g + e) :: tl) : Option (List (ℤ × K))) = some ic →
          p.1 ∈ nid :: rest ∧ ∃ n e, at? s.grid p.1 = some n ∧ edgeCost E s id p.1 = some e ∧
            p.2 = n.g + e ∧ (b = true → n.state ≠ 1 ∧ n.state ≠ 2) := by
        intro hst h1
        cases he : edgeCost E s id nid with
        | none => simp [he] at h1
        | some e =>
          cases htl : idCosts E s id b rest with
          | none => simp [he, htl] at h1
          | some tl =>
            simp only [he, htl, Option.bind_eq_bind, Option.some_bind, pure,
              Option.some.injEq] at h1
            exact hpush tl e he htl h1.symm hst
      cases b with
      | false =>
        simp only [Bool.not_false, if_true] at h
        exact hrun (fun hb => by cases hb) h
      | true =>
        simp only [Bool.not_true, Bool.false_eq_true, if_false] at h
        split at h
        · rename_i hst
          exact hrun (fun _ => hst) h
        · obtain ⟨h1, h2⟩ := ih ic h p hp
          exact ⟨List.mem_cons_of_mem _ h1, h2⟩

theorem idCosts_false_all (E : Env K) (s : DStarLight K P) (id : ℤ) :
    ∀ (l : List ℤ) (ic : List (ℤ × K)), idCosts E s id false l = some ic →
      ic.map Prod.fst = l := by
  intro l
  induction l with
  | nil =>
    intro ic h
    simp only [idCosts, Option.some.injEq] at h
    subst h; rfl
  | cons nid rest ih =>
    intro ic h
    rw [idCosts] at h
    cases hn : at? s.grid nid with
    | none => simp [hn] at h
    | some n =>
      cases he : edgeCost E s id nid with
      | none => simp [hn, he] at h
      | some e =>
        cases htl : idCosts E s id false rest with
        | none => simp [hn, he, htl] at h
        | some tl =>
          simp only [hn, he, htl, Option.bind_eq_bind, Option.some_bind, pure, Bool.not_false,
            if_true, Option.some.injEq] at h
          subst h
          simp [ih tl htl]

theorem idCosts_true_all (E : Env K) (s : DStarLight K P) (id : ℤ) :
    ∀ (l : List ℤ) (ic : List (ℤ × K)), idCosts E s id true l = some ic →
      ∀ nid ∈ l, ∀ n, at? s.grid nid = some n → n.state ≠ 1 → n.state ≠ 2 →
        nid ∈ ic.map Prod.fst := by
  intro l
  induction l with
  | nil => intro ic _ nid hnid; cases hnid
  | cons x rest ih =>
    intro ic h nid hnid n hn h1 h2
    rw [idCosts] at h
    cases hx : at? s.grid x with
    | none => simp [hx] at h
    | some cx =>
      simp only [hx, Option.bind_eq_bind, Option.some_bind, Bool.not_true, Bool.false_eq_true,
        if_false] at h
      split at h
      · cases he : edgeCost E s id x with
        | none => simp [he] at h
        | some e =>
          cases htl : idCosts E s id true rest with
          | none => simp [he, htl] at h
          | some tl =>
            simp only [he, htl, Option.some_bind, pure, Option.some.injEq] at h
            subst h
            rcases List.mem_cons.1 hnid with rfl | hr
            · simp
            · simp only [List.map_cons, List.mem_cons]
              exact Or.inr (ih tl htl nid hr n hn h1 h2)
      · rename_i hst
        rcases List.mem_cons.1 hnid with rfl | hr
        · rw [hx] at hn
          cases hn
          exact absurd ⟨h1, h2⟩ hst
        · exact ih ic h nid hr n hn h1 h2

theorem minNeighbor_elim (E : Env K) (s : DStarLight K P) (id : ℤ) (b : Bool) (min_id : ℤ)
    (h : minNeighbor E s id b = some min_id) :
    ∃ (c : Cell K P) (ic : List (ℤ × K)) (m : Cell K P) (e : K),
      at? s.grid id = some c ∧ idCosts E s id b (neighbors s.gridmap c) = some ic ∧
      min_id ∈ neighbors s.gridmap c ∧ at? s.grid min_id = some m ∧
      edgeCost E s id min_id = some e ∧ (b = true → m.state ≠ 1 ∧ m.state ≠ 2) ∧
      ∀ p ∈ ic, m.g + e ≤ p.2 := by
  unfold minNeighbor at h
  cases hc : at? s.grid id with
  | none => simp [hc] at h
  | some c =>
    cases hic : idCosts E s id b (neighbors s.gridmap c) with
    | none => simp [hc, hic] at h
    | some ic =>
      simp only [hc, hic, Option.bind_eq_bind, Option.some_bind] at h
      have hne : ic ≠ [] := by
        intro h0
        rw [h0] at h
        simp at h
      obtain ⟨front, hhead, hmem, hmin⟩ := sorted_cost_min ic hne
      simp only [hhead, Option.some_bind, pure, Option.some.injEq] at h
      subst h
      obtain ⟨h1, n, e, hn, he, hcost, hst⟩ := idCosts_elim E s id b _ ic hic front hmem
      refine ⟨c, ic, n, e, rfl, hic, h1, hn, he, hst, ?_⟩
      intro p hp
      rw [← hcost]
      exact hmin p hp

theorem at?_view {α β : Type} (f : α → β) {l1 l : List α} (h : l1.map f = l.map f) (n : ℤ) :
    (at? l1 n).map f = (at? l n).map f := by
  rw [← at?_map, h, at?_map]

theorem view_setAt {α β : Type} (f : α → β) {l : List α} {id : ℤ} {c c1 : α}
    (hc : at? l id = some c) (hf : f c1 = f c) : (setAt l id c1).map f = l.map f := by
  rw [setAt_map, hf]
  exact setAt_same (by rw [at?_map, hc]; rfl)

theorem view_some {α β : Type} (f : α → β) {l1 l : List α} (h : l1.map f = l.map f) {n : ℤ}
    {c1 : α} (h1 : at? l1 n = some c1) : ∃ c, at? l n = some c ∧ f c = f c1 := by
  have hv := at?_view f h n
  rw [h1] at hv
  cases hc : at? l n with
  | none => rw [hc] at hv; cases hv
  | some c =>
    rw [hc] at hv
    simp only [Option.map_some', Option.some.injEq] at hv
    exact ⟨c, rfl, hv.symm⟩

theorem heuristic_congr (E : Env K) {s s1 : DStarLight K P} (hs : s1.start_id = s.start_id)
    (hp : s1.grid.map Cell.pos = s.grid.map Cell.pos) (x : ℤ) :
    heuristic E s1 x = heuristic E s x := by
  unfold heuristic
  rw [hs]
  have h1 := at?_view Cell.pos hp s.start_id
  have h2 := at?_view Cell.pos hp x
  cases ha : at? s.grid s.start_id with
  | none =>
    rw [ha] at h1
    cases ha1 : at? s1.grid s.start_id with
    | none => rfl
    | some a1 => rw [ha1] at h1; cases h1
  | some a =>
    rw [ha] at h1
    cases ha1 : at? s1.grid s.start_id with
    | none => rw [ha1] at h1; cases h1
    | some a1 =>
      rw [ha1] at h1
      simp only [Option.map_some', Option.some.injEq, Cell.pos, Prod.mk.injEq] at h1
      cases hb : at? s.grid x with
      | none =>
        rw [hb] at h2
        cases hb1 : at? s1.grid x with
        | none => rfl
        | some b1 => rw [hb1] at h2; cases h2
      | some b =>
        rw [hb] at h2
        cases hb1 : at? s1.grid x with
        | none => rw [hb1] at h2; cases h2
        | some b1 =>
          rw [hb1] at h2
          simp only [Option.map_some', Option.some.injEq, Cell.pos, Prod.mk.injEq] at h2
          simp only [Option.bind_eq_bind, Option.some_bind, pure, h1.1, h1.2.1, h2.1, h2.2.1]

theorem edgeCost_congr (E : Env K) {s s1 : DStarLight K P} (ho : s1.occu_cost = s.occu_cost)
    (hp : s1.grid.map Cell.pos = s.grid.map Cell.pos) (x nid : ℤ)
    (hn : (at? s1.grid nid).map Cell.costs = (at? s.grid nid).map Cell.costs) :
    edgeCost E s1 x nid = edgeCost E s x nid := by
  unfold edgeCost
  rw [ho]
  have h1 := at?_view Cell.pos hp x
  have h2 := at?_view Cell.pos hp nid
  cases ha : at? s.grid x with
  | none =>
    rw [ha] at h1
    cases ha1 : at? s1.grid x with
    | none => rfl
    | some a1 => rw [ha1] at h1; cases h1
  | some a =>
    rw [ha] at h1
    cases ha1 : at? s1.grid x with
    | none => rw [ha1] at h1; cases h1
    | some a1 =>
      rw [ha1] at h1
      simp only [Option.map_some', Option.some.injEq, Cell.pos, Prod.mk.injEq] at h1
      cases hb : at? s.grid nid with
      | none =>
        rw [hb] at h2
        cases hb1 : at? s1.grid nid with
        | none => rfl
        | some b1 => rw [hb1] at h2; cases h2
      | some b =>
        rw [hb] at h2 hn
        cases hb1 : at? s1.grid nid with
        | none => rw [hb1] at h2; cases h2
        | some b1 =>
          rw [hb1] at h2 hn
          simp only [Option.map_some', Option.some.injEq, Cell.pos, Prod.mk.injEq] at h2
          simp only [Option.map_some', Option.some.injEq, Cell.costs, Prod.mk.injEq] at hn
          simp only [Option.bind_eq_bind, Option.some_bind, pure, h1.1, h1.2.1, h2.1, h2.2.1,
            hn.1]

theorem neighbors_congr (gm : GridMap P) {c c1 : Cell K P} (h : c1.pos = c.pos) :
    neighbors gm c1 = neighbors gm c := by
  simp only [Cell.pos, Prod.mk.injEq] at h
  unfold neighbors
  rw [h.1, h.2.1]

theorem lookahead_congr (E : Env K) {s s1 : DStarLight K P} {x : ℤ} {c c1 : Cell K P}
    (hgm : s1.gridmap = s.gridmap) (ho : s1.occu_cost = s.occu_cost)
    (hp : s1.grid.map Cell.pos = s.grid.map Cell.pos)
    (hpos : c1.pos = c.pos) (hmark : c1.mark = c.mark)
    (hn : ∀ nid ∈ neighbors s.gridmap c,
      (at? s1.grid nid).map Cell.costs = (at? s.grid nid).map Cell.costs)
    (h : Lookahead E s x c) : Lookahead E s1 x c1 := by
  obtain ⟨h1, ⟨m, e, hm, he, hrhs⟩, h3⟩ := h
  have hnb : neighbors s1.gridmap c1 = neighbors s.gridmap c := by
    rw [hgm]; exact neighbors_congr _ hpos
  simp only [Cell.mark, Prod.mk.injEq] at hmark
  have hg : ∀ nid ∈ neighbors s.gridmap c, ∀ n, at? s.grid nid = some n →
      ∃ n1, at? s1.grid nid = some n1 ∧ n1.g = n.g := by
    intro nid hnid n hnn
    have := hn nid hnid
    rw [hnn] at this
    cases hn1 : at? s1.grid nid with
    | none => rw [hn1] at this; cases this
    | some n1 =>
      rw [hn1] at this
      simp only [Option.map_some', Option.some.injEq, Cell.costs, Prod.mk.injEq] at this
      exact ⟨n1, rfl, this.2⟩
  refine ⟨?_, ?_, ?_⟩
  · rw [hnb, hmark.2]; exact h1
  · obtain ⟨m1, hm1, hmg⟩ := hg _ h1 m hm
    refine ⟨m1, e, ?_, ?_, ?_⟩
    · rw [hmark.2]; exact hm1
    · rw [hmark.2, edgeCost_congr E ho hp x _ (hn _ h1)]; exact he
    · rw [hmark.1, hmg]; exact hrhs
  · intro nid hnid
    rw [hnb] at hnid
    obtain ⟨n, e1, hnn, he1, hle⟩ := h3 nid hnid
    obtain ⟨n1, hn1, hng⟩ := hg nid hnid n hnn
    refine ⟨n1, e1, hn1, ?_, ?_⟩
    · rw [edgeCost_congr E ho hp x _ (hn nid hnid)]; exact he1
    · rw [hmark.1, hng]; exact hle

theorem refreshOpen_elim (E : Env K) {s s1 : DStarLight K P} {id : ℤ}
    (h : refreshOpen E s id = some s1) :
    ∃ c c1 : Cell K P, at? s.grid id = some c ∧
      s1 = { s with grid := setAt s.grid id c1,
                    open_list := (s.open_list.eraseP fun x => decide (x.id = id))
                      ++ (if c1.rhs ≠ c1.g then [c1] else []) } ∧
      c1.pos = c.pos ∧ c1.costs = c.costs ∧ c1.mark = c.mark ∧
      (c1.rhs ≠ c1.g → heuristic E s id = some c1.h ∧
        c1.k1 = min c1.g c1.rhs + c1.h ∧ c1.k2 = min c1.g c1.rhs) := by
  unfold refreshOpen at h
  cases hc : at? s.grid id with
  | none => simp [hc] at h
  | some c =>
    simp only [hc, Option.bind_eq_bind, Option.some_bind] at h
    by_cases hne : c.rhs ≠ c.g
    · rw [if_pos hne] at h
      cases hh : heuristic E s id with
      | none => simp [hh] at h
      | some hv =>
        simp only [hh, Option.some_bind, pure, Option.some.injEq] at h
        refine ⟨c, c.setHKeys hv, rfl, ?_, rfl, rfl, rfl, fun _ => ⟨rfl, rfl, rfl⟩⟩
        rw [← h, if_pos (show (c.setHKeys hv).rhs ≠ (c.setHKeys hv).g from hne)]
    · rw [if_neg hne] at h
      simp only [pure, Option.some.injEq] at h
      refine ⟨c, c, rfl, ?_, rfl, rfl, rfl, fun h1 => absurd h1 hne⟩
      rw [← h, if_neg hne, setAt_same hc, List.append_nil]

theorem updateCell_elim (E : Env K) {s s1 : DStarLight K P} {id : ℤ}
    (h : updateCell E s id = some s1) :
    ∃ c c1 : Cell K P, at? s.grid id = some c ∧
      s1 = { s with grid := setAt s.grid id c1,
                    open_list := (s.open_list.eraseP fun x => decide (x.id = id))
                      ++ (if c1.rhs ≠ c1.g then [c1] else []) } ∧
      c1.pos = c.pos ∧ c1.costs = c.costs ∧
      (id = s.goal_id → c1.mark = c.mark) ∧
      (id ≠ s.goal_id → Lookahead E s id c1 ∧ 0 ≤ c1.parent_id) ∧
      (c1.rhs ≠ c1.g → heuristic E s id = some c1.h ∧
        c1.k1 = min c1.g c1.rhs + c1.h ∧ c1.k2 = min c1.g c1.rhs) := by
  unfold updateCell at h
  cases hr : updateRhs E s id with
  | none => simp [hr] at h
  | some s2 =>
    simp only [hr, Option.bind_eq_bind, Option.some_bind] at h
    obtain ⟨c2, c1, hc2, hs1, hpos, hcosts, hmark, hkey⟩ := refreshOpen_elim E h
    unfold updateRhs at hr
    by_cases hgoal : id ≠ s.goal_id
    · rw [if_pos hgoal] at hr
      cases hm : minNeighbor E s id false with
      | none => simp [hm] at hr
      | some min_id =>
        obtain ⟨c, ic, m, e, hc, hic, hmem, hmc, he, -, hmin⟩ :=
          minNeighbor_elim E s id false min_id hm
        simp only [hm, hmc, he, hc, Option.bind_eq_bind, Option.some_bind, pure,
          Option.some.injEq] at hr
        subst hr
        have hc2eq : c2 = { c with rhs := m.g + e, parent_id := min_id } := by
          have := at?_setAt_self ({ c with rhs := m.g + e, parent_id := min_id } : Cell K P) hc
          simp only at hc2
          rw [this] at hc2
          exact (Option.some.inj hc2).symm
        have q1 : c2.pos = c.pos := by rw [hc2eq]; rfl
        have q2 : c2.costs = c.costs := by rw [hc2eq]; rfl
        have q3 : c2.rhs = m.g + e := by rw [hc2eq]
        have q4 : c2.parent_id = min_id := by rw [hc2eq]
        have hgrid : setAt s.grid id { c with rhs := m.g + e, parent_id := min_id }
            = setAt s.grid id c2 := by rw [hc2eq]
        rw [hgrid] at hs1 hkey
        clear hgrid hc2eq hc2
        have hfst := idCosts_false_all E s id _ ic hic
        have hp2 : (setAt s.grid id c2).map Cell.pos = s.grid.map Cell.pos :=
          view_setAt Cell.pos hc q1
        simp only [Cell.mark, Prod.mk.injEq] at hmark
        rw [q3, q4] at hmark
        refine ⟨c, c1, hc, ?_, hpos.trans q1, hcosts.trans q2, fun hg => absurd hg hgoal,
          fun _ => ⟨?_, ?_⟩, ?_⟩
        · rw [hs1]
          simp only [setAt_setAt]
        · refine ⟨?_, ⟨m, e, ?_, ?_, ?_⟩, ?_⟩
          · rw [neighbors_congr _ (hpos.trans q1), hmark.2]; exact hmem
          · rw [hmark.2]; exact hmc
          · rw [hmark.2]; exact he
          · rw [hmark.1]
          · intro nid hnid
            rw [neighbors_congr _ (hpos.trans q1)] at hnid
            have hnid1 : nid ∈ neighbors s.gridmap c := hnid
            rw [← hfst] at hnid1
            obtain ⟨p, hp, rfl⟩ := List.mem_map.1 hnid1
            obtain ⟨-, n, e1, hn, he1, hcost, -⟩ := idCosts_elim E s id false _ ic hic p hp
            refine ⟨n, e1, hn, he1, ?_⟩
            rw [hmark.1, ← hcost]
            exact hmin p hp
        · rw [hmark.2]
          exact (at?_eq_some hmc).1
        · intro hne
          obtain ⟨k1, k2, k3⟩ := hkey hne
          refine ⟨?_, k2, k3⟩
          rw [← k1]
          exact (@heuristic_congr K P _ E s { s with grid := setAt s.grid id c2 } rfl hp2 id).symm
    · rw [if_neg hgoal] at hr
      simp only [pure, Option.some.injEq] at hr
      subst hr
      exact ⟨c2, c1, hc2, hs1, hpos, hcosts, fun _ => hmark, fun hg => absurd hg hgoal, hkey⟩

end Elim

end Planner

namespace Planner

open Cpp

section FrameCore

variable {K P : Type} [LinearOrderedRing K]

theorem expand_elim (E : Env K) {s s1 : DStarLight K P} (h : expand E s = some s1) :
    ∃ (min_cell : Cell K P) (rest : List (Cell K P)) (c : Cell K P) (v : K)
      (s3 : DStarLight K P),
      s.open_list = min_cell :: rest ∧ at? s.grid min_cell.id = some c ∧
      visitAll E { s with open_list := rest, curr_id := min_cell.id,
                          grid := setAt s.grid min_cell.id { c with g := v } }
        (neighbors s.gridmap min_cell) = some s3 ∧
      (s1 = s3 ∨ ∃ s4, updateCell E s3 min_cell.id = some s4 ∧
        s1 = { s4 with visited := s4.visited ++ [min_cell.id] }) := by
  unfold expand at h
  cases hol : s.open_list with
  | nil => simp [hol] at h
  | cons min_cell rest =>
    simp only [hol] at h
    cases hc : at? s.grid min_cell.id with
    | none => simp [hc] at h
    | some c =>
      simp only [hc, Option.bind_eq_bind, Option.some_bind] at h
      split at h
      · exact ⟨min_cell, rest, c, c.rhs, s1, rfl, hc, h, Or.inl rfl⟩
      · cases hv : visitAll E
            { s with open_list := rest, curr_id := min_cell.id,
                     grid := setAt s.grid min_cell.id { c with g := 1000000000000 } }
            (neighbors s.gridmap min_cell) with
        | none => simp [hv] at h
        | some s3 =>
          simp only [hv, Option.some_bind] at h
          cases hu : updateCell E s3 min_cell.id with
          | none => simp [hu] at h
          | some s4 =>
            simp only [hu, Option.some_bind, pure, Option.some.injEq] at h
            exact ⟨min_cell, rest, c, 1000000000000, s3, rfl, hc, hv, Or.inr ⟨s4, hu, h.symm⟩⟩

theorem visitAll_ind (E : Env K) (I : DStarLight K P → Prop)
    (hu : ∀ s id s1, I s → updateCell E s id = some s1 → I s1)
    (hv : ∀ s v, I s → I { s with visited := v }) :
    ∀ (l : List ℤ) (s s1 : DStarLight K P), I s → visitAll E s l = some s1 → I s1 := by
  intro l
  induction l with
  | nil => intro s s1 hI h; simp only [visitAll, Option.some.injEq] at h; exact h ▸ hI
  | cons id rest ih =>
    intro s s1 hI h
    unfold visitAll at h
    cases hc : updateCell E s id with
    | none => simp [hc] at h
    | some s2 =>
      simp only [hc, Option.bind_eq_bind, Option.some_bind] at h
      exact ih _ s1 (hv s2 _ (hu s id s2 hI hc)) h

theorem planLoop_ind (E : Env K) (I : DStarLight K P → Prop)
    (hs : ∀ s b s1, I s → planStep E s = some (b, s1) → I s1) :
    ∀ (n : ℕ) (s s1 : DStarLight K P), I s → planLoop E n s = some s1 → I s1 := by
  intro n
  induction n with
  | zero => intro s s1 _ h; simp [planLoop] at h
  | succ n ih =>
    intro s s1 hI h
    unfold planLoop at h
    cases hp : planStep E s with
    | none => simp [hp] at h
    | some r =>
      obtain ⟨b, s2⟩ := r
      simp only [hp, Option.bind_eq_bind, Option.some_bind] at h
      cases b with
      | true => exact ih s2 s1 (hs s true s2 hI hp) h
      | false =>
        simp only [Bool.false_eq_true, if_false, pure, Option.some.injEq] at h
        exact h ▸ hs s false s2 hI hp

theorem Frame.refl (s : DStarLight K P) : Frame s s := ⟨rfl, rfl, rfl, rfl, rfl, rfl⟩

theorem Frame.trans {s s1 s2 : DStarLight K P} (h1 : Frame s s1) (h2 : Frame s1 s2) :
    Frame s s2 :=
  ⟨h2.1.trans h1.1, h2.2.1.trans h1.2.1, h2.2.2.1.trans h1.2.2.1,
    h2.2.2.2.1.trans h1.2.2.2.1, h2.2.2.2.2.1.trans h1.2.2.2.2.1,
    h2.2.2.2.2.2.trans h1.2.2.2.2.2⟩

theorem updateCell_frame (E : Env K) {s s1 : DStarLight K P} {id : ℤ}
    (h : updateCell E s id = some s1) : Frame s s1 := by
  obtain ⟨c, c1, hc, hs1, hpos, -⟩ := updateCell_elim E h
  subst hs1
  exact ⟨rfl, rfl, rfl, rfl, rfl, view_setAt Cell.pos hc hpos⟩

theorem ifPlanning_frame (E : Env K) {s s1 : DStarLight K P} {b : Bool}
    (h : ifPlanning E s = some (b, s1)) : Frame s s1 := by
  obtain ⟨hv, c, top, -, hc, -, hs1, -⟩ := ifPlanning_spec h
  subst hs1
  exact ⟨rfl, rfl, rfl, rfl, rfl, view_setAt Cell.pos hc rfl⟩

theorem visitAll_frame (E : Env K) {s s1 : DStarLight K P} {l : List ℤ}
    (h : visitAll E s l = some s1) : Frame s s1 :=
  visitAll_ind E (fun x => Frame s x)
    (fun _ _ _ hI hu => hI.trans (updateCell_frame E hu))
    (fun _ _ hI => hI.trans ⟨rfl, rfl, rfl, rfl, rfl, rfl⟩) l s s1 (Frame.refl s) h

theorem expand_frame (E : Env K) {s s1 : DStarLight K P} (h : expand E s = some s1) :
    Frame s s1 := by
  obtain ⟨min_cell, rest, c, v, s3, -, hc, hv, hfin⟩ := expand_elim E h
  have h2 : Frame s { s with open_list := rest, curr_id := min_cell.id,
                             grid := setAt s.grid min_cell.id { c with g := v } } :=
    ⟨rfl, rfl, rfl, rfl, rfl, view_setAt Cell.pos hc rfl⟩
  have h3 := h2.trans (visitAll_frame E hv)
  rcases hfin with rfl | ⟨s4, hu, rfl⟩
  · exact h3
  · exact (h3.trans (updateCell_frame E hu)).trans ⟨rfl, rfl, rfl, rfl, rfl, rfl⟩

theorem planStep_frame (E : Env K) {s s1 : DStarLight K P} {b : Bool}
    (h : planStep E s = some (b, s1)) : Frame s s1 := by
  rcases planStep_spec h with ⟨-, s2, hi, he⟩ | ⟨-, hi⟩
  · exact (ifPlanning_frame E hi).trans (expand_frame E he)
  · exact ifPlanning_frame E hi

theorem planPath_frame (E : Env K) {n : ℕ} {s s1 : DStarLight K P}
    (h : planPath E n s = some s1) : Frame s s1 :=
  planLoop_ind E (fun x => Frame s x) (fun _ _ _ hI hs => hI.trans (planStep_frame E hs))
    n { s with visited := [] } s1 ⟨rfl, rfl, rfl, rfl, rfl, rfl⟩ h

end FrameCore

end Planner

namespace Planner

open Cpp

section FrameTraversal

variable {K P : Type} [LinearOrderedRing K] [FloorRing K]

theorem revealAll_elim : ∀ (ids : List ℤ) (s s1 : DStarLight K P) (l l1 : List ℤ),
    revealAll s l ids = some (s1, l1) →
    Frame s s1 ∧ s1.grid.map Cell.mark = s.grid.map Cell.mark ∧
      s1.open_list = s.open_list ∧ (∀ x ∈ l, x ∈ l1) ∧
      ∀ n, n ∉ l1 → (at? s1.grid n).map Cell.costs = (at? s.grid n).map Cell.costs := by
  intro ids
  induction ids with
  | nil =>
    intro s s1 l l1 h
    simp only [revealAll, Option.some.injEq, Prod.mk.injEq] at h
    obtain ⟨h1, h2⟩ := h
    subst h1 h2
    exact ⟨Frame.refl _, rfl, rfl, fun _ hx => hx, fun _ _ => rfl⟩
  | cons id rest ih =>
    intro s s1 l l1 h
    unfold revealAll at h
    cases hr : revealCell s l id with
    | none => simp [hr] at h
    | some r =>
      obtain ⟨s2, l2⟩ := r
      simp only [hr, Option.bind_eq_bind, Option.some_bind] at h
      obtain ⟨f2, m2, o2, sub2, c2⟩ := ih s2 s1 l2 l1 h
      unfold revealCell at hr
      cases hc : at? s.grid id with
      | none => simp [hc] at hr
      | some c =>
        simp only [hc, Option.bind_eq_bind, Option.some_bind] at hr
        split at hr
        · cases hrf : at? s.ref_grid id with
          | none => simp [hrf] at hr
          | some rc =>
            simp only [hrf, Option.some_bind, pure, Option.some.injEq, Prod.mk.injEq] at hr
            obtain ⟨e1, e2⟩ := hr
            have h0 : 0 ≤ id := (at?_eq_some hc).1
            have hF : Frame s s2 := by
              rw [← e1]
              exact ⟨rfl, rfl, rfl, rfl, rfl, view_setAt Cell.pos hc rfl⟩
            have hM : s2.grid.map Cell.mark = s.grid.map Cell.mark := by
              rw [← e1]
              exact view_setAt Cell.mark hc rfl
            have hO : s2.open_list = s.open_list := by rw [← e1]
            have hC : ∀ n, id ≠ n → at? s2.grid n = at? s.grid n := by
              intro n hne
              rw [← e1]
              exact at?_setAt_ne _ _ h0 hne
            refine ⟨hF.trans f2, m2.trans hM, o2.trans hO,
              fun x hx => sub2 x (by rw [← e2]; exact List.mem_append_left _ hx), ?_⟩
            intro n hn
            rw [c2 n hn]
            have hne : id ≠ n := by
              intro e
              apply hn
              rw [← e]
              exact sub2 id (by rw [← e2]; exact List.mem_append_right _ (List.mem_singleton_self _))
            rw [hC n hne]
        · simp only [pure, Option.some.injEq, Prod.mk.injEq] at hr
          obtain ⟨e1, e2⟩ := hr
          subst e1 e2
          exact ⟨f2, m2, o2, sub2, c2⟩

theorem simulateGridUpdate_elim {s s1 : DStarLight K P} {l1 : List ℤ}
    (h : simulateGridUpdate s = some (s1, l1)) :
    Frame s s1 ∧ s1.grid.map Cell.mark = s.grid.map Cell.mark ∧
      s1.open_list = s.open_list ∧
      ∀ n, n ∉ l1 → (at? s1.grid n).map Cell.costs = (at? s.grid n).map Cell.costs := by
  unfold simulateGridUpdate at h
  cases hc : at? s.grid s.start_id with
  | none => simp [hc] at h
  | some u =>
    simp only [hc, Option.bind_eq_bind, Option.some_bind] at h
    obtain ⟨a, b, c, -, d⟩ := revealAll_elim _ _ _ _ _ h
    exact ⟨a, b, c, d⟩

theorem updateAll_ind (E : Env K) (I : DStarLight K P → Prop)
    (hu : ∀ s id s1, I s → updateCell E s id = some s1 → I s1) :
    ∀ (l : List ℤ) (s s1 : DStarLight K P), I s → updateAll E s l = some s1 → I s1 := by
  intro l
  induction l with
  | nil => intro s s1 hI h; simp only [updateAll, Option.some.injEq] at h; exact h ▸ hI
  | cons id rest ih =>
    intro s s1 hI h
    unfold updateAll at h
    cases hc : updateCell E s id with
    | none => simp [hc] at h
    | some s2 =>
      simp only [hc, Option.bind_eq_bind, Option.some_bind] at h
      exact ih s2 s1 (hu s id s2 hI hc) h

theorem updateChanged_ind (E : Env K) (I : DStarLight K P → Prop)
    (hu : ∀ s id s1, I s → updateCell E s id = some s1 → I s1) :
    ∀ (l : List ℤ) (s s1 : DStarLight K P), I s → updateChanged E s l = some s1 → I s1 := by
  intro l
  induction l with
  | nil => intro s s1 hI h; simp only [updateChanged, Option.some.injEq] at h; exact h ▸ hI
  | cons cid rest ih =>
    intro s s1 hI h
    unfold updateChanged at h
    cases hc : at? s.grid cid with
    | none => simp [hc] at h
    | some c =>
      simp only [hc, Option.bind_eq_bind, Option.some_bind] at h
      cases hu2 : updateAll E s (neighbors s.gridmap c) with
      | none => simp [hu2] at h
      | some s2 =>
        simp only [hu2, Option.some_bind] at h
        exact ih s2 s1 (updateAll_ind E I hu _ s s2 hI hu2) h

theorem updateChanged_frame (E : Env K) {s s1 : DStarLight K P} {l : List ℤ}
    (h : updateChanged E s l = some s1) : Frame s s1 :=
  updateChanged_ind E (fun x => Frame s x)
    (fun _ _ _ hI hu => hI.trans (updateCell_frame E hu)) l s s1 (Frame.refl s) h

theorem pathTraversal_elim (E : Env K) {fuel : ℕ} {s s1 : DStarLight K P}
    (h : pathTraversal E fuel s = some s1) :
    ((s.start_id = s.goal_id ∧ s.goal_reached = false) ∧ s1 = { s with goal_reached := true }) ∨
    (¬ (s.start_id = s.goal_id ∧ s.goal_reached = false) ∧
      ∃ (sid : ℤ) (c : Cell K P) (s3 : DStarLight K P) (cell_id : List ℤ),
        minNeighbor E s s.start_id true = some sid ∧ at? s.grid sid = some c ∧
        simulateGridUpdate { s with start_id := sid, path := s.path ++ [c.p] }
          = some (s3, cell_id) ∧
        ((cell_id = [] ∧ s1 = s3) ∨
          (cell_id ≠ [] ∧ ∃ (s4 : DStarLight K P) (ol : List (Cell K P)),
            updateChanged E s3 cell_id = some s4 ∧ rekey E s4 s4.open_list = some ol ∧
            planPath E fuel { s4 with open_list := ol } = some s1))) := by
  unfold pathTraversal at h
  split at h
  · rename_i hg
    simp only [Option.some.injEq] at h
    exact Or.inl ⟨hg, h.symm⟩
  · rename_i hg
    refine Or.inr ⟨hg, ?_⟩
    cases hm : minNeighbor E s s.start_id true with
    | none => simp [hm] at h
    | some sid =>
      simp only [hm, Option.bind_eq_bind, Option.some_bind] at h
      cases hc : at? s.grid sid with
      | none => simp [hc] at h
      | some c =>
        simp only [hc, Option.some_bind] at h
        cases hs : simulateGridUpdate { s with start_id := sid, path := s.path ++ [c.p] } with
        | none => simp [hs] at h
        | some r =>
          obtain ⟨s3, cell_id⟩ := r
          simp only [hs, Option.some_bind] at h
          refine ⟨sid, c, s3, cell_id, rfl, hc, hs, ?_⟩
          split at h
          · rename_i hne
            refine Or.inr ⟨hne, ?_⟩
            cases hu : updateChanged E s3 cell_id with
            | none => simp [hu] at h
            | some s4 =>
              simp only [hu, Option.some_bind] at h
              cases hr : rekey E s4 s4.open_list with
              | none => simp [hr] at h
              | some ol =>
                simp only [hr, Option.some_bind] at h
                exact ⟨s4, ol, rfl, hr, h⟩
          · rename_i hne
            simp only [pure, Option.some.injEq] at h
            exact Or.inl ⟨not_not.1 hne, h.symm⟩

end FrameTraversal

end Planner

/-! ## The planner: the move of `pathTraversal` and the open-list keys -/

namespace Planner

open Cpp

section Move

variable {K P : Type} [LinearOrderedRing K]

theorem mem_neighbors_iff (gm : GridMap P) (cell : Cell K P) (id : ℤ) :
    id ∈ neighbors gm cell ↔
      ∃ a b : ℤ, max |a - cell.i| |b - cell.j| = 1 ∧
        (0 ≤ a ∧ a < gm.xsize ∧ 0 ≤ b ∧ b < gm.ysize) ∧ id = gm.grid2RowMajor a b := by
  rw [neighbors_eq_map_filter, List.mem_map]
  constructor
  · rintro ⟨d, hd, rfl⟩
    rw [List.mem_filter, mem_actions_iff, worldBounds_iff] at hd
    refine ⟨cell.i + d.1, cell.j + d.2, ?_, hd.2, rfl⟩
    rw [add_sub_cancel_left, add_sub_cancel_left]
    exact hd.1
  · rintro ⟨a, b, hd, hb, rfl⟩
    refine ⟨(a - cell.i, b - cell.j), ?_, ?_⟩
    · rw [List.mem_filter, mem_actions_iff, worldBounds_iff]
      refine ⟨hd, ?_⟩
      simp only [add_sub_cancel]
      exact hb
    · simp only [add_sub_cancel]

theorem self_not_mem_neighbors (gm : GridMap P) (cell : Cell K P)
    (hj : 0 ≤ cell.j ∧ cell.j < gm.ysize) :
    gm.grid2RowMajor cell.i cell.j ∉ neighbors gm cell := by
  intro hin
  obtain ⟨a, b, hd, hb, he⟩ := (mem_neighbors_iff gm cell _).1 hin
  obtain ⟨h1, h2⟩ := grid2RowMajor_inj gm hj ⟨hb.2.2.1, hb.2.2.2⟩ he
  rw [← h1, ← h2] at hd
  simp at hd

theorem neighbors_symm (gm : GridMap P) (a b : Cell K P)
    (ha : 0 ≤ a.i ∧ a.i < gm.xsize ∧ 0 ≤ a.j ∧ a.j < gm.ysize)
    (hb : 0 ≤ b.j ∧ b.j < gm.ysize)
    (h : gm.grid2RowMajor b.i b.j ∈ neighbors gm a) :
    gm.grid2RowMajor a.i a.j ∈ neighbors gm b := by
  obtain ⟨x, y, hd, hxy, he⟩ := (mem_neighbors_iff gm a _).1 h
  obtain ⟨h1, h2⟩ := grid2RowMajor_inj gm hb ⟨hxy.2.2.1, hxy.2.2.2⟩ he
  rw [mem_neighbors_iff]
  refine ⟨a.i, a.j, ?_, ha, rfl⟩
  rw [h1, h2, abs_sub_comm a.i x, abs_sub_comm a.j y]
  exact hd

theorem idCosts_total (E : Env K) (s : DStarLight K P) (id : ℤ) (b : Bool) {c : Cell K P}
    (hc : at? s.grid id = some c) :
    ∀ l : List ℤ, (∀ nid ∈ l, ∃ n, at? s.grid nid = some n) →
      ∃ ic, idCosts E s id b l = some ic := by
  intro l
  induction l with
  | nil => intro _; exact ⟨[], rfl⟩
  | cons nid rest ih =>
    intro hall
    obtain ⟨n, hn⟩ := hall nid (List.mem_cons_self _ _)
    obtain ⟨e, he⟩ := edgeCost_some E s hc hn
    obtain ⟨tl, htl⟩ := ih fun x hx => hall x (List.mem_cons_of_mem _ hx)
    rw [idCosts]
    simp only [hn, he, htl, Option.bind_eq_bind, Option.some_bind, pure]
    split
    · exact ⟨_, rfl⟩
    · split
      · exact ⟨_, rfl⟩
      · exact ⟨_, rfl⟩

theorem minNeighbor_free_total (E : Env K) (s : DStarLight K P) (id : ℤ) {c : Cell K P}
    (hc : at? s.grid id = some c)
    (hall : ∀ nid ∈ neighbors s.gridmap c, ∃ n, at? s.grid nid = some n)
    (hfree : ∃ nid ∈ neighbors s.gridmap c, ∃ n, at? s.grid nid = some n ∧
      n.state ≠ 1 ∧ n.state ≠ 2) :
    ∃ (min_id : ℤ) (m : Cell K P) (e : K),
      minNeighbor E s id true = some min_id ∧ min_id ∈ neighbors s.gridmap c ∧
      at? s.grid min_id = some m ∧ edgeCost E s id min_id = some e ∧
      m.state ≠ 1 ∧ m.state ≠ 2 ∧
      ∀ nid ∈ neighbors s.gridmap c, ∀ n e1, at? s.grid nid = some n → n.state ≠ 1 →
        n.state ≠ 2 → edgeCost E s id nid = some e1 → m.g + e ≤ n.g + e1 := by
  obtain ⟨ic, hic⟩ := idCosts_total E s id true hc _ hall
  obtain ⟨fid, hfid, fn, hfn, hf1, hf2⟩ := hfree
  have hin := idCosts_true_all E s id _ ic hic fid hfid fn hfn hf1 hf2
  have hne : ic ≠ [] := by
    intro h0
    rw [h0] at hin
    cases hin
  obtain ⟨front, hhead, hmem, hmin⟩ := sorted_cost_min ic hne
  have hrun : minNeighbor E s id true = some front.1 := by
    unfold minNeighbor
    simp only [hc, hic, hhead, Option.bind_eq_bind, Option.some_bind, pure]
  obtain ⟨c2, ic2, m, e, hc2, hic2, hmem2, hm, he, hst, hmin2⟩ :=
    minNeighbor_elim E s id true front.1 hrun
  rw [hc] at hc2
  cases hc2
  rw [hic] at hic2
  cases hic2
  refine ⟨front.1, m, e, hrun, hmem2, hm, he, (hst rfl).1, (hst rfl).2, ?_⟩
  intro nid hnid n e1 hn h1 h2 he1
  have hnin := idCosts_true_all E s id _ ic hic nid hnid n hn h1 h2
  obtain ⟨p, hp, rfl⟩ := List.mem_map.1 hnin
  obtain ⟨-, n2, e2, hn2, he2, hcost, -⟩ := idCosts_elim E s id true _ ic hic p hp
  rw [hn] at hn2
  rw [he1] at he2
  cases hn2
  cases he2
  rw [← hcost]
  exact hmin2 p hp

end Move

section MoveTraversal

variable {K P : Type} [LinearOrderedRing K] [FloorRing K]

theorem pathTraversal_start (E : Env K) {fuel : ℕ} {s s1 : DStarLight K P}
    (h : pathTraversal E fuel s = some s1)
    (hgo : ¬ (s.start_id = s.goal_id ∧ s.goal_reached = false)) :
    ∃ sid c, minNeighbor E s s.start_id true = some sid ∧ at? s.grid sid = some c ∧
      s1.start_id = sid ∧ s1.path = s.path ++ [c.p] := by
  rcases pathTraversal_elim E h with ⟨hg, -⟩ | ⟨-, sid, c, s3, cell_id, hm, hc, hsim, hfin⟩
  · exact absurd hg hgo
  · refine ⟨sid, c, hm, hc, ?_⟩
    obtain ⟨f3, -⟩ := simulateGridUpdate_elim hsim
    rcases hfin with ⟨-, rfl⟩ | ⟨-, s4, ol, hu, -, hp⟩
    · exact ⟨f3.2.2.2.1, f3.2.2.2.2.1⟩
    · have f4 := f3.trans (updateChanged_frame E hu)
      have f5 : Frame s4 { s4 with open_list := ol } := ⟨rfl, rfl, rfl, rfl, rfl, rfl⟩
      have f6 := (f4.trans f5).trans (planPath_frame E hp)
      exact ⟨f6.2.2.2.1, f6.2.2.2.2.1⟩

/-- Claim C21: let `pathTraversal` be called in a state where it does not take
the goal-reached return, the start cell `c0` lies in bounds with `start_id` as
row-major id, the in-bounds neighbour ids index grid cells and some in-bounds
neighbour of the start is neither occupied nor inflated.  Then the move
`minNeighbor(start_id, true)` returns an in-bounds neighbour `n` of the start
with state other than `1` and `2`, different from the old start, whose
`g(n) + edgeCost(start, n)` is least among the in-bounds neighbours that are
neither occupied nor inflated; and whenever `pathTraversal` returns, the new
`start_id` is `n` and the world point of `n` has been appended to the path. -/
theorem pathTraversal_moves_to_min_free_neighbor (E : Env K) (s : DStarLight K P)
    (c0 : Cell K P) (hc0 : at? s.grid s.start_id = some c0)
    (hid : s.gridmap.grid2RowMajor c0.i c0.j = s.start_id)
    (hj : 0 ≤ c0.j ∧ c0.j < s.gridmap.ysize)
    (hall : ∀ nid ∈ neighbors s.gridmap c0, ∃ n, at? s.grid nid = some n)
    (hfree : ∃ nid ∈ neighbors s.gridmap c0, ∃ n, at? s.grid nid = some n ∧
      n.state ≠ 1 ∧ n.state ≠ 2)
    (hgo : ¬ (s.start_id = s.goal_id ∧ s.goal_reached = false)) :
    ∃ (n : ℤ) (cn : Cell K P) (e : K),
      minNeighbor E s s.start_id true = some n ∧ n ∈ neighbors s.gridmap c0 ∧
      at? s.grid n = some cn ∧ cn.state ≠ 1 ∧ cn.state ≠ 2 ∧ n ≠ s.start_id ∧
      edgeCost E s s.start_id n = some e ∧
      (∀ nid ∈ neighbors s.gridmap c0, ∀ m e1, at? s.grid nid = some m → m.state ≠ 1 →
        m.state ≠ 2 → edgeCost E s s.start_id nid = some e1 → cn.g + e ≤ m.g + e1) ∧
      ∀ fuel s1, pathTraversal E fuel s = some s1 →
        s1.start_id = n ∧ s1.path = s.path ++ [cn.p] := by
  obtain ⟨n, cn, e, hmin, hmem, hcn, he, h1, h2, hleast⟩ :=
    minNeighbor_free_total E s s.start_id hc0 hall hfree
  refine ⟨n, cn, e, hmin, hmem, hcn, h1, h2, ?_, he, hleast, ?_⟩
  · intro heq
    rw [heq, ← hid] at hmem
    exact self_not_mem_neighbors s.gridmap c0 hj hmem
  · intro fuel s1 h
    obtain ⟨sid, c, hm, hc, hs, hp⟩ := pathTraversal_start E h hgo
    rw [hmin] at hm
    cases hm
    rw [hcn] at hc
    cases hc
    exact ⟨hs, hp⟩

end MoveTraversal

end Planner

namespace Planner

open Cpp

section Keys

variable {K P : Type} [LinearOrderedRing K]

theorem idsIndex_pos {s s1 : DStarLight K P} (hI : IdsIndex s)
    (hp : s1.grid.map Cell.pos = s.grid.map Cell.pos) : IdsIndex s1 := by
  intro n c1 hc1
  obtain ⟨c, hc, hpos⟩ := view_some Cell.pos hp hc1
  simp only [Cell.pos, Prod.mk.injEq] at hpos
  rw [← hpos.2.2]
  exact hI n c hc

theorem idsIndex_frame {s s1 : DStarLight K P} (hI : IdsIndex s) (hF : Frame s s1) :
    IdsIndex s1 := idsIndex_pos hI hF.2.2.2.2.2

theorem idsIndex_of_inv {s : DStarLight K P} (hI : Inv s) : IdsIndex s := by
  intro n c hc
  exact hI.1 n (core c) (by rw [at?_map, hc]; rfl)

theorem keyInv_frame (E : Env K) {s s1 : DStarLight K P} (hF : Frame s s1)
    (hK : ∀ c ∈ s1.open_list, heuristic E s c.id = some c.h ∧
      c.k1 = min c.g c.rhs + c.h ∧ c.k2 = min c.g c.rhs) : KeyInv E s1 := by
  intro c hc
  obtain ⟨h1, h2, h3⟩ := hK c hc
  exact ⟨by rw [heuristic_congr E hF.2.2.2.1 hF.2.2.2.2.2]; exact h1, h2, h3⟩

theorem updateCell_keyInv (E : Env K) {s s1 : DStarLight K P} {id : ℤ}
    (hK : KeyInv E s) (hI : IdsIndex s) (h : updateCell E s id = some s1) : KeyInv E s1 := by
  have hF := updateCell_frame E h
  obtain ⟨c, c1, hc, hs1, hpos, -, -, -, hkey⟩ := updateCell_elim E h
  apply keyInv_frame E hF
  intro x hx
  rw [hs1] at hx
  rcases List.mem_append.1 hx with hx | hx
  · exact hK x (List.mem_of_mem_eraseP hx)
  · split_ifs at hx with hne
    · rw [List.mem_singleton] at hx
      subst hx
      obtain ⟨k1, k2, k3⟩ := hkey hne
      simp only [Cell.pos, Prod.mk.injEq] at hpos
      have hcid : x.id = id := hpos.2.2.trans (hI id c hc)
      exact ⟨by rw [hcid]; exact k1, k2, k3⟩
    · cases hx

theorem ifPlanning_keyInv (E : Env K) {s s1 : DStarLight K P} {b : Bool}
    (hK : KeyInv E s) (h : ifPlanning E s = some (b, s1)) : KeyInv E s1 := by
  have hF := ifPlanning_frame E h
  obtain ⟨hv, c, top, -, hc, -, hs1, -⟩ := ifPlanning_spec h
  apply keyInv_frame E hF
  intro x hx
  rw [hs1] at hx
  exact hK x ((List.perm_insertionSort keyLE _).mem_iff.1 hx)

theorem expand_keyInv (E : Env K) {s s1 : DStarLight K P}
    (hK : KeyInv E s) (hI : IdsIndex s) (h : expand E s = some s1) : KeyInv E s1 := by
  obtain ⟨min_cell, rest, c, v, s3, hol, hc, hv, hfin⟩ := expand_elim E h
  have hF2 : Frame s { s with open_list := rest, curr_id := min_cell.id,
                              grid := setAt s.grid min_cell.id { c with g := v } } :=
    ⟨rfl, rfl, rfl, rfl, rfl, view_setAt Cell.pos hc rfl⟩
  have hK2 : KeyInv E { s with open_list := rest, curr_id := min_cell.id,
                               grid := setAt s.grid min_cell.id { c with g := v } } := by
    apply keyInv_frame E hF2
    intro x hx
    exact hK x (by rw [hol]; exact List.mem_cons_of_mem _ hx)
  have h3 := visitAll_ind E (fun x => KeyInv E x ∧ IdsIndex x)
    (fun a id b hab hu => ⟨updateCell_keyInv E hab.1 hab.2 hu,
      idsIndex_frame hab.2 (updateCell_frame E hu)⟩)
    (fun a v hab => ⟨hab.1, hab.2⟩) _ _ s3 ⟨hK2, idsIndex_frame hI hF2⟩ hv
  rcases hfin with rfl | ⟨s4, hu, rfl⟩
  · exact h3.1
  · have h4 : KeyInv E s4 := updateCell_keyInv E h3.1 h3.2 hu
    exact h4

theorem planStep_keyInv (E : Env K) {s s1 : DStarLight K P} {b : Bool}
    (hK : KeyInv E s ∧ IdsIndex s) (h : planStep E s = some (b, s1)) :
    KeyInv E s1 ∧ IdsIndex s1 := by
  refine ⟨?_, idsIndex_frame hK.2 (planStep_frame E h)⟩
  rcases planStep_spec h with ⟨-, s2, hi, he⟩ | ⟨-, hi⟩
  · exact expand_keyInv E (ifPlanning_keyInv E hK.1 hi)
      (idsIndex_frame hK.2 (ifPlanning_frame E hi)) he
  · exact ifPlanning_keyInv E hK.1 hi

theorem planPath_keyInv (E : Env K) {n : ℕ} {s s1 : DStarLight K P}
    (hK : KeyInv E s) (hI : IdsIndex s) (h : planPath E n s = some s1) : KeyInv E s1 :=
  (planLoop_ind E (fun x => KeyInv E x ∧ IdsIndex x)
    (fun _ _ _ hab hs => planStep_keyInv E hab hs) n { s with visited := [] } s1
    ⟨hK, hI⟩ h).1

theorem rekey_keyInv (E : Env K) (s : DStarLight K P) :
    ∀ (ol ol1 : List (Cell K P)), rekey E s ol = some ol1 →
      ∀ c ∈ ol1, heuristic E s c.id = some c.h ∧
        c.k1 = min c.g c.rhs + c.h ∧ c.k2 = min c.g c.rhs := by
  intro ol
  induction ol with
  | nil =>
    intro ol1 h c hc
    simp only [rekey, Option.some.injEq] at h
    subst h
    cases hc
  | cons x rest ih =>
    intro ol1 h c hc
    unfold rekey at h
    cases hh : heuristic E s x.id with
    | none => simp [hh] at h
    | some hv =>
      cases hr : rekey E s rest with
      | none => simp [hh, hr] at h
      | some tl =>
        simp only [hh, hr, Option.bind_eq_bind, Option.some_bind, pure, Option.some.injEq] at h
        subst h
        rcases List.mem_cons.1 hc with rfl | hc
        · exact ⟨hh, rfl, rfl⟩
        · exact ih tl hr c hc

end Keys

section KeysTraversal

variable {K P : Type} [LinearOrderedRing K] [FloorRing K]

/-- Claim C22, amended: when `pathTraversal` is called in a reachable state,
does not take the goal-reached return, and its move reveals at least one
previously unobserved cell (`moveAndReveal` returns a non-empty list), then on
return the start is the moved one and every cell stored in the open list has
`h` equal to `heuristic` of its id for the new start and the key
`(min(g, rhs) + h, min(g, rhs))` computed from that `h`. -/
theorem pathTraversal_rekeys_after_reveal (E : Env K) (fuel : ℕ) (s s1 s3 : DStarLight K P)
    (cell_id : List ℤ) (hR : Reachable E s)
    (hgo : ¬ (s.start_id = s.goal_id ∧ s.goal_reached = false))
    (hmove : moveAndReveal E s = some (s3, cell_id)) (hrev : cell_id ≠ [])
    (h : pathTraversal E fuel s = some s1) :
    s1.start_id = s3.start_id ∧ KeyInv E s1 := by
  have hI := idsIndex_of_inv (reachable_inv hR)
  rcases pathTraversal_elim E h with ⟨hg, -⟩ | ⟨-, sid, c, s3a, cell_ida, hm, hc, hsim, hfin⟩
  · exact absurd hg hgo
  · have hmv : moveAndReveal E s = some (s3a, cell_ida) := by
      unfold moveAndReveal
      simp only [hm, hc, Option.bind_eq_bind, Option.some_bind]
      exact hsim
    rw [hmove] at hmv
    simp only [Option.some.injEq, Prod.mk.injEq] at hmv
    obtain ⟨e1, e2⟩ := hmv
    rw [e1]
    rw [e2] at hrev
    obtain ⟨f3, -⟩ := simulateGridUpdate_elim hsim
    rcases hfin with ⟨he, -⟩ | ⟨-, s4, ol, hu, hr, hp⟩
    · exact absurd he hrev
    · have hI3 : IdsIndex s3a := idsIndex_pos (s := s) hI f3.2.2.2.2.2
      have f4 := updateChanged_frame E hu
      have hI4 := idsIndex_frame hI3 f4
      have hK5 : KeyInv E { s4 with open_list := ol } := rekey_keyInv E s4 _ ol hr
      have f6 := planPath_frame E hp
      exact ⟨f6.2.2.2.1.trans f4.2.2.2.1, planPath_keyInv E hK5 hI4 hp⟩

end KeysTraversal

end Planner

/-! ## The planner: the one-step lookahead invariant -/

namespace Planner

open Cpp

section Look

variable {K P : Type} [LinearOrderedRing K]

theorem lookaheadExcept_mono (E : Env K) {s : DStarLight K P} {B B1 : ℤ → Prop}
    (hB : ∀ x, B x → B1 x) (h : LookaheadExcept E s B) : LookaheadExcept E s B1 :=
  fun x c hc hg hp hn => h x c hc hg hp fun hb => hn (hB x hb)

theorem lookaheadInv_of_except (E : Env K) {s : DStarLight K P} {B : ℤ → Prop}
    (hB : ∀ x, ¬ B x) (h : LookaheadExcept E s B) : LookaheadInv E s :=
  fun x c hc hg hp => h x c hc hg hp (hB x)

theorem lookaheadExcept_of_inv (E : Env K) {s : DStarLight K P} (h : LookaheadInv E s)
    (B : ℤ → Prop) : LookaheadExcept E s B :=
  fun x c hc hg hp _ => h x c hc hg hp

/-- A change of the grid that keeps indices, ids, `rhs` and parents of all cells
and alters states or `g` only at the ids in `D` keeps the lookahead of every cell
none of whose in-bounds neighbours lies in `D`. -/
theorem lookaheadExcept_change (E : Env K) {s s1 : DStarLight K P}
    (hgm : s1.gridmap = s.gridmap) (ho : s1.occu_cost = s.occu_cost)
    (hgoal : s1.goal_id = s.goal_id)
    (hp : s1.grid.map Cell.pos = s.grid.map Cell.pos)
    (hm : s1.grid.map Cell.mark = s.grid.map Cell.mark) (D : ℤ → Prop)
    (hc : ∀ n, ¬ D n → (at? s1.grid n).map Cell.costs = (at? s.grid n).map Cell.costs)
    {B : ℤ → Prop} (h : LookaheadExcept E s B) :
    LookaheadExcept E s1
      (fun x => B x ∨ ∃ cx, at? s.grid x = some cx ∧ ∃ nid ∈ neighbors s.gridmap cx, D nid) := by
  intro x c1 hc1 hxg hpar hnB
  obtain ⟨c, hcs, hpos⟩ := view_some Cell.pos hp hc1
  obtain ⟨c2, hcs2, hmark⟩ := view_some Cell.mark hm hc1
  rw [hcs] at hcs2
  cases hcs2
  have hnB1 : ¬ B x := fun hb => hnB (Or.inl hb)
  have hnD : ∀ nid ∈ neighbors s.gridmap c, ¬ D nid :=
    fun nid hnid hd => hnB (Or.inr ⟨c, hcs, nid, hnid, hd⟩)
  have hpar1 : c.parent_id ≠ -1 := by
    simp only [Cell.mark, Prod.mk.injEq] at hmark
    rw [hmark.2]; exact hpar
  have hl := h x c hcs (by rw [← hgoal]; exact hxg) hpar1 hnB1
  exact lookahead_congr E hgm ho hp hpos.symm hmark.symm (fun nid hnid => hc nid (hnD nid hnid)) hl

theorem updateCell_lookahead (E : Env K) {s s1 : DStarLight K P} {id : ℤ} {B : ℤ → Prop}
    (hL : LookaheadExcept E s B) (h : updateCell E s id = some s1) :
    LookaheadExcept E s1 (fun x => B x ∧ x ≠ id) := by
  obtain ⟨c, c1, hc, hs1, hpos, hcosts, -, hlook, -⟩ := updateCell_elim E h
  have hF := updateCell_frame E h
  have h0 : 0 ≤ id := (at?_eq_some hc).1
  have hgrid : s1.grid = setAt s.grid id c1 := by rw [hs1]
  have hcv : s1.grid.map Cell.costs = s.grid.map Cell.costs := by
    rw [hgrid]; exact view_setAt Cell.costs hc hcosts
  intro x cx hcx hxg hpar hnB
  rw [hgrid] at hcx
  by_cases hx : x = id
  · subst hx
    rw [at?_setAt_self _ hc] at hcx
    cases hcx
    have hl := (hlook (by rw [← hF.2.2.1]; exact hxg)).1
    exact lookahead_congr E hF.1 hF.2.1 hF.2.2.2.2.2 rfl rfl
      (fun nid _ => at?_view Cell.costs hcv nid) hl
  · rw [at?_setAt_ne _ _ h0 (Ne.symm hx)] at hcx
    have hl := hL x cx hcx (by rw [← hF.2.2.1]; exact hxg) hpar
      (fun hb => hnB ⟨hb, hx⟩)
    exact lookahead_congr E hF.1 hF.2.1 hF.2.2.2.2.2 rfl rfl
      (fun nid _ => at?_view Cell.costs hcv nid) hl

theorem visitAll_lookahead (E : Env K) :
    ∀ (l : List ℤ) (s s1 : DStarLight K P) (B : ℤ → Prop), LookaheadExcept E s B →
      visitAll E s l = some s1 → LookaheadExcept E s1 (fun x => B x ∧ x ∉ l) := by
  intro l
  induction l with
  | nil =>
    intro s s1 B hL h
    simp only [visitAll, Option.some.injEq] at h
    subst h
    exact lookaheadExcept_mono E (fun x hb => ⟨hb, List.not_mem_nil x⟩) hL
  | cons id rest ih =>
    intro s s1 B hL h
    unfold visitAll at h
    cases hc : updateCell E s id with
    | none => simp [hc] at h
    | some s2 =>
      simp only [hc, Option.bind_eq_bind, Option.some_bind] at h
      have h2 : LookaheadExcept E s2 (fun x => B x ∧ x ≠ id) := updateCell_lookahead E hL hc
      have h3 := ih { s2 with visited := s2.visited ++ [id] } s1 _ h2 h
      refine lookaheadExcept_mono E ?_ h3
      intro x hb
      exact ⟨hb.1.1, fun hm => (List.mem_cons.1 hm).elim hb.1.2 hb.2⟩

theorem shape_frame {s s1 : DStarLight K P} (hS : Shape s) (hgm : s1.gridmap = s.gridmap)
    (hp : s1.grid.map Cell.pos = s.grid.map Cell.pos) : Shape s1 := by
  intro n c1 hc1
  obtain ⟨c, hc, hpos⟩ := view_some Cell.pos hp hc1
  simp only [Cell.pos, Prod.mk.injEq] at hpos
  rw [hgm, ← hpos.1, ← hpos.2.1, ← hpos.2.2]
  exact hS n c hc

theorem openGeo_frame {s s1 : DStarLight K P}
    (hp : s1.grid.map Cell.pos = s.grid.map Cell.pos)
    (h : ∀ c ∈ s1.open_list, at? (s.grid.map Cell.pos) c.id = some c.pos) : OpenGeo s1 := by
  intro c hc
  rw [hp]
  exact h c hc

theorem updateCell_geo (E : Env K) {s s1 : DStarLight K P} {id : ℤ}
    (hG : Shape s ∧ OpenGeo s) (h : updateCell E s id = some s1) : Shape s1 ∧ OpenGeo s1 := by
  have hF := updateCell_frame E h
  refine ⟨shape_frame hG.1 hF.1 hF.2.2.2.2.2, openGeo_frame hF.2.2.2.2.2 ?_⟩
  obtain ⟨c, c1, hc, hs1, hpos, -⟩ := updateCell_elim E h
  intro x hx
  rw [hs1] at hx
  rcases List.mem_append.1 hx with hx | hx
  · exact hG.2 x (List.mem_of_mem_eraseP hx)
  · split_ifs at hx with hne
    · rw [List.mem_singleton] at hx
      subst hx
      have hcid : c.id = id := (hG.1 id c hc).1
      have hxid : x.id = id := by
        have := congrArg (fun p => p.2.2) hpos
        exact this.trans hcid
      rw [hxid, at?_map, hc, hpos]
      rfl
    · cases hx

theorem ifPlanning_geo (E : Env K) {s s1 : DStarLight K P} {b : Bool}
    (hG : Shape s ∧ OpenGeo s) (h : ifPlanning E s = some (b, s1)) : Shape s1 ∧ OpenGeo s1 := by
  have hF := ifPlanning_frame E h
  refine ⟨shape_frame hG.1 hF.1 hF.2.2.2.2.2, openGeo_frame hF.2.2.2.2.2 ?_⟩
  obtain ⟨hv, c, top, -, hc, -, hs1, -⟩ := ifPlanning_spec h
  intro x hx
  rw [hs1] at hx
  exact hG.2 x ((List.perm_insertionSort keyLE _).mem_iff.1 hx)

theorem expand_geo (E : Env K) {s s1 : DStarLight K P}
    (hG : Shape s ∧ OpenGeo s) (h : expand E s = some s1) : Shape s1 ∧ OpenGeo s1 := by
  obtain ⟨min_cell, rest, c, v, s3, hol, hc, hv, hfin⟩ := expand_elim E h
  have hp2 : (setAt s.grid min_cell.id ({ c with g := v } : Cell K P)).map Cell.pos
      = s.grid.map Cell.pos := view_setAt Cell.pos hc rfl
  have hG2 : Shape { s with open_list := rest, curr_id := min_cell.id,
                            grid := setAt s.grid min_cell.id { c with g := v } } ∧
      OpenGeo { s with open_list := rest, curr_id := min_cell.id,
                       grid := setAt s.grid min_cell.id { c with g := v } } := by
    refine ⟨shape_frame hG.1 rfl hp2, openGeo_frame hp2 ?_⟩
    intro x hx
    exact hG.2 x (by rw [hol]; exact List.mem_cons_of_mem _ hx)
  have h3 := visitAll_ind E (fun x => Shape x ∧ OpenGeo x)
    (fun a id b hab hu => updateCell_geo E hab hu)
    (fun a v hab => ⟨hab.1, hab.2⟩) _ _ s3 hG2 hv
  rcases hfin with rfl | ⟨s4, hu, rfl⟩
  · exact h3
  · have h4 := updateCell_geo E h3 hu
    exact ⟨h4.1, h4.2⟩

theorem ifPlanning_lookahead (E : Env K) {s s1 : DStarLight K P} {b : Bool}
    (hL : LookaheadInv E s) (h : ifPlanning E s = some (b, s1)) : LookaheadInv E s1 := by
  have hF := ifPlanning_frame E h
  obtain ⟨hv, c, top, -, hc, -, hs1, -⟩ := ifPlanning_spec h
  have hgrid : s1.grid = setAt s.grid s.start_id (c.setHKeys hv) := by rw [hs1]
  have hm : s1.grid.map Cell.mark = s.grid.map Cell.mark := by
    rw [hgrid]; exact view_setAt Cell.mark hc rfl
  have hcv : s1.grid.map Cell.costs = s.grid.map Cell.costs := by
    rw [hgrid]; exact view_setAt Cell.costs hc rfl
  have := lookaheadExcept_change E hF.1 hF.2.1 hF.2.2.1 hF.2.2.2.2.2 hm (fun _ => False)
    (fun n _ => at?_view Cell.costs hcv n) (lookaheadExcept_of_inv E hL fun _ => False)
  refine lookaheadInv_of_except E ?_ this
  rintro x (hb | ⟨_, _, _, _, hd⟩)
  · exact hb
  · exact hd

theorem expand_lookahead (E : Env K) {s s1 : DStarLight K P}
    (hG : Shape s ∧ OpenGeo s) (hL : LookaheadInv E s) (h : expand E s = some s1) :
    LookaheadInv E s1 := by
  obtain ⟨min_cell, rest, c, v, s3, hol, hc, hv, hfin⟩ := expand_elim E h
  have h0 : 0 ≤ min_cell.id := (at?_eq_some hc).1
  have hp2 : (setAt s.grid min_cell.id ({ c with g := v } : Cell K P)).map Cell.pos
      = s.grid.map Cell.pos := view_setAt Cell.pos hc rfl
  have hm2 : (setAt s.grid min_cell.id ({ c with g := v } : Cell K P)).map Cell.mark
      = s.grid.map Cell.mark := view_setAt Cell.mark hc rfl
  have hL2 : LookaheadExcept E
      { s with open_list := rest, curr_id := min_cell.id,
               grid := setAt s.grid min_cell.id { c with g := v } }
      (fun x => False ∨ ∃ cx, at? s.grid x = some cx ∧
        ∃ nid ∈ neighbors s.gridmap cx, nid = min_cell.id) :=
    @lookaheadExcept_change K P _ E s
      { s with open_list := rest, curr_id := min_cell.id,
               grid := setAt s.grid min_cell.id { c with g := v } }
      rfl rfl rfl hp2 hm2 (fun n => n = min_cell.id)
      (fun n hn => by
        show (at? (setAt s.grid min_cell.id _) n).map Cell.costs = _
        rw [at?_setAt_ne _ _ h0 (Ne.symm hn)])
      _ (lookaheadExcept_of_inv E hL fun _ => False)
  have hL3 := visitAll_lookahead E _ _ s3 _ hL2 hv
  have hcpos : c.pos = min_cell.pos := by
    have := hG.2 min_cell (by rw [hol]; exact List.mem_cons_self _ _)
    rw [at?_map, hc] at this
    exact Option.some.inj this
  simp only [Cell.pos, Prod.mk.injEq] at hcpos
  obtain ⟨-, hcrm, hci0, hci1, hcj0, hcj1⟩ := hG.1 min_cell.id c hc
  rw [hcpos.1, hcpos.2.1] at hcrm
  rw [hcpos.1] at hci0 hci1
  rw [hcpos.2.1] at hcj0 hcj1
  have hI3 : LookaheadInv E s3 := by
    refine lookaheadInv_of_except E ?_ hL3
    rintro x ⟨hb | ⟨cx, hcx, nid, hnid, rfl⟩, hnot⟩
    · exact hb
    · apply hnot
      obtain ⟨-, hxrm, hxi0, hxi1, hxj0, hxj1⟩ := hG.1 x cx hcx
      have := neighbors_symm s.gridmap cx min_cell ⟨hxi0, hxi1, hxj0, hxj1⟩ ⟨hcj0, hcj1⟩
        (by rw [hcrm]; exact hnid)
      rw [hxrm] at this
      exact this
  rcases hfin with rfl | ⟨s4, hu, rfl⟩
  · exact hI3
  · have h4 := updateCell_lookahead E (lookaheadExcept_of_inv E hI3 fun _ => False) hu
    have h5 : LookaheadInv E s4 := lookaheadInv_of_except E (fun x hb => hb.1) h4
    exact h5

theorem planStep_sound (E : Env K) {s s1 : DStarLight K P} {b : Bool}
    (hS : Sound E s) (h : planStep E s = some (b, s1)) : Sound E s1 := by
  obtain ⟨h1, h2, h3⟩ := hS
  rcases planStep_spec h with ⟨-, s2, hi, he⟩ | ⟨-, hi⟩
  · have g2 := ifPlanning_geo E ⟨h1, h2⟩ hi
    have l2 := ifPlanning_lookahead E h3 hi
    have g3 := expand_geo E g2 he
    exact ⟨g3.1, g3.2, expand_lookahead E g2 l2 he⟩
  · have g2 := ifPlanning_geo E ⟨h1, h2⟩ hi
    exact ⟨g2.1, g2.2, ifPlanning_lookahead E h3 hi⟩

theorem planPath_sound (E : Env K) {n : ℕ} {s s1 : DStarLight K P}
    (hS : Sound E s) (h : planPath E n s = some s1) : Sound E s1 :=
  planLoop_ind E (fun x => Sound E x) (fun _ _ _ hab hs => planStep_sound E hab hs) n
    { s with visited := [] } s1 ⟨hS.1, hS.2.1, hS.2.2⟩ h

end Look

end Planner

namespace Planner

open Cpp

section LookInit

variable {K P : Type} [LinearOrderedRing K]

theorem initPath_elim (E : Env K) {s0 s : DStarLight K P} {start goal : P}
    (h : initPath E s0 start goal = some s) :
    ∃ (gid : ℤ) (c c1 : Cell K P), at? s0.grid gid = some c ∧
      s.grid = setAt s0.grid gid c1 ∧ s.open_list = s0.open_list ++ [c1] ∧
      s.gridmap = s0.gridmap ∧ s.goal_id = gid ∧
      c1.pos = c.pos ∧ c1.parent_id = c.parent_id := by
  unfold initPath at h
  simp only [Option.bind_eq_bind] at h
  generalize hgid : s0.gridmap.grid2RowMajor (s0.gridmap.world2Grid goal).1
    (s0.gridmap.world2Grid goal).2 = gid at h
  cases hc : at? s0.grid gid with
  | none => simp [hc] at h
  | some c =>
    simp only [hc, Option.some_bind] at h
    cases hh : heuristic E
        ({ s0 with start_id := s0.gridmap.grid2RowMajor (s0.gridmap.world2Grid start).1
                     (s0.gridmap.world2Grid start).2,
                   goal_id := gid, grid := setAt s0.grid gid { c with rhs := 0 } } : DStarLight K P)
        (s0.gridmap.grid2RowMajor (s0.gridmap.world2Grid start).1
          (s0.gridmap.world2Grid start).2) with
    | none => simp [hh] at h
    | some hv =>
      simp only [hh, Option.some_bind, at?_setAt_self _ hc, pure, Option.some.injEq] at h
      subst h
      refine ⟨gid, c, ({ c with rhs := 0 } : Cell K P).setHKeys hv, hc, ?_, rfl, rfl, rfl, rfl,
        rfl⟩
      simp only [setAt_setAt]

theorem initPath_sound (E : Env K) {s0 s : DStarLight K P} {start goal : P}
    (hF : FreshShape s0) (h : initPath E s0 start goal = some s) : Sound E s := by
  obtain ⟨hO, hS, hU⟩ := hF
  obtain ⟨gid, c, c1, hc, hgrid, hopen, hgm, -, hpos, hpar⟩ := initPath_elim E h
  have hp : s.grid.map Cell.pos = s0.grid.map Cell.pos := by
    rw [hgrid]; exact view_setAt Cell.pos hc hpos
  have h0 : 0 ≤ gid := (at?_eq_some hc).1
  refine ⟨shape_frame hS hgm hp, openGeo_frame hp ?_, ?_⟩
  · intro x hx
    rw [hopen, hO, List.nil_append, List.mem_singleton] at hx
    subst hx
    have hxid : x.id = gid := by
      have := congrArg (fun p => p.2.2) hpos
      exact this.trans (hS gid c hc).1
    rw [hxid, at?_map, hc, hpos]
    rfl
  · intro x cx hcx _ hparx
    exfalso
    apply hparx
    rw [hgrid] at hcx
    by_cases hx : x = gid
    · subst hx
      rw [at?_setAt_self _ hc] at hcx
      cases hcx
      rw [hpar]
      exact hU x c hc
    · rw [at?_setAt_ne _ _ h0 (Ne.symm hx)] at hcx
      exact hU x cx hcx

end LookInit

section LookTraversal

variable {K P : Type} [LinearOrderedRing K] [FloorRing K]

theorem updateAll_lookahead (E : Env K) :
    ∀ (l : List ℤ) (s s1 : DStarLight K P) (B : ℤ → Prop), LookaheadExcept E s B →
      updateAll E s l = some s1 → LookaheadExcept E s1 (fun x => B x ∧ x ∉ l) := by
  intro l
  induction l with
  | nil =>
    intro s s1 B hL h
    simp only [updateAll, Option.some.injEq] at h
    subst h
    exact lookaheadExcept_mono E (fun x hb => ⟨hb, List.not_mem_nil x⟩) hL
  | cons id rest ih =>
    intro s s1 B hL h
    unfold updateAll at h
    cases hc : updateCell E s id with
    | none => simp [hc] at h
    | some s2 =>
      simp only [hc, Option.bind_eq_bind, Option.some_bind] at h
      have h2 : LookaheadExcept E s2 (fun x => B x ∧ x ≠ id) := updateCell_lookahead E hL hc
      have h3 := ih s2 s1 _ h2 h
      refine lookaheadExcept_mono E ?_ h3
      intro x hb
      exact ⟨hb.1.1, fun hm => (List.mem_cons.1 hm).elim hb.1.2 hb.2⟩

theorem updateAll_frame (E : Env K) {s s1 : DStarLight K P} {l : List ℤ}
    (h : updateAll E s l = some s1) : Frame s s1 :=
  updateAll_ind E (fun x => Frame s x)
    (fun _ _ _ hI hu => hI.trans (updateCell_frame E hu)) l s s1 (Frame.refl s) h

theorem updateChanged_lookahead (E : Env K) :
    ∀ (l : List ℤ) (s s1 : DStarLight K P) (B : ℤ → Prop), LookaheadExcept E s B →
      updateChanged E s l = some s1 →
      LookaheadExcept E s1
        (fun x => B x ∧ ¬ ∃ cid ∈ l, ∃ c, at? s.grid cid = some c ∧ x ∈ neighbors s.gridmap c) ∧
      ∀ cid ∈ l, ∃ c, at? s.grid cid = some c := by
  intro l
  induction l with
  | nil =>
    intro s s1 B hL h
    simp only [updateChanged, Option.some.injEq] at h
    subst h
    refine ⟨lookaheadExcept_mono E (fun x hb => ⟨hb, ?_⟩) hL, fun _ hc => absurd hc
      (List.not_mem_nil _)⟩
    rintro ⟨cid, hcid, -⟩
    cases hcid
  | cons cid rest ih =>
    intro s s1 B hL h
    unfold updateChanged at h
    cases hc : at? s.grid cid with
    | none => simp [hc] at h
    | some c =>
      simp only [hc, Option.bind_eq_bind, Option.some_bind] at h
      cases hu : updateAll E s (neighbors s.gridmap c) with
      | none => simp [hu] at h
      | some s2 =>
        simp only [hu, Option.some_bind] at h
        have hF := updateAll_frame E hu
        have h2 := updateAll_lookahead E _ s s2 B hL hu
        obtain ⟨h3, h4⟩ := ih s2 s1 _ h2 h
        have hback : ∀ cid0 c0, at? s.grid cid0 = some c0 →
            ∃ c2, at? s2.grid cid0 = some c2 ∧ neighbors s2.gridmap c2 = neighbors s.gridmap c0 := by
          intro cid0 c0 hc0
          obtain ⟨c2, hc2, hpos⟩ := view_some Cell.pos hF.2.2.2.2.2.symm hc0
          exact ⟨c2, hc2, by rw [hF.1]; exact neighbors_congr _ hpos⟩
        constructor
        · refine lookaheadExcept_mono E ?_ h3
          rintro x ⟨⟨hb, hnc⟩, hnr⟩
          refine ⟨hb, ?_⟩
          rintro ⟨cid0, hcid0, c0, hc0, hx0⟩
          rcases List.mem_cons.1 hcid0 with rfl | hr
          · rw [hc] at hc0
            cases hc0
            exact hnc hx0
          · obtain ⟨c2, hc2, hnb⟩ := hback cid0 c0 hc0
            exact hnr ⟨cid0, hr, c2, hc2, by rw [hnb]; exact hx0⟩
        · intro cid0 hcid0
          rcases List.mem_cons.1 hcid0 with rfl | hr
          · exact ⟨c, hc⟩
          · obtain ⟨c2, hc2⟩ := h4 cid0 hr
            obtain ⟨c0, hc0, -⟩ := view_some Cell.pos hF.2.2.2.2.2 hc2
            exact ⟨c0, hc0⟩

theorem updateChanged_geo (E : Env K) {s s1 : DStarLight K P} {l : List ℤ}
    (hG : Shape s ∧ OpenGeo s) (h : updateChanged E s l = some s1) : Shape s1 ∧ OpenGeo s1 :=
  updateChanged_ind E (fun x => Shape x ∧ OpenGeo x)
    (fun _ _ _ hab hu => updateCell_geo E hab hu) l s s1 hG h

theorem rekey_pos (E : Env K) (s : DStarLight K P) :
    ∀ (ol ol1 : List (Cell K P)), rekey E s ol = some ol1 →
      ∀ c ∈ ol1, ∃ c0 ∈ ol, c.pos = c0.pos := by
  intro ol
  induction ol with
  | nil =>
    intro ol1 h c hc
    simp only [rekey, Option.some.injEq] at h
    subst h
    cases hc
  | cons x rest ih =>
    intro ol1 h c hc
    unfold rekey at h
    cases hh : heuristic E s x.id with
    | none => simp [hh] at h
    | some hv =>
      cases hr : rekey E s rest with
      | none => simp [hh, hr] at h
      | some tl =>
        simp only [hh, hr, Option.bind_eq_bind, Option.some_bind, pure, Option.some.injEq] at h
        subst h
        rcases List.mem_cons.1 hc with rfl | hc
        · exact ⟨x, List.mem_cons_self _ _, rfl⟩
        · obtain ⟨c0, hc0, hp⟩ := ih tl hr c hc
          exact ⟨c0, List.mem_cons_of_mem _ hc0, hp⟩

theorem pathTraversal_sound (E : Env K) {fuel : ℕ} {s s1 : DStarLight K P}
    (hS : Sound E s) (h : pathTraversal E fuel s = some s1) : Sound E s1 := by
  obtain ⟨hSh, hOG, hL⟩ := hS
  rcases pathTraversal_elim E h with ⟨-, rfl⟩ | ⟨-, sid, c, s3, cell_id, hm, hc, hsim, hfin⟩
  · exact ⟨hSh, hOG, hL⟩
  · obtain ⟨f3, m3, o3, c3⟩ := simulateGridUpdate_elim hsim
    have hSh3 : Shape s3 := shape_frame (s := s) hSh f3.1 f3.2.2.2.2.2
    have hOG3 : OpenGeo s3 := by
      apply openGeo_frame (s := s) f3.2.2.2.2.2
      intro x hx
      rw [o3] at hx
      exact hOG x hx
    have hL3 := @lookaheadExcept_change K P _ E
      { s with start_id := sid, path := s.path ++ [c.p] } s3 f3.1 f3.2.1 f3.2.2.1 f3.2.2.2.2.2 m3
      (fun n => n ∈ cell_id) c3 (fun _ => False)
      (lookaheadExcept_of_inv E (s := { s with start_id := sid, path := s.path ++ [c.p] })
        hL fun _ => False)
    rcases hfin with ⟨he, rfl⟩ | ⟨-, s4, ol, hu, hr, hp⟩
    · refine ⟨hSh3, hOG3, lookaheadInv_of_except E ?_ hL3⟩
      rintro x (hb | ⟨_, _, nid, _, hd⟩)
      · exact hb
      · rw [he] at hd
        cases hd
    · obtain ⟨hL4, hex⟩ := updateChanged_lookahead E _ s3 s4 _ hL3 hu
      have hG4 := updateChanged_geo E ⟨hSh3, hOG3⟩ hu
      have hI4 : LookaheadInv E s4 := by
        refine lookaheadInv_of_except E ?_ hL4
        rintro x ⟨hb | ⟨cx, hcx, nid, hnid, hd⟩, hnot⟩
        · exact hb
        · apply hnot
          obtain ⟨cn, hcn⟩ := hex nid hd
          refine ⟨nid, hd, cn, hcn, ?_⟩
          obtain ⟨-, hxrm, hxi0, hxi1, hxj0, hxj1⟩ := hSh x cx hcx
          obtain ⟨-, hnrm, -, -, hnj0, hnj1⟩ := hSh3 nid cn hcn
          rw [f3.1]
          rw [f3.1] at hnrm hnj1
          have := neighbors_symm s.gridmap cx cn ⟨hxi0, hxi1, hxj0, hxj1⟩ ⟨hnj0, hnj1⟩
            (by rw [hnrm]; exact hnid)
          rw [hxrm] at this
          exact this
      have hS5 : Sound E { s4 with open_list := ol } := by
        refine ⟨hG4.1, ?_, hI4⟩
        intro x hx
        obtain ⟨x0, hx0, hpos⟩ := rekey_pos E s4 _ ol hr x hx
        have := hG4.2 x0 hx0
        have hid : x.id = x0.id := congrArg (fun p => p.2.2) hpos
        rw [hid, hpos]
        exact this
      exact planPath_sound E hS5 hp

theorem observed_sound (E : Env K) {s0 s : DStarLight K P} (hF : FreshShape s0)
    (h : Observed E s0 s) : Sound E s := by
  induction h with
  | init start goal s hi => exact initPath_sound E hF hi
  | step s b s1 _ hs ih => exact planStep_sound E ih hs
  | plan s fuel s1 _ hp ih => exact planPath_sound E ih hp
  | traverse s fuel s1 _ ht ih => exact pathTraversal_sound E ih ht

end LookTraversal

end Planner

namespace Planner

open Cpp

section Marks

variable {K P : Type} [LinearOrderedRing K]

theorem marked_of_mark {s s1 : DStarLight K P}
    (h : s1.grid.map Cell.mark = s.grid.map Cell.mark) (x : ℤ) (hm : Marked s x) :
    Marked s1 x := by
  obtain ⟨c, hc, hp⟩ := hm
  obtain ⟨c1, hc1, hmk⟩ := view_some Cell.mark h.symm hc
  refine ⟨c1, hc1, ?_⟩
  have : c1.parent_id = c.parent_id := congrArg Prod.snd hmk
  rw [this]
  exact hp

theorem updateCell_marked (E : Env K) {s s1 : DStarLight K P} {id : ℤ}
    (h : updateCell E s id = some s1) (x : ℤ) (hm : Marked s x) : Marked s1 x := by
  obtain ⟨c, c1, hc, hs1, -, -, hgoal, hlook, -⟩ := updateCell_elim E h
  obtain ⟨cx, hcx, hp⟩ := hm
  have h0 : 0 ≤ id := (at?_eq_some hc).1
  rw [hs1]
  by_cases hx : x = id
  · subst hx
    refine ⟨c1, at?_setAt_self _ hc, ?_⟩
    by_cases hg : x = s.goal_id
    · have : c1.parent_id = c.parent_id := congrArg Prod.snd (hgoal hg)
      rw [this]
      rw [hc] at hcx
      cases hcx
      exact hp
    · exact (hlook hg).2
  · exact ⟨cx, by rw [← hcx]; exact at?_setAt_ne _ _ h0 (Ne.symm hx), hp⟩

theorem ifPlanning_marked (E : Env K) {s s1 : DStarLight K P} {b : Bool}
    (h : ifPlanning E s = some (b, s1)) (x : ℤ) (hm : Marked s x) : Marked s1 x := by
  obtain ⟨hv, c, top, -, hc, -, hs1, -⟩ := ifPlanning_spec h
  subst hs1
  exact marked_of_mark (@view_setAt _ _ Cell.mark _ _ _ (c.setHKeys hv) hc rfl) x hm

theorem visitAll_marked (E : Env K) {s s1 : DStarLight K P} {l : List ℤ}
    (h : visitAll E s l = some s1) (x : ℤ) (hm : Marked s x) : Marked s1 x :=
  visitAll_ind E (fun y => Marked y x) (fun _ _ _ hI hu => updateCell_marked E hu x hI)
    (fun _ _ hI => hI) l s s1 hm h

theorem expand_marked (E : Env K) {s s1 : DStarLight K P} (h : expand E s = some s1)
    (x : ℤ) (hm : Marked s x) : Marked s1 x := by
  obtain ⟨min_cell, rest, c, v, s3, -, hc, hv, hfin⟩ := expand_elim E h
  have h2 : Marked ({ s with open_list := rest, curr_id := min_cell.id,
                             grid := setAt s.grid min_cell.id { c with g := v } } :
      DStarLight K P) x :=
    marked_of_mark (@view_setAt _ _ Cell.mark _ _ _ { c with g := v } hc rfl) x hm
  have h3 := visitAll_marked E hv x h2
  rcases hfin with rfl | ⟨s4, hu, rfl⟩
  · exact h3
  · exact updateCell_marked E hu x h3

theorem planStep_marked (E : Env K) {s s1 : DStarLight K P} {b : Bool}
    (h : planStep E s = some (b, s1)) (x : ℤ) (hm : Marked s x) : Marked s1 x := by
  rcases planStep_spec h with ⟨-, s2, hi, he⟩ | ⟨-, hi⟩
  · exact expand_marked E he x (ifPlanning_marked E hi x hm)
  · exact ifPlanning_marked E hi x hm

theorem planPath_marked (E : Env K) {n : ℕ} {s s1 : DStarLight K P}
    (h : planPath E n s = some s1) (x : ℤ) (hm : Marked s x) : Marked s1 x :=
  planLoop_ind E (fun y => Marked y x) (fun _ _ _ hI hs => planStep_marked E hs x hI)
    n { s with visited := [] } s1 hm h

end Marks

section MarksTraversal

variable {K P : Type} [LinearOrderedRing K] [FloorRing K]

theorem updateChanged_marked (E : Env K) {s s1 : DStarLight K P} {l : List ℤ}
    (h : updateChanged E s l = some s1) (x : ℤ) (hm : Marked s x) : Marked s1 x :=
  updateChanged_ind E (fun y => Marked y x) (fun _ _ _ hI hu => updateCell_marked E hu x hI)
    l s s1 hm h

theorem pathTraversal_marked (E : Env K) {fuel : ℕ} {s s1 : DStarLight K P}
    (h : pathTraversal E fuel s = some s1) (x : ℤ) (hm : Marked s x) : Marked s1 x := by
  rcases pathTraversal_elim E h with ⟨-, rfl⟩ | ⟨-, sid, c, s3, cell_id, -, -, hsim, hfin⟩
  · exact hm
  · obtain ⟨-, m3, -, -⟩ := simulateGridUpdate_elim hsim
    have h3 : Marked s3 x :=
      marked_of_mark (s := { s with start_id := sid, path := s.path ++ [c.p] }) m3 x hm
    rcases hfin with ⟨-, rfl⟩ | ⟨-, s4, ol, hu, -, hp⟩
    · exact h3
    · have h4 : Marked s4 x := updateChanged_marked E hu x h3
      have h5 : Marked ({ s4 with open_list := ol } : DStarLight K P) x := h4
      exact planPath_marked E hp x h5

/-- Claim C24: in every state observed from a fresh planner with a well-formed
grid (after `initPath`, between `planPath` loop iterations, after `planPath` and
after `pathTraversal`), every cell `x` other than the goal whose parent link is
set satisfies the one-step lookahead: `parent_id(x)` is an in-bounds neighbour,
`rhs(x) = g(parent) + edgeCost(x, parent)`, and `rhs(x) ≤ g(n) + edgeCost(x, n)`
for every in-bounds neighbour `n`, with the current `g` and occupancy states.
The cells with a parent link are those passed to `updateCell`: a fresh cell has
`parent_id = -1`, `updateCell` on a cell other than the goal leaves
`parent_id ≥ 0`, and a cell with `parent_id ≥ 0` keeps such a link through
`updateCell`, a `planPath` loop iteration, `planPath` and `pathTraversal`. -/
theorem lookahead_invariant (E : Env K) (s0 s : DStarLight K P) (hF : FreshShape s0)
    (h : Observed E s0 s) :
    (∀ x c, at? s.grid x = some c → x ≠ s.goal_id → c.parent_id ≠ -1 → Lookahead E s x c) ∧
    (∀ id s1, id ≠ s.goal_id → updateCell E s id = some s1 → Marked s1 id) ∧
    (∀ x, Marked s x →
      (∀ id s1, updateCell E s id = some s1 → Marked s1 x) ∧
      (∀ b s1, planStep E s = some (b, s1) → Marked s1 x) ∧
      (∀ fuel s1, planPath E fuel s = some s1 → Marked s1 x) ∧
      (∀ fuel s1, pathTraversal E fuel s = some s1 → Marked s1 x)) := by
  refine ⟨(observed_sound E hF h).2.2, ?_, ?_⟩
  · intro id s1 hid hu
    obtain ⟨c, c1, hc, hs1, -, -, -, hlook, -⟩ := updateCell_elim E hu
    refine ⟨c1, ?_, (hlook hid).2⟩
    rw [hs1]
    exact at?_setAt_self _ hc
  · intro x hx
    exact ⟨fun _ _ hu => updateCell_marked E hu x hx, fun _ _ hp => planStep_marked E hp x hx,
      fun _ _ hp => planPath_marked E hp x hx, fun _ _ hp => pathTraversal_marked E hp x hx⟩

end MarksTraversal

end Planner

/-! ## The planner: consistency of the heuristic -/

namespace Planner

open Cpp

section Heuristic

variable {P : Type}

end Heuristic

end Planner

namespace Planner

open Cpp

end Planner

/-! ## The planner: traversals of the corridor -/

namespace Planner

open Cpp

theorem freshPlanner_freshShape {K P : Type} [LinearOrderedRing K] (xs ys : ℕ) (pt : ℕ → P)
    (st : ℕ → ℤ) (w : P → ℤ × ℤ) (vizd : K) : FreshShape (freshPlanner xs ys pt st w vizd) := by
  refine ⟨rfl, ?_, ?_⟩
  · intro id c hc
    obtain ⟨h0, -, hg⟩ := at?_eq_some hc
    simp only [freshPlanner, freshGrid, List.getElem?_map] at hg
    cases hr : (List.range (xs * ys))[id.toNat]? with
    | none => simp [hr] at hg
    | some n =>
      obtain ⟨hlt, he⟩ := List.getElem?_eq_some.1 hr
      rw [List.getElem_range] at he
      rw [List.length_range] at hlt
      simp only [hr, Option.map_some', Option.some.injEq] at hg
      subst hg
      have hn : (n : ℤ) = id := by omega
      have hys : 0 < ys := by
        rcases Nat.eq_zero_or_pos ys with h | h
        · rw [h, Nat.mul_zero] at hlt
          omega
        · exact h
      have hdiv : n / ys < xs := by
        apply Nat.div_lt_of_lt_mul
        rw [Nat.mul_comm]
        omega
      have hmod : n % ys < ys := Nat.mod_lt _ hys
      refine ⟨hn, ?_, ?_, ?_, ?_, ?_⟩
      · show ((n / ys : ℕ) : ℤ) * (ys : ℤ) + ((n % ys : ℕ) : ℤ) = id
        rw [← hn]
        have := Nat.div_add_mod' n ys
        exact_mod_cast this
      · exact Int.natCast_nonneg _
      · show ((n / ys : ℕ) : ℤ) < (xs : ℤ)
        exact_mod_cast hdiv
      · exact Int.natCast_nonneg _
      · show ((n % ys : ℕ) : ℤ) < (ys : ℤ)
        exact_mod_cast hmod
  · intro id c hc
    obtain ⟨h0, -, hg⟩ := at?_eq_some hc
    simp only [freshPlanner, freshGrid, List.getElem?_map] at hg
    cases hr : (List.range (xs * ys))[id.toNat]? with
    | none => simp [hr] at hg
    | some n =>
      simp only [hr, Option.map_some', Option.some.injEq] at hg
      subst hg
      rfl

theorem corridorAtGoal_eq : pathTraversal exampleEnv 10 corridorDone = some corridorAtGoal :=
  eq_some_getD _ (by decide!)

theorem corridorFlagged_eq : pathTraversal exampleEnv 10 corridorAtGoal = some corridorFlagged :=
  eq_some_getD _ (by decide!)

theorem corridorAway_eq : pathTraversal exampleEnv 10 corridorFlagged = some corridorAway :=
  eq_some_getD _ (by decide!)

theorem corridorBack_eq : pathTraversal exampleEnv 10 corridorAway = some corridorBack :=
  eq_some_getD _ (by decide!)

theorem corridorAway_reachable : Reachable exampleEnv corridorAway :=
  Reachable.traverse corridorFlagged 10 corridorAway
    (Reachable.traverse corridorAtGoal 10 corridorFlagged
      (Reachable.traverse corridorDone 10 corridorAtGoal
        (Reachable.plan corridorStart 10 corridorDone
          (Reachable.init corridor (0, 1) (0, 0) corridorStart
            (freshPlanner_fresh 1 4 _ _ _ _) corridorStart_eq)
          corridorDone_eq)
        corridorAtGoal_eq)
      corridorFlagged_eq)
    corridorAway_eq

/-- Witness for claim C21: the corridor after `initPath` and `planPath`, with the
robot on cell `1`; the call returns with the robot on cell `0`. -/
theorem pathTraversal_moves_to_min_free_neighbor_witness :
    (pathTraversal exampleEnv 10 corridorDone = some corridorAtGoal ∧
      corridorDone.start_id = 1 ∧ corridorAtGoal.start_id = 0 ∧
      corridorAtGoal.path = [(0, 0)]) ∧
    ∃ (n : ℤ) (cn : Cell ℚ (ℤ × ℤ)) (e : ℚ),
      minNeighbor exampleEnv corridorDone corridorDone.start_id true = some n ∧
      n ∈ neighbors corridorDone.gridmap corridorRobotCell ∧
      at? corridorDone.grid n = some cn ∧ cn.state ≠ 1 ∧ cn.state ≠ 2 ∧
      n ≠ corridorDone.start_id ∧
      edgeCost exampleEnv corridorDone corridorDone.start_id n = some e ∧
      (∀ nid ∈ neighbors corridorDone.gridmap corridorRobotCell,
        ∀ m e1, at? corridorDone.grid nid = some m → m.state ≠ 1 → m.state ≠ 2 →
          edgeCost exampleEnv corridorDone corridorDone.start_id nid = some e1 →
          cn.g + e ≤ m.g + e1) ∧
      ∀ fuel s1, pathTraversal exampleEnv fuel corridorDone = some s1 →
        s1.start_id = n ∧ s1.path = corridorDone.path ++ [cn.p] :=
  ⟨⟨corridorAtGoal_eq, by decide!, by decide!, by decide!⟩,
    pathTraversal_moves_to_min_free_neighbor exampleEnv corridorDone
      corridorRobotCell (eq_some_getD _ (by decide!)) (by decide!) (by decide!)
      (fun nid hnid => Option.isSome_iff_exists.1
        ((by decide! : ∀ x ∈ neighbors corridorDone.gridmap corridorRobotCell,
          (at? corridorDone.grid x).isSome = true) nid hnid))
      ⟨0, by decide!, (at? corridorDone.grid 0).getD (corridorCell 0),
        eq_some_getD _ (by decide!), by decide!, by decide!⟩
      (by decide!)⟩

/-- Counterexample to claim C22 as stated: the corridor after `initPath`,
`planPath` and three `pathTraversal` calls has the robot on cell `1` and the
cells `2` and `3` in the open list.  The fourth `pathTraversal` moves the robot
to cell `0` and reveals no cell, so the open list is not touched: its cells
keep `h = 1` and `h = 2`, the distances to the old start, while their distances
to the new start are `2` and `3`. -/
theorem pathTraversal_no_reveal_counterexample :
    Reachable exampleEnv corridorAway ∧
    pathTraversal exampleEnv 10 corridorAway = some corridorBack ∧
    corridorAway.start_id = 1 ∧ corridorBack.start_id = 0 ∧
    (moveAndReveal exampleEnv corridorAway).map Prod.snd = some [] ∧
    corridorBack.open_list.map (fun c => (c.id, c.h)) = [(2, 1), (3, 2)] ∧
    corridorBack.open_list.map (fun c => heuristic exampleEnv corridorBack c.id)
      = [some 2, some 3] ∧
    ¬ KeyInv exampleEnv corridorBack :=
  ⟨corridorAway_reachable, corridorBack_eq, by decide!, by decide!, by decide!, by decide!,
    by decide!,
    fun h => absurd
      (h ((corridorBack.open_list.head?).getD (corridorCell 2))
        (List.mem_of_mem_head? (eq_some_getD _ (by decide!)))).1
      (by decide!)⟩

/-- Witness for the amended claim C22: the first `pathTraversal` on the planned
corridor moves the robot from cell `1` to cell `0` and reveals cells `0`
and `1`. -/
theorem pathTraversal_rekeys_after_reveal_witness :
    (moveAndReveal exampleEnv corridorDone).map Prod.snd = some [0, 1] ∧
    corridorAtGoal.start_id
      = ((moveAndReveal exampleEnv corridorDone).getD (corridor, [])).1.start_id ∧
    KeyInv exampleEnv corridorAtGoal :=
  ⟨by decide!,
    pathTraversal_rekeys_after_reveal exampleEnv 10 corridorDone corridorAtGoal
      ((moveAndReveal exampleEnv corridorDone).getD (corridor, [])).1
      ((moveAndReveal exampleEnv corridorDone).getD (corridor, [])).2
      (Reachable.plan corridorStart 10 corridorDone
        (Reachable.init corridor (0, 1) (0, 0) corridorStart
          (freshPlanner_fresh 1 4 _ _ _ _) corridorStart_eq)
        corridorDone_eq)
      (by decide!) (eq_some_getD _ (by decide!)) (by decide!) corridorAtGoal_eq⟩

/-- Witness for claim C24: the corridor after `initPath`, `planPath` and one
`pathTraversal`. -/
theorem lookahead_invariant_witness :
    (Marked corridorAtGoal 1 ∧ corridorAtGoal.goal_id = 0) ∧
    (∀ x c, at? corridorAtGoal.grid x = some c → x ≠ corridorAtGoal.goal_id →
      c.parent_id ≠ -1 → Lookahead exampleEnv corridorAtGoal x c) ∧
    (∀ id s1, id ≠ corridorAtGoal.goal_id →
      updateCell exampleEnv corridorAtGoal id = some s1 → Marked s1 id) ∧
    (∀ x, Marked corridorAtGoal x →
      (∀ id s1, updateCell exampleEnv corridorAtGoal id = some s1 → Marked s1 x) ∧
      (∀ b s1, planStep exampleEnv corridorAtGoal = some (b, s1) → Marked s1 x) ∧
      (∀ fuel s1, planPath exampleEnv fuel corridorAtGoal = some s1 → Marked s1 x) ∧
      (∀ fuel s1, pathTraversal exampleEnv fuel corridorAtGoal = some s1 → Marked s1 x)) :=
  ⟨⟨⟨(at? corridorAtGoal.grid 1).getD (corridorCell 1), eq_some_getD _ (by decide!),
      by decide!⟩, by decide!⟩,
    lookahead_invariant exampleEnv corridor corridorAtGoal (freshPlanner_freshShape 1 4 _ _ _ _)
      (Observed.traverse corridorDone 10 corridorAtGoal
        (Observed.plan corridorStart 10 corridorDone
          (Observed.init (0, 1) (0, 0) corridorStart corridorStart_eq) corridorDone_eq)
        corridorAtGoal_eq)⟩

end Planner

/-! ## The particle filter: the covariance of the Gaussian proposal -/

namespace PF

open Cpp

section Covariance

variable {K G S T M : Type} [LinearOrderedField K] [FloorRing K]

theorem symmPSD_zero : SymmPSD (0 : Matrix3d K) := by
  refine ⟨fun _ _ => rfl, fun v => ?_⟩
  simp

theorem symmPSD_add {A B : Matrix3d K} (hA : SymmPSD A) (hB : SymmPSD B) : SymmPSD (A + B) := by
  refine ⟨fun a b => ?_, fun v => ?_⟩
  · simp only [Matrix.add_apply, hA.1 a b, hB.1 a b]
  · rw [Matrix.add_mulVec, Matrix.dotProduct_add]
    exact add_nonneg (hA.2 v) (hB.2 v)

theorem symmPSD_smul {A : Matrix3d K} (hA : SymmPSD A) {c : K} (hc : 0 ≤ c) :
    SymmPSD (c • A) := by
  refine ⟨fun a b => ?_, fun v => ?_⟩
  · simp only [Matrix.smul_apply, hA.1 a b]
  · rw [Matrix.smul_mulVec_assoc, Matrix.dotProduct_smul]
    exact mul_nonneg hc (hA.2 v)

theorem symmPSD_vecMulVec (d : Vector3d K) : SymmPSD (Matrix.vecMulVec d d) := by
  refine ⟨fun a b => ?_, fun v => ?_⟩
  · simp only [Matrix.vecMulVec_apply, mul_comm]
  · have h : Matrix.dotProduct v ((Matrix.vecMulVec d d).mulVec v)
        = Matrix.dotProduct v d * Matrix.dotProduct v d := by
      simp only [Matrix.dotProduct, Matrix.mulVec, Matrix.vecMulVec_apply, Fin.sum_univ_three]
      ring
    rw [h]
    exact mul_self_nonneg _

theorem symmPSD_sum (l : List (Matrix3d K)) (h : ∀ A ∈ l, SymmPSD A) : SymmPSD l.sum := by
  induction l with
  | nil => exact symmPSD_zero
  | cons A rest ih =>
    rw [List.sum_cons]
    exact symmPSD_add (h A (List.mem_cons_self _ _))
      (ih fun B hB => h B (List.mem_cons_of_mem _ hB))

theorem symmPSD_div {A : Matrix3d K} (hA : SymmPSD A) {c : K} (hc : 0 ≤ c) :
    SymmPSD (fun a b => A a b / c) := by
  have h : (fun a b => A a b / c) = c⁻¹ • A := by
    funext a b
    simp only [Matrix.smul_apply, smul_eq_mul, div_eq_inv_mul]
  rw [h]
  exact symmPSD_smul hA (inv_nonneg.2 hc)

theorem clamp_nonneg {v lo hi : K} (hlo : 0 ≤ lo) (hhi : 0 ≤ hi) : 0 ≤ clamp v lo hi := by
  unfold clamp
  split_ifs with h1 h2
  · exact hlo
  · exact hhi
  · exact le_trans hlo (not_lt.1 h1)

theorem proposalWeight_nonneg (X : Ext K G S T M) (pf : ParticleFilter K G)
    (particle : Particle K G) (scan : S) (cur_odom prev_odom xj : Vector3d K)
    (hs0 : 0 ≤ pf.scan_likelihood_min_) (hs1 : 0 ≤ pf.scan_likelihood_max_)
    (hp0 : 0 ≤ pf.pose_likelihood_min_) (hp1 : 0 ≤ pf.pose_likelihood_max_) :
    0 ≤ proposalWeight X pf particle scan cur_odom prev_odom xj :=
  mul_nonneg (clamp_nonneg hs0 hs1) (clamp_nonneg hp0 hp1)

theorem gaussianProposal_value (X : Ext K G S T M) (pf : ParticleFilter K G)
    (poses : List (Vector3d K)) (particle : Particle K G) (scan : S)
    (cur_odom prev_odom : Vector3d K) (hk : 0 ≤ pf.k_) (hlen : poses.length = pf.k_.toNat)
    (hae : almost_equal X (etaSpec X pf poses particle scan cur_odom prev_odom) 0 = false) :
    gaussianProposal X pf poses particle scan cur_odom prev_odom 0 0 0
      = .ok (muSpec X pf poses particle scan cur_odom prev_odom,
          sigmaSpec X pf poses particle scan cur_odom prev_odom,
          etaSpec X pf poses particle scan cur_odom prev_odom) := by
  have hrun := proposalLoop1_run X pf poses particle scan cur_odom prev_odom hlen 0 0
  have hl2 := fun mu => proposalLoop2_eq
    (proposalWeight X pf particle scan cur_odom prev_odom) mu poses [] 0
  simp only [List.nil_append, List.length_nil, Nat.cast_zero, zero_add, hlen] at hl2
  rw [zero_add, zero_add] at hrun
  unfold gaussianProposal
  rw [if_neg (not_lt.2 hk), hrun]
  simp only [bind, Except.bind]
  rw [show (poses.map (proposalWeight X pf particle scan cur_odom prev_odom)).sum
    = etaSpec X pf poses particle scan cur_odom prev_odom from rfl, hae]
  simp only [Bool.false_eq_true, if_false]
  rw [hl2]
  rfl

/-- Claim C25: for `k_ ≥ 1` sampled poses, non-negative clamp bounds and a
normaliser `η` that is not almost equal to `0` (with a positive tolerance),
`gaussianProposal`, started from the zero vector, the zero matrix and `η = 0`,
returns normally with `η > 0` and a covariance that is symmetric and positive
semidefinite (`vᵀ·Σ·v ≥ 0` for every `v`).  For a single sampled pose whose
angle is already wrapped the covariance is the zero matrix, which is not
positive definite. -/
theorem gaussianProposal_covariance_psd (X : Ext K G S T M) (pf : ParticleFilter K G)
    (poses : List (Vector3d K)) (particle : Particle K G) (scan : S)
    (cur_odom prev_odom : Vector3d K)
    (hk : 1 ≤ pf.k_) (hlen : poses.length = pf.k_.toNat) (heps : 0 < X.eps)
    (hs0 : 0 ≤ pf.scan_likelihood_min_) (hs1 : 0 ≤ pf.scan_likelihood_max_)
    (hp0 : 0 ≤ pf.pose_likelihood_min_) (hp1 : 0 ≤ pf.pose_likelihood_max_)
    (hae : almost_equal X (etaSpec X pf poses particle scan cur_odom prev_odom) 0 = false) :
    ∃ (mu : Vector3d K) (sigma : Matrix3d K) (eta : K),
      gaussianProposal X pf poses particle scan cur_odom prev_odom 0 0 0
        = .ok (mu, sigma, eta) ∧
      0 < eta ∧
      (∀ a b, sigma a b = sigma b a) ∧
      (∀ v : Vector3d K, 0 ≤ Matrix.dotProduct v (sigma.mulVec v)) ∧
      (∀ x : Vector3d K, poses = [x] → X.normalize_angle_PI (x 0) = x 0 →
        sigma = 0 ∧
        ¬ ∀ v : Vector3d K, v ≠ 0 → 0 < Matrix.dotProduct v (sigma.mulVec v)) := by
  have hW : ∀ xj, 0 ≤ proposalWeight X pf particle scan cur_odom prev_odom xj :=
    fun xj => proposalWeight_nonneg X pf particle scan cur_odom prev_odom xj hs0 hs1 hp0 hp1
  have heta0 : 0 ≤ etaSpec X pf poses particle scan cur_odom prev_odom := by
    unfold etaSpec
    apply List.sum_nonneg
    intro w hw
    obtain ⟨xj, -, rfl⟩ := List.mem_map.1 hw
    exact hW xj
  have hne : etaSpec X pf poses particle scan cur_odom prev_odom ≠ 0 := by
    intro h0
    rw [h0] at hae
    simp [almost_equal, heps] at hae
  have hpos : 0 < etaSpec X pf poses particle scan cur_odom prev_odom :=
    lt_of_le_of_ne heta0 (Ne.symm hne)
  have hpsd : SymmPSD (sigmaSpec X pf poses particle scan cur_odom prev_odom) := by
    unfold sigmaSpec
    apply symmPSD_div _ heta0
    apply symmPSD_sum
    intro A hA
    obtain ⟨xj, -, rfl⟩ := List.mem_map.1 hA
    exact symmPSD_smul (symmPSD_vecMulVec _) (hW xj)
  refine ⟨_, _, _,
    gaussianProposal_value X pf poses particle scan cur_odom prev_odom
      (le_trans zero_le_one hk) hlen hae,
    hpos, hpsd.1, hpsd.2, ?_⟩
  intro x hx hwrap
  subst hx
  have heta : etaSpec X pf [x] particle scan cur_odom prev_odom
      = proposalWeight X pf particle scan cur_odom prev_odom x := by
    simp [etaSpec]
  have hWne : proposalWeight X pf particle scan cur_odom prev_odom x ≠ 0 := by
    rw [← heta]; exact hne
  have hmu : muSpec X pf [x] particle scan cur_odom prev_odom = x := by
    unfold muSpec
    simp only [heta, List.map_cons, List.map_nil, List.sum_cons, List.sum_nil, add_zero,
      Pi.smul_apply, smul_eq_mul, mul_div_cancel_left₀ _ hWne, hwrap]
    funext i
    fin_cases i <;> rfl
  have hsig : sigmaSpec X pf [x] particle scan cur_odom prev_odom = 0 := by
    unfold sigmaSpec
    simp only [hmu, sub_self]
    funext a b
    simp [Matrix.vecMulVec_apply]
  refine ⟨hsig, ?_⟩
  intro hall
  have := hall ![1, 0, 0] (by
    intro h0
    have := congrFun h0 0
    simp at this)
  rw [hsig] at this
  simp at this

end Covariance

/-- Witness for claim C25: eight sampled poses with all likelihoods `1`, and a
single sampled pose at the origin, for which the covariance is zero. -/
theorem gaussianProposal_covariance_psd_witness :
    (∃ (mu : Vector3d ℚ) (sigma : Matrix3d ℚ) (eta : ℚ),
      gaussianProposal exampleExt (exampleFilter [1]) examplePoses
          ⟨1, 0, ![0, 0, 0], ![0, 0, 0]⟩ () ![0, 0, 0] ![0, 0, 0] 0 0 0
        = .ok (mu, sigma, eta) ∧
      0 < eta ∧
      (∀ a b, sigma a b = sigma b a) ∧
      (∀ v : Vector3d ℚ, 0 ≤ Matrix.dotProduct v (sigma.mulVec v))) ∧
    (∃ (mu : Vector3d ℚ) (sigma : Matrix3d ℚ) (eta : ℚ),
      gaussianProposal exampleExt { exampleFilter [1] with k_ := 1 } [![0, 0, 0]]
          ⟨1, 0, ![0, 0, 0], ![0, 0, 0]⟩ () ![0, 0, 0] ![0, 0, 0] 0 0 0
        = .ok (mu, sigma, eta) ∧
      0 < eta ∧ sigma = 0) :=
  ⟨match gaussianProposal_covariance_psd exampleExt (exampleFilter [1]) examplePoses
      ⟨1, 0, ![0, 0, 0], ![0, 0, 0]⟩ () ![0, 0, 0] ![0, 0, 0]
      (by decide) (by decide) (by decide!) (by decide!) (by decide!) (by decide!) (by decide!)
      (by decide!) with
    | ⟨mu, sigma, eta, h1, h2, h3, h4, _⟩ => ⟨mu, sigma, eta, h1, h2, h3, h4⟩,
   match gaussianProposal_covariance_psd exampleExt { exampleFilter [1] with k_ := 1 }
      [![0, 0, 0]] ⟨1, 0, ![0, 0, 0], ![0, 0, 0]⟩ () ![0, 0, 0] ![0, 0, 0]
      (by decide) (by decide) (by decide!) (by decide!) (by decide!) (by decide!) (by decide!)
      (by decide!) with
    | ⟨mu, sigma, eta, h1, h2, _, _, h5⟩ => ⟨mu, sigma, eta, h1, h2, (h5 _ rfl (by decide!)).1⟩⟩

end PF
